import Mathlib

/-!
# shortenfs: the block translation layer (`internal/shortenfs.go`)

A shallow embedding of `ShortenBlock` (tree of shortener-backed nodes presenting a
contiguous byte volume) together with the properties of its read / write paths.

Modelling conventions.

* Go `[]byte` and `string` values are lists of bytes (`Bytes`); `string(data)` and
  `[]byte(s)` are the identity.
* The shortener (`drivers.Driver`) is an interface with external state.  It is a record of
  functions over an explicit store state `σ`; both `Read` and `Write` thread that state.
* `readCache` is a package-level variable; together with the shortener's state it forms the
  `World` every operation threads.  Expiry is time-driven and is not modelled inside an
  operation; theorems that quantify over the cache cover any expiry between operations.
* `*Node` pointers: a node is reached from the root by the list of child indexes that
  `getLeaf` follows, and `parent` is the back-reference along that same list, so `nodeWrite`
  (which climbs `parent` pointers) is a recursion over the path that rebuilds the ancestors
  on the way back up.
* Go `int` values that the code keeps non-negative (offsets, sizes, lengths, leaf indexes)
  are natural numbers; they are below `2 ^ 63`.
* `float64` arithmetic is modelled bit for bit: a finite non-negative `float64` is a
  53-bit significand with a binary exponent (`F64`), `float64(n)` and the `float64` division
  round to nearest, ties to even (`f64Round`), and `math.Pow` is the square-and-multiply loop
  of the Go library on these values (`f64Pow`).  The results therefore differ from the exact
  power and the exact ceiling once they leave the 53 bits of the significand.  The
  conversion `int(f)` of a value that does not fit an `int` is implementation-dependent in
  Go; it is taken as on amd64 (the minimum `int64`).  The `math.Min` of line 254 is applied
  to two lengths of slices held in memory, where it is exact.
* A Go run-time panic (division by zero, index or slice bounds out of range, nil
  dereference) is the outcome `Res.panic`.
* A byte slice is its contents; its capacity is taken to be its length (so it is for the
  slices of `bytes.Repeat` and for those both drivers return, which come from
  `base64.DecodeString`).  The one place where two slices share a backing array that is
  then written, the `append` of `Write` into the slice held by `readCache`, is modelled by
  an explicit update of the cache entry (`cacheOverwrite`).
-/

set_option linter.unusedVariables false
set_option maxRecDepth 8000

namespace ShortenFS

/-- A Go byte slice or string. -/
abbrev Bytes := List UInt8

/-- An opaque Go `error` value returned by the shortener. -/
structure Err where
  code : Nat
  deriving DecidableEq, Repr

/-- Outcome of a call: a normal return, a returned `error`, or a run-time panic. -/
inductive Res (α : Type) where
  | ok (a : α)
  | err (e : Err)
  | panic
  deriving DecidableEq, Repr

/-- Interface `drivers.Driver` (`internal/drivers/drivers.go`), over a store state `σ`. -/
structure Driver (σ : Type) where
  NodeSize : Nat
  IdSize : Nat
  Read : σ → Bytes → Except Err Bytes × σ
  Write : σ → Bytes → Except Err Bytes × σ

/-- Struct `Node`: `id` and `children`; `parent` is implicit in the position of the node. -/
inductive Node where
  | mk (id : Bytes) (children : List Node)

/-- Field `id` of a node. -/
def Node.id : Node → Bytes
  | .mk i _ => i

/-- Field `children` of a node. -/
def Node.children : Node → List Node
  | .mk _ c => c

/-- Struct `config.ShortenBlockConfig` (the fields the block reads). -/
structure ShortenBlockConfig where
  RootID : Bytes
  Depth : Int

/-- Struct `ShortenBlock`. -/
structure ShortenBlock (σ : Type) where
  depth : Nat
  tree : Node
  shortener : Driver σ
  idsPerNode : Nat

/-- The state outside the block: the shortener's store and the package-level `readCache`
(identifier ↦ byte slice, most recent first). -/
structure World (σ : Type) where
  store : σ
  readCache : List (Bytes × Bytes)

/-! ## `float64` and `int` arithmetic -/

/-- Number of binary digits of `n` with `fuel` steps of halving. -/
def bitLenAux : Nat → Nat → Nat
  | 0, _ => 0
  | fuel + 1, n => if n = 0 then 0 else bitLenAux fuel (n / 2) + 1

/-- Number of binary digits of `n`: 0 for 0, else the `l` with `2 ^ (l - 1) ≤ n < 2 ^ l`. -/
def bitLen (n : Nat) : Nat := bitLenAux n n

/-- A finite non-negative `float64`: the value `mant * 2 ^ exp`.  A non-zero value has
`2 ^ 52 ≤ mant < 2 ^ 53` (the 53 bits of the significand); zero is `⟨0, 0⟩`. -/
structure F64 where
  mant : Nat
  exp : Int
  deriving DecidableEq, Repr

/-- Round to nearest, ties to even: `a / b` as an integer. -/
def roundEven (a b : Nat) : Nat :=
  if b < 2 * (a % b) ∨ (2 * (a % b) = b ∧ (a / b) % 2 = 1) then a / b + 1 else a / b

/-- A significand that rounding has carried to `2 ^ 53` is `2 ^ 52` with the next exponent. -/
def f64Norm (m : Nat) (e : Int) : F64 :=
  if m = 2 ^ 53 then ⟨2 ^ 52, e + 1⟩ else ⟨m, e⟩

/-- The `float64` nearest to `num / den`, ties to the even significand (IEEE 754
round-to-nearest-even), for a quotient in the normal range.  The quotient is scaled by a power
of two into `[2 ^ 52, 2 ^ 54)`, halved once more when it is not below `2 ^ 53`, and rounded
to an integer significand.  (`den = 0` does not occur: `Read` and `Write` panic on a zero
`NodeSize` before they divide.) -/
def f64Round (num den : Nat) : F64 :=
  if num = 0 ∨ den = 0 then ⟨0, 0⟩
  else if num * 2 ^ (53 + bitLen den - bitLen num)
      / (den * 2 ^ (bitLen num - (53 + bitLen den))) < 2 ^ 53 then
    f64Norm
      (roundEven (num * 2 ^ (53 + bitLen den - bitLen num))
        (den * 2 ^ (bitLen num - (53 + bitLen den))))
      ((bitLen num : Int) - (bitLen den : Int) - 53)
  else
    f64Norm
      (roundEven (num * 2 ^ (53 + bitLen den - bitLen num))
        (2 * (den * 2 ^ (bitLen num - (53 + bitLen den)))))
      ((bitLen num : Int) - (bitLen den : Int) - 53 + 1)

/-- The integer part of a `float64`. -/
def F64.trunc (x : F64) : Nat :=
  if 0 ≤ x.exp then x.mant * 2 ^ x.exp.toNat else x.mant / 2 ^ (-x.exp).toNat

/-- `math.Ceil`, as the integer it returns. -/
def F64.ceil (x : F64) : Nat :=
  if 0 ≤ x.exp then x.mant * 2 ^ x.exp.toNat
  else (x.mant + 2 ^ (-x.exp).toNat - 1) / 2 ^ (-x.exp).toNat

/-- The conversion `int(f)` of a non-negative integer-valued `float64`: the value itself when
it fits an `int`, else (implementation-dependent in Go) the minimum `int64`, as on amd64. -/
def goInt (v : Nat) : Int := if v < 2 ^ 63 then (v : Int) else -(2 ^ 63)

/-- The conversion `float64(n)` of a non-negative `int`, as the integer value of the result. -/
def f64OfNat (n : Nat) : Nat := (f64Round n 1).trunc

/-- The `float64` product. -/
def F64.mul (x y : F64) : F64 :=
  ⟨(f64Round (x.mant * y.mant) 1).mant, (f64Round (x.mant * y.mant) 1).exp + x.exp + y.exp⟩

/-- The loop of `math.Pow` (`for i := int64(yi); i != 0; i >>= 1`): the answer is kept as
`a1 * 2 ^ ae` and the running square of the base as `x1 * 2 ^ xe` with `x1` in `[1/2, 1)`. -/
def powLoop : Nat → Nat → F64 → Int → F64 → Int → F64 × Int
  | 0, _, a1, ae, _, _ => (a1, ae)
  | fuel + 1, i, a1, ae, x1, xe =>
    if i = 0 then (a1, ae)
    -- catastrophic overflow
    else if xe < -4096 ∨ 4096 < xe then (a1, ae + xe)
    else
      powLoop fuel (i / 2)
        (if i % 2 = 1 then a1.mul x1 else a1)
        (if i % 2 = 1 then ae + xe else ae)
        -- `x1 *= x1`, and `x1 += x1` when the square is below 1/2
        (if 2 * (x1.mul x1).mant < 2 ^ (-(x1.mul x1).exp).toNat then
          ⟨(x1.mul x1).mant, (x1.mul x1).exp + 1⟩
         else x1.mul x1)
        (if 2 * (x1.mul x1).mant < 2 ^ (-(x1.mul x1).exp).toNat then 2 * xe - 1 else 2 * xe)

/-- `math.Pow(x, y)` of the Go library for non-negative integer-valued `x` and `y`: the
special cases `y == 0 || x == 1`, `y == 1`, `x == 0`, `yi >= 1<<63` (the result `+Inf` is
`none`), then `Frexp`, the loop and `Ldexp`. -/
def f64Pow (x y : Nat) : Option F64 :=
  if y = 0 ∨ x = 1 then some ⟨2 ^ 52, -52⟩
  else if y = 1 then some (f64Round x 1)
  else if x = 0 then some ⟨0, 0⟩
  else if 2 ^ 63 ≤ y then none
  else
    some
      ⟨(powLoop 64 y ⟨2 ^ 52, -52⟩ 0 ⟨(f64Round x 1).mant, -53⟩
          ((f64Round x 1).exp + 53)).1.mant,
        (powLoop 64 y ⟨2 ^ 52, -52⟩ 0 ⟨(f64Round x 1).mant, -53⟩
          ((f64Round x 1).exp + 53)).1.exp
        + (powLoop 64 y ⟨2 ^ 52, -52⟩ 0 ⟨(f64Round x 1).mant, -53⟩
          ((f64Round x 1).exp + 53)).2⟩

/-- `int(math.Pow(float64(k), float64(d)))`. -/
def intPow (k d : Nat) : Int :=
  match f64Pow (f64OfNat k) (f64OfNat d) with
  | none => -(2 ^ 63)
  | some f => goInt f.trunc

/-- An `int` result reduced to 64 bits, two's complement. -/
def wrap64 (z : Int) : Int := (z + 2 ^ 63) % 2 ^ 64 - 2 ^ 63

/-- `NewShortenBlock`: `log.Fatalf` on a non-positive depth ends the process (`none`). -/
def NewShortenBlock {σ : Type} (shortener : Driver σ) (config : ShortenBlockConfig) :
    Option (ShortenBlock σ) :=
  if config.Depth ≤ 0 then none
  else some
    { depth := config.Depth.toNat
      tree := .mk config.RootID []
      shortener := shortener
      idsPerNode := (shortener.NodeSize + 1) / (shortener.IdSize + 1) }

/-- `readCache.Get`. -/
def cacheGet : List (Bytes × Bytes) → Bytes → Option Bytes
  | [], _ => none
  | (k, v) :: rest, id => if k = id then some v else cacheGet rest id

/-- `readCache.SetDefault`: the entry for `id` is replaced. -/
def cacheSet (c : List (Bytes × Bytes)) (id data : Bytes) : List (Bytes × Bytes) :=
  (id, data) :: c.filter (fun kv => !decide (kv.1 = id))

/-- `strings.Trim(s, "\x00")`: leading and trailing NUL bytes removed. -/
def stringsTrim (s : Bytes) : Bytes :=
  ((s.dropWhile (fun b => b = 0)).reverse.dropWhile (fun b => b = 0)).reverse

/-- `strings.Split(s, ",")`: never empty, `[""]` for the empty string. -/
def stringsSplit : Bytes → List Bytes
  | [] => [[]]
  | b :: bs =>
    if b = 44 then [] :: stringsSplit bs
    else match stringsSplit bs with
      | [] => [[b]]
      | t :: ts => (b :: t) :: ts

/-- `strings.Join(ids, ",")`. -/
def stringsJoin : List Bytes → Bytes
  | [] => []
  | [a] => a
  | a :: b :: rest => a ++ 44 :: stringsJoin (b :: rest)

/-- `cachedNodeRead`: a hit returns the cached slice; a miss reads the shortener and, on
success, stores the slice that is returned. -/
def cachedNodeRead {σ : Type} (D : Driver σ) (w : World σ) (id : Bytes) :
    Except Err Bytes × World σ :=
  match cacheGet w.readCache id with
  | some d => (.ok d, w)
  | none =>
    match D.Read w.store id with
    | (.ok d, st) => (.ok d, { store := st, readCache := cacheSet w.readCache id d })
    | (.error e, st) => (.error e, { w with store := st })

/-- The child-index path of `getLeaf` (lines 57-61): for `level = 0 .. depth-1` the index
`(leafIdx / int(math.Pow(float64(idsPerNode), float64(level)))) % idsPerNode` is prepended to
the path.  `/` and `%` on `int` truncate toward zero; for a leaf index below `2 ^ 63` the
index is not negative. -/
def leafPath (idsPerNode depth leafIdx : Nat) : List Nat :=
  (List.range depth).foldl
    (fun path level =>
      (Int.tmod (Int.tdiv (leafIdx : Int) (intPow idsPerNode level)) (idsPerNode : Int)).toNat
        :: path) []

/-- Lazy initialisation of one node (lines 67-85). -/
def hydrate {σ : Type} (D : Driver σ) (idsPerNode : Nat) (node : Node) (w : World σ) :
    Except Err Node × World σ :=
  if node.children.length = 0 then
    if node.id ≠ [] then
      match cachedNodeRead D w node.id with
      | (.error e, w1) => (.error e, w1)
      | (.ok data, w1) =>
        (.ok (.mk node.id ((stringsSplit (stringsTrim data)).map (fun c => Node.mk c []))), w1)
    else (.ok (.mk node.id (List.replicate idsPerNode (Node.mk [] []))), w)
  else (.ok node, w)

/-- The descent of `getLeaf` (lines 64-91) along a path; returns the `id` of the node
reached, and the tree with the children it has populated. -/
def descend {σ : Type} (D : Driver σ) (idsPerNode : Nat) :
    List Nat → Node → World σ → Res Bytes × Node × World σ
  | [], node, w => (.ok node.id, node, w)
  | i :: rest, node, w =>
    match hydrate D idsPerNode node w with
    | (.error e, w1) => (.err e, node, w1)
    | (.ok node1, w1) =>
      match node1.children[i]? with
      | none => (.panic, node1, w1)
      | some child =>
        ((descend D idsPerNode rest child w1).1,
          .mk node1.id (node1.children.set i (descend D idsPerNode rest child w1).2.1),
          (descend D idsPerNode rest child w1).2.2)

/-- `getLeaf`: the leaf is named by its path; the result carries the leaf's `id`.
`% s.idsPerNode` panics when `idsPerNode` is zero (the loop runs since `depth > 0`). -/
def ShortenBlock.getLeaf {σ : Type} (s : ShortenBlock σ) (w : World σ) (leafIdx : Nat) :
    Res Bytes × ShortenBlock σ × World σ :=
  if s.idsPerNode = 0 ∧ 0 < s.depth then (.panic, s, w)
  else
    ((descend s.shortener s.idsPerNode (leafPath s.idsPerNode s.depth leafIdx) s.tree w).1,
      { s with tree :=
          (descend s.shortener s.idsPerNode (leafPath s.idsPerNode s.depth leafIdx) s.tree w).2.1 },
      (descend s.shortener s.idsPerNode (leafPath s.idsPerNode s.depth leafIdx) s.tree w).2.2)

/-- The climb of `nodeWrite` along the path of the node: the node at the end of the path
gets the identifier of `data` (lines 118-123), then every ancestor, nearest first, gets the
identifier of the comma-join of its children's ids (lines 124-147).  The first failing
shortener write ends the climb and leaves the nodes above untouched. -/
def nodeWriteAt {σ : Type} (D : Driver σ) :
    List Nat → Node → Bytes → σ → Res Unit × Node × σ
  | [], node, data, st =>
    match D.Write st data with
    | (.error e, st1) => (.err e, node, st1)
    | (.ok newID, st1) => (.ok (), .mk newID node.children, st1)
  | i :: rest, node, data, st =>
    match node.children[i]? with
    | none => (.panic, node, st)
    | some child =>
      match nodeWriteAt D rest child data st with
      | (.ok _, child1, st1) =>
        match D.Write st1 (stringsJoin ((node.children.set i child1).map Node.id)) with
        | (.error e, st2) => (.err e, .mk node.id (node.children.set i child1), st2)
        | (.ok newID, st2) => (.ok (), .mk newID (node.children.set i child1), st2)
      | (.err e, child1, st1) => (.err e, .mk node.id (node.children.set i child1), st1)
      | (.panic, child1, st1) => (.panic, .mk node.id (node.children.set i child1), st1)

/-- `nodeWrite` for the node at `path`.  A node without a parent (empty path) makes the loop
dereference a nil `parent` once its own write has succeeded. -/
def ShortenBlock.nodeWrite {σ : Type} (s : ShortenBlock σ) (w : World σ) (path : List Nat)
    (data : Bytes) : Res Unit × ShortenBlock σ × World σ :=
  ((match path, (nodeWriteAt s.shortener path s.tree data w.store).1 with
    | [], .ok _ => .panic
    | _, r => r),
    { s with tree := (nodeWriteAt s.shortener path s.tree data w.store).2.1 },
    { w with store := (nodeWriteAt s.shortener path s.tree data w.store).2.2 })

/-- `Capacity`: `int(math.Pow(float64(s.idsPerNode), float64(s.depth))) * NodeSize()`. -/
def ShortenBlock.Capacity {σ : Type} (s : ShortenBlock σ) : Int :=
  wrap64 (intPow s.idsPerNode s.depth * (s.shortener.NodeSize : Int))

/-- `GetRootID`. -/
def ShortenBlock.GetRootID {σ : Type} (s : ShortenBlock σ) : Bytes :=
  s.tree.id

/-- `int(math.Ceil(float64(a) / float64(b)))` for `b > 0`, as a leaf index: a negative result
(the conversion of a value that does not fit an `int`) bounds an empty range of leaves like
0 does. -/
def ceilDiv (a b : Nat) : Nat :=
  (goInt (f64Round (f64OfNat a) (f64OfNat b)).ceil).toNat

/-- The exact ceiling of `a / b`. -/
def exactCeil (a b : Nat) : Nat := (a + b - 1) / b

/-- A Go slice expression `xs[lo:hi]` on a slice whose capacity is its length. -/
def goSlice (xs : Bytes) (lo hi : Nat) : Option Bytes :=
  if lo ≤ hi ∧ hi ≤ xs.length then some ((xs.take hi).drop lo) else none

/-- One iteration of the loop of `Read` (lines 165-206) for leaf `leafIdx`, appending to
`readData`. -/
def ShortenBlock.readLeaf {σ : Type} (s : ShortenBlock σ) (w : World σ) (size offset : Nat)
    (startLeafIdx endLeafIdx leafIdx : Nat) (readData : Bytes) :
    Res Bytes × ShortenBlock σ × World σ :=
  match s.getLeaf w leafIdx with
  | (.err e, s1, w1) => (.err e, s1, w1)
  | (.panic, s1, w1) => (.panic, s1, w1)
  | (.ok leafId, s1, w1) =>
    let subReadStart := if leafIdx = startLeafIdx then offset % s.shortener.NodeSize else 0
    let subReadEnd :=
      if leafIdx = endLeafIdx - 1 then
        (if (offset + size) % s.shortener.NodeSize = 0 then s.shortener.NodeSize
         else (offset + size) % s.shortener.NodeSize)
      else s.shortener.NodeSize
    match (if leafId ≠ [] then cachedNodeRead s.shortener w1 leafId
           else (.ok (List.replicate s.shortener.NodeSize 0), w1)) with
    | (.error e, w2) => (.err e, s1, w2)
    | (.ok leafData, w2) =>
      -- `bytes.Repeat` panics on a negative count
      if s.shortener.NodeSize < leafData.length then (.panic, s1, w2)
      else
        match goSlice (leafData ++ List.replicate (s.shortener.NodeSize - leafData.length) 0)
            subReadStart subReadEnd with
        | none => (.panic, s1, w2)
        | some subReadData => (.ok (readData ++ subReadData), s1, w2)

/-- The loop of `Read` over the leaf indexes still to visit. -/
def ShortenBlock.readLoop {σ : Type} (size offset startLeafIdx endLeafIdx : Nat) :
    List Nat → ShortenBlock σ → World σ → Bytes → Res Bytes × ShortenBlock σ × World σ
  | [], s, w, readData => (.ok readData, s, w)
  | leafIdx :: rest, s, w, readData =>
    match s.readLeaf w size offset startLeafIdx endLeafIdx leafIdx readData with
    | (.ok readData1, s1, w1) =>
      ShortenBlock.readLoop size offset startLeafIdx endLeafIdx rest s1 w1 readData1
    | (r, s1, w1) => (r, s1, w1)

/-- `Read(size, offset)`.  `offset / NodeSize` panics when `NodeSize` is zero. -/
def ShortenBlock.Read {σ : Type} (s : ShortenBlock σ) (w : World σ) (size offset : Nat) :
    Res Bytes × ShortenBlock σ × World σ :=
  if s.shortener.NodeSize = 0 then (.panic, s, w)
  else
    let startLeafIdx := offset / s.shortener.NodeSize
    let endLeafIdx := ceilDiv (offset + size) s.shortener.NodeSize
    ShortenBlock.readLoop size offset startLeafIdx endLeafIdx
      (List.range' startLeafIdx (endLeafIdx - startLeafIdx)) s w []

/-- The new leaf bytes of `Write` (lines 252-254): `leafData[:subWriteStart]`, then
`data[:subWriteEnd-subWriteStart]`, then `leafData[min(subWriteEnd, len(leafData)):]`. -/
def composeLeaf (leafData data : Bytes) (subWriteStart subWriteEnd : Nat) : Bytes :=
  leafData.take subWriteStart ++ data.take (subWriteEnd - subWriteStart)
    ++ leafData.drop (min subWriteEnd leafData.length)

/-- The cached slice for `id` after its backing array has been overwritten with `data`. -/
def cacheOverwrite (c : List (Bytes × Bytes)) (id data : Bytes) : List (Bytes × Bytes) :=
  c.map (fun kv => if kv.1 = id then (kv.1, data) else kv)

/-- How one iteration of the loop of `Write` ends: with a `return`, or by going on to the
next leaf with the input not yet consumed and the running `bytesWritten`. -/
inductive Step where
  | done (r : Res Nat)
  | next (data : Bytes) (bytesWritten : Nat)

/-- One iteration of the loop of `Write` (lines 221-261) for leaf `leafIdx`; `data` is the
input not yet consumed.  A returned `Res.ok n` is the return `(n, nil)` and `Res.err e` is
`(0, e)`.

Lines 252-254 build the new leaf bytes with `append` on `leafData[:subWriteStart]`.  That
slice shares the backing array of `leafData`, and for a named leaf `leafData` is the very
slice held by `readCache` (`cachedNodeRead` returns the cached slice on a hit and stores the
slice it returns on a miss).  When the appended bytes fit (`subWriteEnd ≤ len(leafData)`)
Go's `append` writes them into that array, so the cache entry of the old identifier then
holds the new leaf bytes: `cacheOverwrite`.  An error of `nodeWrite` is logged and the loop
goes on. -/
def ShortenBlock.writeLeaf {σ : Type} (s : ShortenBlock σ) (w : World σ) (size offset : Nat)
    (startLeafIdx endLeafIdx leafIdx : Nat) (data : Bytes) (bytesWritten : Nat) :
    Step × ShortenBlock σ × World σ :=
  match s.getLeaf w leafIdx with
  | (.err _, s1, w1) => (.done (.ok 0), s1, w1)
  | (.panic, s1, w1) => (.done .panic, s1, w1)
  | (.ok leafId, s1, w1) =>
    let subWriteStart := if leafIdx = startLeafIdx then offset % s.shortener.NodeSize else 0
    let subWriteEnd :=
      if leafIdx = endLeafIdx - 1 then (offset + size) % s.shortener.NodeSize
      else s.shortener.NodeSize
    match (if leafId ≠ [] then cachedNodeRead s.shortener w1 leafId
           else (.ok (List.replicate s.shortener.NodeSize 0), w1)) with
    | (.error e, w2) => (.done (.err e), s1, w2)
    | (.ok leafData, w2) =>
      -- `leafData[:subWriteStart]`
      if leafData.length < subWriteStart then (.done .panic, s1, w2)
      -- `data[:subWriteEnd-subWriteStart]`
      else if subWriteEnd < subWriteStart ∨ data.length < subWriteEnd - subWriteStart then
        (.done .panic, s1, w2)
      else
        let newLeafData := composeLeaf leafData data subWriteStart subWriteEnd
        let w3 : World σ :=
          if leafId ≠ [] ∧ subWriteEnd ≤ leafData.length then
            { w2 with readCache := cacheOverwrite w2.readCache leafId newLeafData }
          else w2
        match (s1.nodeWrite w3 (leafPath s.idsPerNode s.depth leafIdx) newLeafData).1 with
        | .panic =>
          (.done .panic,
            (s1.nodeWrite w3 (leafPath s.idsPerNode s.depth leafIdx) newLeafData).2.1,
            (s1.nodeWrite w3 (leafPath s.idsPerNode s.depth leafIdx) newLeafData).2.2)
        | _ =>
          (.next (data.drop (subWriteEnd - subWriteStart))
              (bytesWritten + (subWriteEnd - subWriteStart)),
            (s1.nodeWrite w3 (leafPath s.idsPerNode s.depth leafIdx) newLeafData).2.1,
            (s1.nodeWrite w3 (leafPath s.idsPerNode s.depth leafIdx) newLeafData).2.2)

/-- The loop of `Write` (lines 220-262) over the leaf indexes still to visit. -/
def ShortenBlock.writeLoop {σ : Type} (size offset startLeafIdx endLeafIdx : Nat) :
    List Nat → ShortenBlock σ → World σ → Bytes → Nat → Res Nat × ShortenBlock σ × World σ
  | [], s, w, _, bytesWritten => (.ok bytesWritten, s, w)
  | leafIdx :: rest, s, w, data, bytesWritten =>
    match s.writeLeaf w size offset startLeafIdx endLeafIdx leafIdx data bytesWritten with
    | (.done r, s1, w1) => (r, s1, w1)
    | (.next data1 bytesWritten1, s1, w1) =>
      ShortenBlock.writeLoop size offset startLeafIdx endLeafIdx rest s1 w1 data1 bytesWritten1

/-- `Write(offset, data)`. -/
def ShortenBlock.Write {σ : Type} (s : ShortenBlock σ) (w : World σ) (offset : Nat)
    (data : Bytes) : Res Nat × ShortenBlock σ × World σ :=
  if s.shortener.NodeSize = 0 then (.panic, s, w)
  else
    let startLeafIdx := offset / s.shortener.NodeSize
    let endLeafIdx := ceilDiv (offset + data.length) s.shortener.NodeSize
    ShortenBlock.writeLoop data.length offset startLeafIdx endLeafIdx
      (List.range' startLeafIdx (endLeafIdx - startLeafIdx)) s w data 0

/-! ## An in-memory shortener

A fake shortener for concrete scenarios: the list of the byte strings stored so far.  The
identifier of the `n`-th entry is `n` written with `idSize` lower-case letters, and a write
fails once these identifiers are used up.  With `dedup` it is content-addressed (the same
bytes always get the same identifier, as `tinyurl` does); without it every write gets a new
identifier. -/

/-- The `n`-th identifier of the in-memory shortener: `idSize` lower-case letters. -/
def memId : Nat → Nat → Bytes
  | 0, _ => []
  | idSize + 1, n => memId idSize (n / 26) ++ [UInt8.ofNat (97 + n % 26)]

/-- The entry number an identifier stands for. -/
def memDecode (id : Bytes) : Nat :=
  id.foldl (fun acc c => acc * 26 + (c.toNat - 97)) 0

/-- Position of the first entry equal to `data`, if any. -/
def memFind : List Bytes → Bytes → Option Nat
  | [], _ => none
  | d :: rest, data => if d = data then some 0 else (memFind rest data).map (· + 1)

/-- The in-memory shortener. -/
def memDriver (nodeSize idSize : Nat) (dedup : Bool) : Driver (List Bytes) where
  NodeSize := nodeSize
  IdSize := idSize
  Read := fun st id =>
    match st[memDecode id]? with
    | some d => (.ok d, st)
    | none => (.error ⟨404⟩, st)
  Write := fun st data =>
    match (if dedup then memFind st data else none) with
    | some n => if n < 26 ^ idSize then (.ok (memId idSize n), st) else (.error ⟨507⟩, st)
    | none =>
      if st.length < 26 ^ idSize then (.ok (memId idSize st.length), st ++ [data])
      else (.error ⟨507⟩, st)

/-- A subtree of height `d` of a volume that has never been written: no node has an
identifier, and every node either has no children yet or the `k` children that lazy
initialisation creates. -/
def Unwritten (k : Nat) : Nat → Node → Prop
  | 0, n => n.id = []
  | d + 1, n =>
    n.id = [] ∧ (n.children = [] ∨ (n.children.length = k ∧ ∀ c ∈ n.children, Unwritten k d c))

/-- The block after a sequence of `Read(size, offset)` calls, results dropped. -/
def runReads {σ : Type} :
    List (Nat × Nat) → ShortenBlock σ → World σ → ShortenBlock σ × World σ
  | [], s, w => (s, w)
  | (size, offset) :: rest, s, w =>
    runReads rest (s.Read w size offset).2.1 (s.Read w size offset).2.2

/-- What `cachedNodeRead` returns for `id` in world `w`: the cached slice, else the
shortener's answer. -/
def lookup {σ : Type} (D : Driver σ) (w : World σ) (id : Bytes) : Except Err Bytes :=
  match cacheGet w.readCache id with
  | some d => .ok d
  | none => (D.Read w.store id).1

/-- Reading the shortener does not change what it returns for any identifier. -/
def ReadStable {σ : Type} (D : Driver σ) : Prop :=
  ∀ st id id1, (D.Read (D.Read st id).2 id1).1 = (D.Read st id1).1

/-- A well-formed subtree of height `d` with respect to the answers `L` of `cachedNodeRead`:
a named leaf reads successfully and its payload has at most `N` bytes; an interior node has
either its `k` children in memory, or no children and then it is unnamed or its payload reads
successfully and splits into `k` identifiers of well-formed subtrees. -/
def Sound (L : Bytes → Except Err Bytes) (k N : Nat) : Nat → Node → Prop
  | 0, n => n.id = [] ∨ ∃ b, L n.id = .ok b ∧ b.length ≤ N
  | d + 1, n =>
    (n.children.length = 0 ∧ (n.id = [] ∨ ∃ b, L n.id = .ok b ∧
        (stringsSplit (stringsTrim b)).length = k ∧
        ∀ c ∈ stringsSplit (stringsTrim b), Sound L k N d (.mk c [])))
    ∨ (n.children.length ≠ 0 ∧ n.children.length = k ∧ ∀ c ∈ n.children, Sound L k N d c)

/-! ## Observing the shortener -/

/-- One call to the shortener, with what it returned. -/
inductive Call where
  | read (id : Bytes) (res : Except Err Bytes)
  | write (data : Bytes) (res : Except Err Bytes)

/-- The driver `D` with a record of the calls made to it kept next to its store. -/
def Driver.logged {σ : Type} (D : Driver σ) : Driver (σ × List Call) where
  NodeSize := D.NodeSize
  IdSize := D.IdSize
  Read := fun st id =>
    ((D.Read st.1 id).1, ((D.Read st.1 id).2, st.2 ++ [Call.read id (D.Read st.1 id).1]))
  Write := fun st data =>
    ((D.Write st.1 data).1, ((D.Write st.1 data).2, st.2 ++ [Call.write data (D.Write st.1 data).1]))

/-- The node reached from `t` by following the child indexes in `q`. -/
def Node.at? : Node → List Nat → Option Node
  | n, [] => some n
  | n, i :: rest =>
    match n.children[i]? with
    | none => none
    | some c => c.at? rest

/-- The identifier of the node at `q`. -/
def Node.idAt (t : Node) (q : List Nat) : Bytes :=
  match t.at? q with
  | some n => n.id
  | none => []

/-- The identifiers of the children of the node at `q`, in order. -/
def Node.childIdsAt (t : Node) (q : List Nat) : List Bytes :=
  match t.at? q with
  | some n => n.children.map Node.id
  | none => []

/-- The shortener writes of a propagation from the node at `p`, read off the tree `t` after
the call: first `b` for the node at `p`, then, for every ancestor from the parent up to the
root, the comma-join of its children's identifiers; each returned the identifier the node
now has. -/
def climbCalls (t : Node) (p : List Nat) (b : Bytes) : List Call :=
  p.inits.reverse.map (fun q =>
    Call.write (if q = p then b else stringsJoin (t.childIdsAt q)) (.ok (t.idAt q)))

/-- A subtree of height `d` in which every identifier has at most `I` bytes and every
interior node either is unnamed with no children yet, or has its `k` children in memory
(the shape of every tree grown from a fresh mount). -/
def Bounded (k I : Nat) : Nat → Node → Prop
  | 0, n => n.id.length ≤ I
  | d + 1, n =>
    n.id.length ≤ I ∧
      ((n.children.length = 0 ∧ n.id = [])
        ∨ (n.children.length = k ∧ ∀ c ∈ n.children, Bounded k I d c))

/-- Every byte string passed to the shortener's `Write` in the record has at most `N`
bytes. -/
def WritesBounded (N : Nat) (log : List Call) : Prop :=
  ∀ data res, Call.write data res ∈ log → data.length ≤ N

/-- The size limits of the shortener interface, on the stores that satisfy `P`: reads and
writes of at most `NodeSize` bytes keep the store in `P`, an identifier returned by `Write`
has at most `IdSize` bytes, and `Read` returns at most `NodeSize` bytes. -/
structure SizeContract {σ : Type} (D : Driver σ) (P : σ → Prop) : Prop where
  read_keeps : ∀ st id, P st → P (D.Read st id).2
  write_keeps : ∀ st d, P st → d.length ≤ D.NodeSize → P (D.Write st d).2
  id_le : ∀ st d id, P st → d.length ≤ D.NodeSize → (D.Write st d).1 = .ok id →
    id.length ≤ D.IdSize
  read_le : ∀ st id b, P st → (D.Read st id).1 = .ok b → b.length ≤ D.NodeSize

/-- The state in which the payload bound is maintained: a `Bounded` tree, a store in `P`, a
record of calls whose write payloads have at most `NodeSize` bytes, and cached slices of at
most `NodeSize` bytes. -/
def PayloadInv {σ : Type} (D : Driver σ) (P : σ → Prop) (s : ShortenBlock (σ × List Call))
    (w : World (σ × List Call)) : Prop :=
  Bounded s.idsPerNode D.IdSize s.depth s.tree
    ∧ P w.store.1
    ∧ WritesBounded D.NodeSize w.store.2
    ∧ ∀ kv ∈ w.readCache, kv.2.length ≤ D.NodeSize

/-- A shortener whose `Read` returns the bytes that were written under an identifier:
reading does not change what is read later, a write (successful or not) does not change what
an identifier already reads to, and the identifier a write returns reads to the bytes
written. -/
structure Faithful {σ : Type} (D : Driver σ) : Prop where
  read_stable : ReadStable D
  write_retains : ∀ st d id b, (D.Read st id).1 = .ok b → (D.Read (D.Write st d).2 id).1 = .ok b
  write_read : ∀ st d id, (D.Write st d).1 = .ok id → (D.Read (D.Write st d).2 id).1 = .ok d

/-- A subtree of height `d` of a volume whose leaf payloads are `N` long, with respect to the
answers `L` of `cachedNodeRead`: a named leaf reads successfully to exactly `N` bytes, and an
interior node either is unnamed with no children yet or has its `k` children in memory. -/
def Full (L : Bytes → Except Err Bytes) (k N : Nat) : Nat → Node → Prop
  | 0, n => n.id = [] ∨ ∃ b, L n.id = .ok b ∧ b.length = N
  | d + 1, n =>
    (n.children.length = 0 ∧ n.id = [])
      ∨ (n.children.length = k ∧ ∀ c ∈ n.children, Full L k N d c)

/-- The state in which `Write` keeps leaf payloads `NodeSize` long: a `Full` tree and cached
slices of exactly `NodeSize` bytes. -/
def FullInv {σ : Type} (s : ShortenBlock σ) (w : World σ) : Prop :=
  Full (lookup s.shortener w) s.idsPerNode s.shortener.NodeSize s.depth s.tree
    ∧ ∀ kv ∈ w.readCache, kv.2.length = s.shortener.NodeSize

/-- A subtree of height `d` whose interior nodes agree with the answers `L` of
`cachedNodeRead`: an unnamed interior node heads a subtree that has never been written; a
named one reads successfully to a payload that splits into `k` identifiers, and either has
no children in memory yet or has children with exactly these identifiers, in order.  Leaves
are not constrained. -/
def Coherent (L : Bytes → Except Err Bytes) (k : Nat) : Nat → Node → Prop
  | 0, _ => True
  | d + 1, n =>
    Unwritten k (d + 1) n
      ∨ (n.id ≠ [] ∧ ∃ b, L n.id = .ok b ∧ (stringsSplit (stringsTrim b)).length = k
          ∧ ((n.children = [] ∧ ∀ c ∈ stringsSplit (stringsTrim b), Coherent L k d (.mk c []))
            ∨ (n.children.map Node.id = stringsSplit (stringsTrim b)
                ∧ ∀ c ∈ n.children, Coherent L k d c)))

/-- The block after a sequence of `Write(offset, data)` calls, results dropped. -/
def runWrites {σ : Type} :
    List (Nat × Bytes) → ShortenBlock σ → World σ → ShortenBlock σ × World σ
  | [], s, w => (s, w)
  | (offset, data) :: rest, s, w =>
    runWrites rest (s.Write w offset data).2.1 (s.Write w offset data).2.2

/-- What each call of a sequence of `Write(offset, data)` calls returned. -/
def writeResults {σ : Type} :
    List (Nat × Bytes) → ShortenBlock σ → World σ → List (Res Nat)
  | [], _, _ => []
  | (offset, data) :: rest, s, w =>
    (s.Write w offset data).1
      :: writeResults rest (s.Write w offset data).2.1 (s.Write w offset data).2.2

/-- The world once every entry of `readCache` has expired. -/
def World.expired {σ : Type} (w : World σ) : World σ :=
  { w with readCache := [] }

/-! ## The volume of the concrete scenarios -/

/-- The block `NewShortenBlock` creates over the in-memory shortener with `NODE_SIZE = 8`,
`ID_SIZE = 2`, an empty root identifier and `DEPTH = 2`: `IDS_PER_NODE = 3`, nine leaves,
capacity 72. -/
def demoBlock (dedup : Bool) : ShortenBlock (List Bytes) :=
  { depth := 2, tree := .mk [] [], shortener := memDriver 8 2 dedup, idsPerNode := 3 }

/-- The same block over the in-memory shortener that records its calls. -/
def demoLoggedBlock (dedup : Bool) : ShortenBlock (List Bytes × List Call) :=
  { depth := 2, tree := .mk [] [], shortener := (memDriver 8 2 dedup).logged, idsPerNode := 3 }

/-- An empty shortener and an empty cache. -/
def demoWorld : World (List Bytes) :=
  { store := [], readCache := [] }

/-- An empty shortener with an empty record of calls, and an empty cache. -/
def demoLoggedWorld : World (List Bytes × List Call) :=
  { store := ([], []), readCache := [] }

/-- Every byte string in the in-memory shortener has at most `nodeSize` bytes. -/
def memStoreOK (nodeSize : Nat) (st : List Bytes) : Prop :=
  ∀ d ∈ st, d.length ≤ nodeSize

/-- The volume of the scenarios after the writes `before`, a restart (a new block created
with the root identifier the first block ended with, over the same shortener, with an empty
cache) and the writes `after`. -/
def demoRestarted (before after : List (Nat × Bytes)) :
    Option (ShortenBlock (List Bytes) × World (List Bytes)) :=
  (NewShortenBlock (memDriver 8 2 true)
      { RootID := (runWrites before (demoBlock true) demoWorld).1.GetRootID, Depth := 2 }).map
    (fun b => runWrites after b (runWrites before (demoBlock true) demoWorld).2.expired)

/-- The same over the shortener that records its calls. -/
def demoLoggedRestarted (before after : List (Nat × Bytes)) :
    Option (ShortenBlock (List Bytes × List Call) × World (List Bytes × List Call)) :=
  (NewShortenBlock (memDriver 8 2 true).logged
      { RootID := (runWrites before (demoLoggedBlock true) demoLoggedWorld).1.GetRootID,
        Depth := 2 }).map
    (fun b => runWrites after b
      (runWrites before (demoLoggedBlock true) demoLoggedWorld).2.expired)

/-! ## `float64` arithmetic on values of at most 53 bits -/

theorem bitLenAux_spec : ∀ (fuel n : Nat), n ≤ fuel → 0 < n →
    1 ≤ bitLenAux fuel n ∧ 2 ^ (bitLenAux fuel n - 1) ≤ n ∧ n < 2 ^ bitLenAux fuel n := by
  intro fuel
  induction fuel with
  | zero => intro n h1 h2; omega
  | succ f ih =>
    intro n h1 h2
    have hn : ¬ (n = 0) := by omega
    rw [bitLenAux, if_neg hn]
    rcases Nat.eq_zero_or_pos (n / 2) with h0 | hpos
    · have hz : bitLenAux f (n / 2) = 0 := by
        rw [h0]
        cases f with
        | zero => rfl
        | succ g => simp [bitLenAux]
      have h1n : n = 1 := by omega
      rw [hz, h1n]
      decide
    · obtain ⟨a1, a2, a3⟩ := ih (n / 2) (by omega) hpos
      refine ⟨by omega, ?_, ?_⟩
      · have e : bitLenAux f (n / 2) + 1 - 1 = (bitLenAux f (n / 2) - 1) + 1 := by omega
        rw [e, Nat.pow_succ]
        omega
      · rw [Nat.pow_succ]
        omega

theorem bitLen_spec (n : Nat) (h : 0 < n) :
    1 ≤ bitLen n ∧ 2 ^ (bitLen n - 1) ≤ n ∧ n < 2 ^ bitLen n :=
  bitLenAux_spec n n (Nat.le_refl _) h

theorem bitLen_unique (n l : Nat) (hl : 1 ≤ l) (h1 : 2 ^ (l - 1) ≤ n) (h2 : n < 2 ^ l) :
    bitLen n = l := by
  have hn : 0 < n := Nat.lt_of_lt_of_le (Nat.two_pow_pos _) h1
  obtain ⟨b1, b2, b3⟩ := bitLen_spec n hn
  rcases Nat.lt_trichotomy (bitLen n) l with h | h | h
  · have : 2 ^ bitLen n ≤ 2 ^ (l - 1) := Nat.pow_le_pow_right (by decide) (by omega)
    omega
  · exact h
  · have : 2 ^ l ≤ 2 ^ (bitLen n - 1) := Nat.pow_le_pow_right (by decide) (by omega)
    omega

theorem bitLen_one : bitLen 1 = 1 := by decide

theorem bitLen_mul_pow (c s : Nat) (hc : 0 < c) : bitLen (c * 2 ^ s) = bitLen c + s := by
  obtain ⟨b1, b2, b3⟩ := bitLen_spec c hc
  apply bitLen_unique _ _ (by omega)
  · have e : bitLen c + s - 1 = (bitLen c - 1) + s := by omega
    rw [e, Nat.pow_add]
    exact Nat.mul_le_mul_right _ b2
  · rw [Nat.pow_add]
    exact Nat.mul_lt_mul_of_pos_right b3 (Nat.two_pow_pos _)

theorem bitLen_le_of_lt (c l : Nat) (hc : 0 < c) (h : c < 2 ^ l) : bitLen c ≤ l := by
  obtain ⟨b1, b2, b3⟩ := bitLen_spec c hc
  by_contra hcon
  have : 2 ^ l ≤ 2 ^ (bitLen c - 1) := Nat.pow_le_pow_right (by decide) (by omega)
  omega

/-- The significand of the `float64` that holds `c` exactly. -/
theorem normMant_bounds (c : Nat) (hc : 0 < c) (hc2 : c < 2 ^ 53) :
    2 ^ 52 ≤ c * 2 ^ (53 - bitLen c) ∧ c * 2 ^ (53 - bitLen c) < 2 ^ 53 := by
  obtain ⟨b1, b2, b3⟩ := bitLen_spec c hc
  have hl := bitLen_le_of_lt c 53 hc hc2
  constructor
  · have e : (52 : Nat) = (bitLen c - 1) + (53 - bitLen c) := by omega
    rw [e, Nat.pow_add]
    exact Nat.mul_le_mul_right _ b2
  · have e : (53 : Nat) = bitLen c + (53 - bitLen c) := by omega
    conv_rhs => rw [e, Nat.pow_add]
    exact Nat.mul_lt_mul_of_pos_right b3 (Nat.two_pow_pos _)

/-- Rounding is exact on a value of at most 53 significant bits: `c * 2 ^ s` is held with the
significand `c * 2 ^ (53 - bitLen c)`. -/
theorem f64Round_exact (c s : Nat) (hc : 0 < c) (hc2 : c < 2 ^ 53) :
    f64Round (c * 2 ^ s) 1 = ⟨c * 2 ^ (53 - bitLen c), (s : Int) + (bitLen c : Int) - 53⟩ := by
  obtain ⟨b1, b2, b3⟩ := bitLen_spec c hc
  have hl := bitLen_le_of_lt c 53 hc hc2
  obtain ⟨hM1, hM2⟩ := normMant_bounds c hc hc2
  have hnum : ¬ (c * 2 ^ s = 0 ∨ 1 = 0) := by
    have : 0 < c * 2 ^ s := Nat.mul_pos hc (Nat.two_pow_pos _)
    omega
  have hbl : bitLen (c * 2 ^ s) = bitLen c + s := bitLen_mul_pow c s hc
  -- the scaled numerator is the significand times twice the scaled denominator
  have key : c * 2 ^ s * 2 ^ (53 + 1 - (bitLen c + s))
      = c * 2 ^ (53 - bitLen c) * (2 * (1 * 2 ^ (bitLen c + s - (53 + 1)))) := by
    have e1 : s + (53 + 1 - (bitLen c + s))
        = (53 - bitLen c) + (1 + (bitLen c + s - (53 + 1))) := by omega
    calc c * 2 ^ s * 2 ^ (53 + 1 - (bitLen c + s))
        = c * 2 ^ (s + (53 + 1 - (bitLen c + s))) := by rw [Nat.mul_assoc, ← Nat.pow_add]
      _ = c * 2 ^ ((53 - bitLen c) + (1 + (bitLen c + s - (53 + 1)))) := by rw [e1]
      _ = c * 2 ^ (53 - bitLen c) * (2 * (1 * 2 ^ (bitLen c + s - (53 + 1)))) := by
          rw [Nat.pow_add, Nat.pow_add, Nat.pow_one, Nat.one_mul, Nat.mul_assoc]
  have hbpos : 0 < 1 * 2 ^ (bitLen c + s - (53 + 1)) := by
    rw [Nat.one_mul]; exact Nat.two_pow_pos _
  have hdiv : c * 2 ^ s * 2 ^ (53 + 1 - (bitLen c + s)) / (1 * 2 ^ (bitLen c + s - (53 + 1)))
      = 2 * (c * 2 ^ (53 - bitLen c)) := by
    rw [key]
    have e : c * 2 ^ (53 - bitLen c) * (2 * (1 * 2 ^ (bitLen c + s - (53 + 1))))
        = 2 * (c * 2 ^ (53 - bitLen c)) * (1 * 2 ^ (bitLen c + s - (53 + 1))) := by ring
    rw [e, Nat.mul_div_cancel _ hbpos]
  have hnlt : ¬ (c * 2 ^ s * 2 ^ (53 + 1 - (bitLen c + s))
      / (1 * 2 ^ (bitLen c + s - (53 + 1))) < 2 ^ 53) := by
    rw [hdiv]; omega
  have hdiv1 : c * 2 ^ s * 2 ^ (53 + 1 - (bitLen c + s))
      / (2 * (1 * 2 ^ (bitLen c + s - (53 + 1)))) = c * 2 ^ (53 - bitLen c) := by
    rw [key, Nat.mul_div_cancel _ (by omega)]
  have hmod1 : c * 2 ^ s * 2 ^ (53 + 1 - (bitLen c + s))
      % (2 * (1 * 2 ^ (bitLen c + s - (53 + 1)))) = 0 := by
    rw [key, Nat.mul_mod_left]
  have hcond : ¬ (2 * (1 * 2 ^ (bitLen c + s - (53 + 1))) < 2 * 0
      ∨ (2 * 0 = 2 * (1 * 2 ^ (bitLen c + s - (53 + 1)))
        ∧ c * 2 ^ (53 - bitLen c) % 2 = 1)) := by
    omega
  have hne : ¬ (c * 2 ^ (53 - bitLen c) = 2 ^ 53) := by omega
  simp only [f64Round, roundEven, f64Norm, hnum, if_false, bitLen_one, hbl, hnlt, hdiv1, hmod1,
    hcond, hne]
  congr 1
  push_cast
  omega

theorem f64Round_zero (den : Nat) : f64Round 0 den = ⟨0, 0⟩ := by
  simp [f64Round]

/-- `float64(n)` is `n` for `n < 2 ^ 53`. -/
theorem f64OfNat_of_lt (n : Nat) (h : n < 2 ^ 53) : f64OfNat n = n := by
  rcases Nat.eq_zero_or_pos n with h0 | hpos
  · subst h0
    simp [f64OfNat, f64Round_zero, F64.trunc]
  · have hl := bitLen_le_of_lt n 53 hpos h
    have e := f64Round_exact n 0 hpos h
    rw [Nat.pow_zero, Nat.mul_one] at e
    unfold f64OfNat F64.trunc
    rw [e]
    simp only
    by_cases h53 : bitLen n = 53
    · have h1 : (0 : Int) ≤ ((0 : Nat) : Int) + (bitLen n : Int) - 53 := by omega
      have h2 : (((0 : Nat) : Int) + (bitLen n : Int) - 53).toNat = 0 := by omega
      rw [if_pos h1, h2, h53]
      simp
    · have h1 : ¬ ((0 : Int) ≤ ((0 : Nat) : Int) + (bitLen n : Int) - 53) := by omega
      have h2 : (-(((0 : Nat) : Int) + (bitLen n : Int) - 53)).toNat = 53 - bitLen n := by omega
      rw [if_neg h1, h2, Nat.mul_div_cancel _ (Nat.two_pow_pos _)]

theorem roundEven_ge (a b : Nat) : a / b ≤ roundEven a b := by
  unfold roundEven
  split <;> omega

theorem roundEven_le (a b : Nat) : roundEven a b ≤ a / b + 1 := by
  unfold roundEven
  split <;> omega

theorem f64Norm_trunc_ge (m : Nat) (e : Int) (hm : 2 ^ 52 ≤ m) (he : 1 ≤ e) :
    2 ^ 53 ≤ (f64Norm m e).trunc := by
  have hp : ∀ z : Int, 1 ≤ z → 2 ≤ 2 ^ z.toNat := by
    intro z hz
    calc 2 = 2 ^ 1 := rfl
      _ ≤ _ := Nat.pow_le_pow_right (by decide) (by omega)
  unfold f64Norm
  split
  · have h1 : (0 : Int) ≤ e + 1 := by omega
    simp only [F64.trunc, h1, if_true]
    calc 2 ^ 53 = 2 ^ 52 * 2 := by norm_num
      _ ≤ _ := Nat.mul_le_mul_left _ (hp _ (by omega))
  · have h1 : (0 : Int) ≤ e := by omega
    simp only [F64.trunc, h1, if_true]
    calc 2 ^ 53 = 2 ^ 52 * 2 := by norm_num
      _ ≤ _ := Nat.mul_le_mul hm (hp _ he)

/-- `float64(n)` is at least `2 ^ 53` for `n ≥ 2 ^ 53`. -/
theorem f64OfNat_ge (n : Nat) (h : 2 ^ 53 ≤ n) : 2 ^ 53 ≤ f64OfNat n := by
  have hpos : 0 < n := by omega
  obtain ⟨b1, b2, b3⟩ := bitLen_spec n hpos
  have hl : 54 ≤ bitLen n := by
    by_contra hcon
    have : 2 ^ bitLen n ≤ 2 ^ 53 := Nat.pow_le_pow_right (by decide) (by omega)
    omega
  have hnum : ¬ (n = 0 ∨ 1 = 0) := by omega
  have hup : 53 + 1 - bitLen n = 0 := by omega
  have hsplit : 2 ^ (bitLen n - 1) = 2 ^ 52 * (2 * (1 * 2 ^ (bitLen n - (53 + 1)))) := by
    have e : bitLen n - 1 = 52 + (1 + (bitLen n - (53 + 1))) := by omega
    rw [e, Nat.pow_add, Nat.pow_add, Nat.pow_one, Nat.one_mul]
  have hbpos : 0 < 1 * 2 ^ (bitLen n - (53 + 1)) := by
    rw [Nat.one_mul]; exact Nat.two_pow_pos _
  have hq : 2 ^ 53 ≤ n * 2 ^ 0 / (1 * 2 ^ (bitLen n - (53 + 1))) := by
    rw [Nat.pow_zero, Nat.mul_one, Nat.le_div_iff_mul_le hbpos]
    have : 2 ^ 53 * (1 * 2 ^ (bitLen n - (53 + 1))) = 2 ^ (bitLen n - 1) := by
      rw [hsplit]; ring
    omega
  have hq1 : 2 ^ 52 ≤ n * 2 ^ 0 / (2 * (1 * 2 ^ (bitLen n - (53 + 1)))) := by
    rw [Nat.pow_zero, Nat.mul_one, Nat.le_div_iff_mul_le (by omega)]
    omega
  have hnlt : ¬ (n * 2 ^ 0 / (1 * 2 ^ (bitLen n - (53 + 1))) < 2 ^ 53) := by omega
  unfold f64OfNat
  simp only [f64Round, hnum, if_false, bitLen_one, hup, hnlt]
  exact f64Norm_trunc_ge _ _ (Nat.le_trans hq1 (roundEven_ge _ _)) (by omega)

theorem roundEven_double (x y : Nat) : roundEven (2 * x) (2 * y) = roundEven x y := by
  unfold roundEven
  rw [Nat.mul_div_mul_left _ _ (by decide : 0 < 2), Nat.mul_mod_mul_left]
  have h1 : (2 * y < 2 * (2 * (x % y))) ↔ (y < 2 * (x % y)) := by omega
  have h2 : (2 * (2 * (x % y)) = 2 * y) ↔ (2 * (x % y) = y) := by omega
  simp only [h1, h2]

theorem ceil_of_between (m S n : Nat) (hS : 0 < S) (h1 : (n - 1) * S < m) (h2 : m ≤ n * S)
    (hn : 1 ≤ n) : (m + S - 1) / S = n := by
  have e : (n - 1) * S + S = n * S := by
    have : n = (n - 1) + 1 := by omega
    conv_rhs => rw [this, Nat.add_mul, Nat.one_mul]
  apply Nat.div_eq_of_lt_le
  · omega
  · rw [Nat.succ_mul]
    omega

/-- The rounded significand of `A * S / B` lies strictly above `(n - 1) * S` and at most at
`n * S`, where `n` is the exact ceiling of `A / B` and `A` has at most 53 bits. -/
theorem roundEven_between (A B S n : Nat) (hA2 : A < 2 ^ 53) (hB : 0 < B)
    (hn1 : (n - 1) * B < A) (hn2 : A ≤ n * B) (hn : 1 ≤ n)
    (hq : 2 ^ 52 ≤ A * S / B) :
    (n - 1) * S < roundEven (A * S) B ∧ roundEven (A * S) B ≤ n * S := by
  have hdm : (A * S / B) * B + A * S % B = A * S := by
    rw [Nat.mul_comm]; exact Nat.div_add_mod (A * S) B
  have hr := Nat.mod_lt (A * S) hB
  -- `A * S` against the multiples of `B`
  have hup : A * S ≤ (n * S) * B := by
    calc A * S ≤ (n * B) * S := Nat.mul_le_mul_right _ hn2
      _ = (n * S) * B := by ring
  have hlo : ((n - 1) * S) * B + S ≤ A * S := by
    calc ((n - 1) * S) * B + S = ((n - 1) * B + 1) * S := by ring
      _ ≤ A * S := Nat.mul_le_mul_right _ hn1
  have hm0le : A * S / B ≤ n * S := by
    apply Nat.le_of_mul_le_mul_right _ hB
    omega
  have hm0ge : (n - 1) * S ≤ A * S / B := by
    by_contra hcon
    have h1 : (A * S / B + 1) * B ≤ ((n - 1) * S) * B :=
      Nat.mul_le_mul_right _ (by omega)
    rw [Nat.add_mul, Nat.one_mul] at h1
    omega
  unfold roundEven
  split
  · next hc =>
    -- rounded up: the remainder is not zero
    refine ⟨by omega, ?_⟩
    have hrpos : 0 < A * S % B := by omega
    have hlt : A * S / B < n * S := by
      apply Nat.lt_of_mul_lt_mul_right (a := B)
      omega
    omega
  · next hc =>
    refine ⟨?_, hm0le⟩
    by_contra hcon
    have heq : A * S / B = (n - 1) * S := by omega
    rw [heq] at hdm hq
    have hrS : S ≤ A * S % B := by omega
    have h2S : 2 * S ≤ B := by omega
    have hn2' : 1 ≤ n - 1 := by
      rcases Nat.eq_zero_or_pos (n - 1) with h0 | h0
      · rw [h0, Nat.zero_mul] at hq
        omega
      · exact h0
    have hbig : 2 * ((n - 1) * S) ≤ (n - 1) * B := by
      calc 2 * ((n - 1) * S) = (n - 1) * (2 * S) := by ring
        _ ≤ (n - 1) * B := Nat.mul_le_mul_left _ h2S
    omega

theorem f64Norm_ceil (m t n : Nat) (hm : m ≤ 2 ^ 53) (hn53 : n < 2 ^ 53)
    (h1 : (n - 1) * 2 ^ t < m) (h2 : m ≤ n * 2 ^ t) (hn : 1 ≤ n) :
    (f64Norm m (-(t : Int))).ceil = n := by
  unfold f64Norm
  by_cases h53 : m = 2 ^ 53
  · rw [if_pos h53]
    rw [h53] at h1 h2
    cases t with
    | zero => rw [Nat.pow_zero, Nat.mul_one] at h2; omega
    | succ t1 =>
      have epow : 2 ^ (t1 + 1) = 2 ^ t1 * 2 := by rw [Nat.pow_succ]
      rw [epow] at h1 h2
      have h1' : (n - 1) * 2 ^ t1 < 2 ^ 52 := by
        have : (n - 1) * (2 ^ t1 * 2) = ((n - 1) * 2 ^ t1) * 2 := by ring
        omega
      have h2' : 2 ^ 52 ≤ n * 2 ^ t1 := by
        have : n * (2 ^ t1 * 2) = (n * 2 ^ t1) * 2 := by ring
        omega
      cases t1 with
      | zero =>
        rw [Nat.pow_zero, Nat.mul_one] at h1' h2'
        have hn' : n = 2 ^ 52 := by omega
        have he : (0 : Int) ≤ -((0 + 1 : Nat) : Int) + 1 := by omega
        have he2 : (-((0 + 1 : Nat) : Int) + 1).toNat = 0 := by omega
        simp only [F64.ceil, he, if_true, he2, hn']
        norm_num
      | succ t2 =>
        have he : ¬ ((0 : Int) ≤ -((t2 + 1 + 1 : Nat) : Int) + 1) := by omega
        have he2 : (-(-((t2 + 1 + 1 : Nat) : Int) + 1)).toNat = t2 + 1 := by omega
        simp only [F64.ceil, he, if_false, he2]
        exact ceil_of_between _ _ _ (Nat.two_pow_pos _) h1' (by omega) hn
  · rw [if_neg h53]
    cases t with
    | zero =>
      rw [Nat.pow_zero, Nat.mul_one] at h1 h2
      simp only [F64.ceil]
      norm_num
      omega
    | succ t1 =>
      have he : ¬ ((0 : Int) ≤ -((t1 + 1 : Nat) : Int)) := by omega
      have he2 : (-(-((t1 + 1 : Nat) : Int))).toNat = t1 + 1 := by omega
      simp only [F64.ceil, he, if_false, he2]
      exact ceil_of_between _ _ _ (Nat.two_pow_pos _) h1 h2 hn

/-- The ceiling of the `float64` quotient of `A < 2 ^ 53` by `B` is the exact ceiling. -/
theorem f64Round_ceil (A B : Nat) (hA : 0 < A) (hA2 : A < 2 ^ 53) (hB : 0 < B) :
    (f64Round A B).ceil = (A + B - 1) / B := by
  obtain ⟨a1, a2, a3⟩ := bitLen_spec A hA
  obtain ⟨b1, b2, b3⟩ := bitLen_spec B hB
  have hla := bitLen_le_of_lt A 53 hA hA2
  -- the exact ceiling
  have hn0 : (A + B - 1) / B * B + (A + B - 1) % B = A + B - 1 := by
    rw [Nat.mul_comm]; exact Nat.div_add_mod _ _
  have hnr := Nat.mod_lt (A + B - 1) hB
  have hn : 1 ≤ (A + B - 1) / B := (Nat.one_le_div_iff hB).2 (by omega)
  have hn2 : A ≤ (A + B - 1) / B * B := by omega
  have hn1 : ((A + B - 1) / B - 1) * B < A := by
    have e : ((A + B - 1) / B - 1) * B + B = (A + B - 1) / B * B := by
      have : (A + B - 1) / B = ((A + B - 1) / B - 1) + 1 := by omega
      conv_rhs => rw [this, Nat.add_mul, Nat.one_mul]
    omega
  have hnA : (A + B - 1) / B ≤ A := by
    have : (A + B - 1) / B * 1 ≤ (A + B - 1) / B * B := Nat.mul_le_mul_left _ hB
    rcases Nat.lt_or_ge A ((A + B - 1) / B) with h | h
    · exfalso
      have h3 : ((A + B - 1) / B - 1) * 1 ≤ ((A + B - 1) / B - 1) * B :=
        Nat.mul_le_mul_left _ hB
      omega
    · exact h
  have hnum : ¬ (A = 0 ∨ B = 0) := by omega
  have hdown : bitLen A - (53 + bitLen B) = 0 := by omega
  have hup : 1 ≤ 53 + bitLen B - bitLen A := by omega
  -- the scaled quotient lies in `[2 ^ 52, 2 ^ 54)`
  have hpowlo : 2 ^ (bitLen A - 1) * 2 ^ (53 + bitLen B - bitLen A) = 2 ^ 52 * 2 ^ bitLen B := by
    rw [← Nat.pow_add, ← Nat.pow_add]
    congr 1
    omega
  have hpowhi : 2 ^ bitLen A * 2 ^ (53 + bitLen B - bitLen A)
      = 2 ^ 54 * 2 ^ (bitLen B - 1) := by
    rw [← Nat.pow_add, ← Nat.pow_add]
    congr 1
    omega
  have hlo : 2 ^ 52 * B ≤ A * 2 ^ (53 + bitLen B - bitLen A) := by
    have h1 : 2 ^ (bitLen A - 1) * 2 ^ (53 + bitLen B - bitLen A)
        ≤ A * 2 ^ (53 + bitLen B - bitLen A) := Nat.mul_le_mul_right _ a2
    have h2 : 2 ^ 52 * B ≤ 2 ^ 52 * 2 ^ bitLen B := Nat.mul_le_mul_left _ (by omega)
    omega
  have hhi : A * 2 ^ (53 + bitLen B - bitLen A) < 2 ^ 54 * B := by
    have h1 : A * 2 ^ (53 + bitLen B - bitLen A)
        < 2 ^ bitLen A * 2 ^ (53 + bitLen B - bitLen A) :=
      Nat.mul_lt_mul_of_pos_right a3 (Nat.two_pow_pos _)
    have h2 : 2 ^ 54 * 2 ^ (bitLen B - 1) ≤ 2 ^ 54 * B := Nat.mul_le_mul_left _ b2
    omega
  have hsucc : 2 ^ (53 + bitLen B - bitLen A) = 2 * 2 ^ (53 + bitLen B - bitLen A - 1) := by
    have : 53 + bitLen B - bitLen A = (53 + bitLen B - bitLen A - 1) + 1 := by omega
    conv_lhs => rw [this, Nat.pow_succ, Nat.mul_comm]
  simp only [f64Round, hnum, if_false, hdown, Nat.pow_zero, Nat.mul_one]
  split
  · next hlt =>
    have hq : 2 ^ 52 ≤ A * 2 ^ (53 + bitLen B - bitLen A) / B :=
      (Nat.le_div_iff_mul_le hB).2 hlo
    obtain ⟨r1, r2⟩ := roundEven_between A B (2 ^ (53 + bitLen B - bitLen A)) _ hA2 hB hn1 hn2 hn hq
    have he : (bitLen A : Int) - (bitLen B : Int) - 53
        = -((53 + bitLen B - bitLen A : Nat) : Int) := by omega
    rw [he]
    exact f64Norm_ceil _ _ _ (by have := roundEven_le (A * 2 ^ (53 + bitLen B - bitLen A)) B; omega)
      (by omega) r1 r2 hn
  · next hnlt =>
    have e2 : A * 2 ^ (53 + bitLen B - bitLen A)
        = 2 * (A * 2 ^ (53 + bitLen B - bitLen A - 1)) := by
      rw [hsucc]; ring
    have hge : 2 ^ 53 * B ≤ A * 2 ^ (53 + bitLen B - bitLen A) := by
      have := (Nat.le_div_iff_mul_le hB).1 (Nat.le_of_not_lt hnlt)
      exact this
    have hq : 2 ^ 52 ≤ A * 2 ^ (53 + bitLen B - bitLen A - 1) / B := by
      apply (Nat.le_div_iff_mul_le hB).2
      omega
    have hq2 : A * 2 ^ (53 + bitLen B - bitLen A - 1) / B < 2 ^ 53 := by
      apply (Nat.div_lt_iff_lt_mul hB).2
      omega
    rw [e2, roundEven_double]
    obtain ⟨r1, r2⟩ := roundEven_between A B (2 ^ (53 + bitLen B - bitLen A - 1)) _ hA2 hB
      hn1 hn2 hn hq
    have he : (bitLen A : Int) - (bitLen B : Int) - 53 + 1
        = -((53 + bitLen B - bitLen A - 1 : Nat) : Int) := by omega
    rw [he]
    exact f64Norm_ceil _ _ _
      (by have := roundEven_le (A * 2 ^ (53 + bitLen B - bitLen A - 1)) B; omega)
      (by omega) r1 r2 hn

/-- Below `2 ^ 53` the `float64` ceiling of `Read` and `Write` is the exact ceiling. -/
theorem ceilDiv_eq (a b : Nat) (ha : a < 2 ^ 53) (hb : 0 < b) : ceilDiv a b = exactCeil a b := by
  unfold ceilDiv exactCeil
  rw [f64OfNat_of_lt a ha]
  rcases Nat.eq_zero_or_pos a with h0 | hpos
  · subst h0
    rw [f64Round_zero]
    have : (0 + b - 1) / b = 0 := Nat.div_eq_of_lt (by omega)
    rw [this]
    rfl
  · have hgo : ∀ n : Nat, n < 2 ^ 53 → (goInt n).toNat = n := by
      intro n hn
      have : n < 2 ^ 63 := by omega
      rw [goInt, if_pos this]
      exact Int.toNat_ofNat n
    rcases Nat.lt_or_ge b (2 ^ 53) with hb53 | hb53
    · rw [f64OfNat_of_lt b hb53, f64Round_ceil a b hpos ha hb]
      apply hgo
      have : (a + b - 1) / b ≤ a + b - 1 := Nat.div_le_self _ _
      have h2 : (a + b - 1) / b * b ≤ a + b - 1 := Nat.div_mul_le_self _ _
      rcases Nat.lt_or_ge ((a + b - 1) / b) (2 ^ 53) with h | h
      · exact h
      · exfalso
        have h3 : 2 ^ 53 * b ≤ (a + b - 1) / b * b := Nat.mul_le_mul_right _ h
        have h4 : 2 ^ 53 * 1 ≤ 2 ^ 53 * b := Nat.mul_le_mul_left _ hb
        have h5 : 2 ^ 53 * b = 2 ^ 53 * 1 + 2 ^ 53 * (b - 1) := by
          rw [← Nat.mul_add]; congr 1; omega
        have h6 : 1 * (b - 1) ≤ 2 ^ 53 * (b - 1) := Nat.mul_le_mul_right _ (by norm_num)
        omega
    · have hB := f64OfNat_ge b hb53
      rw [f64Round_ceil a (f64OfNat b) hpos ha (by omega)]
      have e1 : (a + f64OfNat b - 1) / f64OfNat b = 1 := by
        apply Nat.div_eq_of_lt_le <;> omega
      have e2 : (a + b - 1) / b = 1 := by
        apply Nat.div_eq_of_lt_le <;> omega
      rw [e1, e2]
      rfl

/-! ## `math.Pow` on powers of at most 53 bits -/

theorem trunc_exact (c : Nat) (hc : 0 < c) (hc2 : c < 2 ^ 53) :
    (F64.mk (c * 2 ^ (53 - bitLen c)) ((bitLen c : Int) - 53)).trunc = c := by
  have hl := bitLen_le_of_lt c 53 hc hc2
  unfold F64.trunc
  simp only
  by_cases h53 : bitLen c = 53
  · have h1 : (0 : Int) ≤ (bitLen c : Int) - 53 := by omega
    have h2 : ((bitLen c : Int) - 53).toNat = 0 := by omega
    rw [if_pos h1, h2, h53]
    simp
  · have h1 : ¬ ((0 : Int) ≤ (bitLen c : Int) - 53) := by omega
    have h2 : (-((bitLen c : Int) - 53)).toNat = 53 - bitLen c := by omega
    rw [if_neg h1, h2, Nat.mul_div_cancel _ (Nat.two_pow_pos _)]

/-- The `float64` product of two values whose exact product has at most 53 bits is that
product. -/
theorem mul_exact (c1 c2 : Nat) (e1 e2 : Int) (h1 : 0 < c1) (h2 : 0 < c2)
    (h : c1 * c2 < 2 ^ 53) :
    F64.mul ⟨c1 * 2 ^ (53 - bitLen c1), e1⟩ ⟨c2 * 2 ^ (53 - bitLen c2), e2⟩
      = ⟨c1 * c2 * 2 ^ (53 - bitLen (c1 * c2)),
          e1 + e2 + 53 + (bitLen (c1 * c2) : Int) - (bitLen c1 : Int) - (bitLen c2 : Int)⟩ := by
  have hc1 : c1 < 2 ^ 53 := by
    have : c1 * 1 ≤ c1 * c2 := Nat.mul_le_mul_left _ h2
    omega
  have hc2 : c2 < 2 ^ 53 := by
    have : 1 * c2 ≤ c1 * c2 := Nat.mul_le_mul_right _ h1
    omega
  have hl1 := bitLen_le_of_lt c1 53 h1 hc1
  have hl2 := bitLen_le_of_lt c2 53 h2 hc2
  have hprod : c1 * 2 ^ (53 - bitLen c1) * (c2 * 2 ^ (53 - bitLen c2))
      = c1 * c2 * 2 ^ ((53 - bitLen c1) + (53 - bitLen c2)) := by
    rw [Nat.pow_add]; ring
  unfold F64.mul
  simp only
  rw [hprod, f64Round_exact _ _ (Nat.mul_pos h1 h2) h]
  simp only
  congr 1
  push_cast
  omega

theorem powLoop_zero (fuel : Nat) (a1 : F64) (ae : Int) (x1 : F64) (xe : Int) :
    powLoop fuel 0 a1 ae x1 xe = (a1, ae) := by
  cases fuel with
  | zero => rfl
  | succ f => simp [powLoop]

theorem bitLen_sq (X : Nat) (hX : 0 < X) :
    bitLen (X * X) = 2 * bitLen X ∨ bitLen (X * X) = 2 * bitLen X - 1 := by
  obtain ⟨a1, a2, a3⟩ := bitLen_spec X hX
  obtain ⟨b1, b2, b3⟩ := bitLen_spec (X * X) (Nat.mul_pos hX hX)
  have hlo : 2 ^ (2 * bitLen X - 2) ≤ X * X := by
    have e : 2 * bitLen X - 2 = (bitLen X - 1) + (bitLen X - 1) := by omega
    rw [e, Nat.pow_add]
    exact Nat.mul_le_mul a2 a2
  have hhi : X * X < 2 ^ (2 * bitLen X) := by
    have e : 2 * bitLen X = bitLen X + bitLen X := by omega
    rw [e, Nat.pow_add]
    exact Nat.mul_lt_mul'' a3 a3
  have hle : bitLen (X * X) ≤ 2 * bitLen X := by
    by_contra hcon
    have : 2 ^ (2 * bitLen X) ≤ 2 ^ (bitLen (X * X) - 1) :=
      Nat.pow_le_pow_right (by decide) (by omega)
    omega
  have hge : 2 * bitLen X - 1 ≤ bitLen (X * X) := by
    by_contra hcon
    have : 2 ^ bitLen (X * X) ≤ 2 ^ (2 * bitLen X - 2) :=
      Nat.pow_le_pow_right (by decide) (by omega)
    omega
  omega

/-- The loop of `math.Pow` computes `P * X ^ i` exactly while that value has at most 53
bits. -/
theorem powLoop_exact : ∀ (fuel i P X : Nat) (ae : Int), i < 2 ^ fuel → 0 < P → 2 ≤ X →
    P * X ^ i < 2 ^ 53 →
    ∃ ae1 : Int,
      powLoop fuel i ⟨P * 2 ^ (53 - bitLen P), (bitLen P : Int) - 53 - ae⟩ ae
          ⟨X * 2 ^ (53 - bitLen X), -53⟩ (bitLen X : Int)
        = (⟨P * X ^ i * 2 ^ (53 - bitLen (P * X ^ i)),
            (bitLen (P * X ^ i) : Int) - 53 - ae1⟩, ae1) := by
  intro fuel
  induction fuel with
  | zero =>
    intro i P X ae hi _ _ _
    have : i = 0 := by simpa using hi
    subst this
    exact ⟨ae, by simp [powLoop]⟩
  | succ f ih =>
    intro i P X ae hi hP hX hb
    by_cases hi0 : i = 0
    · subst hi0
      exact ⟨ae, by simp [powLoop]⟩
    · have hXpos : 0 < X := by omega
      have hXi : X ≤ X ^ i := by
        calc X = X ^ 1 := (Nat.pow_one X).symm
          _ ≤ X ^ i := Nat.pow_le_pow_right hXpos (by omega)
      have hPX : P * X ≤ P * X ^ i := Nat.mul_le_mul_left _ hXi
      have hX53 : X < 2 ^ 53 := by
        have : 1 * X ≤ P * X := Nat.mul_le_mul_right _ hP
        omega
      have hlX := bitLen_le_of_lt X 53 hXpos hX53
      have hcat : ¬ ((bitLen X : Int) < -4096 ∨ 4096 < (bitLen X : Int)) := by omega
      rw [powLoop, if_neg hi0, if_neg hcat]
      -- the answer after this bit
      have hans : ∃ (P1 : Nat) (ae1 : Int), 0 < P1 ∧ P1 * (X * X) ^ (i / 2) = P * X ^ i
          ∧ (if i % 2 = 1 then
                F64.mul ⟨P * 2 ^ (53 - bitLen P), (bitLen P : Int) - 53 - ae⟩
                  ⟨X * 2 ^ (53 - bitLen X), -53⟩
              else ⟨P * 2 ^ (53 - bitLen P), (bitLen P : Int) - 53 - ae⟩)
            = ⟨P1 * 2 ^ (53 - bitLen P1), (bitLen P1 : Int) - 53 - ae1⟩
          ∧ (if i % 2 = 1 then ae + (bitLen X : Int) else ae) = ae1 := by
        have hsq : (X * X) ^ (i / 2) = X ^ (2 * (i / 2)) := by
          rw [← Nat.pow_two, ← Nat.pow_mul]
        by_cases hbit : i % 2 = 1
        · refine ⟨P * X, ae + (bitLen X : Int), Nat.mul_pos hP hXpos, ?_, ?_, by rw [if_pos hbit]⟩
          · have e : i = 1 + 2 * (i / 2) := by omega
            rw [hsq]
            conv_rhs => rw [e, Nat.pow_add, Nat.pow_one]
            ring
          · rw [if_pos hbit, mul_exact P X _ _ hP hXpos (by omega)]
            congr 1
            omega
        · refine ⟨P, ae, hP, ?_, by rw [if_neg hbit], by rw [if_neg hbit]⟩
          have e : i = 2 * (i / 2) := by omega
          rw [hsq]
          conv_rhs => rw [e]
      obtain ⟨P1, ae1, hP1, hprod, ha, hae⟩ := hans
      rw [ha, hae]
      by_cases hhalf : i / 2 = 0
      · rw [hhalf, powLoop_zero]
        rw [hhalf, Nat.pow_zero, Nat.mul_one] at hprod
        rw [← hprod]
        exact ⟨ae1, rfl⟩
      · -- the square of the base is exact as well
        have hXX : X * X < 2 ^ 53 := by
          have h1 : (X * X) ^ 1 ≤ (X * X) ^ (i / 2) :=
            Nat.pow_le_pow_right (Nat.mul_pos hXpos hXpos) (by omega)
          rw [Nat.pow_one] at h1
          have h2 : 1 * (X * X) ^ (i / 2) ≤ P1 * (X * X) ^ (i / 2) :=
            Nat.mul_le_mul_right _ hP1
          omega
        obtain ⟨m1, m2⟩ := normMant_bounds (X * X) (Nat.mul_pos hXpos hXpos) hXX
        have hx2 := mul_exact X X (-53) (-53) hXpos hXpos hXX
        rw [hx2]
        simp only
        have hx3 : (if 2 * (X * X * 2 ^ (53 - bitLen (X * X)))
              < 2 ^ (-(-53 + -53 + 53 + (bitLen (X * X) : Int) - (bitLen X : Int)
                  - (bitLen X : Int))).toNat
            then (F64.mk (X * X * 2 ^ (53 - bitLen (X * X)))
              (-53 + -53 + 53 + (bitLen (X * X) : Int) - (bitLen X : Int) - (bitLen X : Int) + 1))
            else ⟨X * X * 2 ^ (53 - bitLen (X * X)),
              -53 + -53 + 53 + (bitLen (X * X) : Int) - (bitLen X : Int) - (bitLen X : Int)⟩)
            = ⟨X * X * 2 ^ (53 - bitLen (X * X)), -53⟩
          ∧ (if 2 * (X * X * 2 ^ (53 - bitLen (X * X)))
              < 2 ^ (-(-53 + -53 + 53 + (bitLen (X * X) : Int) - (bitLen X : Int)
                  - (bitLen X : Int))).toNat
            then 2 * (bitLen X : Int) - 1 else 2 * (bitLen X : Int))
            = (bitLen (X * X) : Int) := by
          rcases bitLen_sq X hXpos with h | h
          · have e : (-(-53 + -53 + 53 + (bitLen (X * X) : Int) - (bitLen X : Int)
                - (bitLen X : Int))).toNat = 53 := by omega
            have hn : ¬ (2 * (X * X * 2 ^ (53 - bitLen (X * X))) < 2 ^ 53) := by omega
            rw [e, if_neg hn, if_neg hn]
            exact ⟨by congr 1; omega, by omega⟩
          · have e : (-(-53 + -53 + 53 + (bitLen (X * X) : Int) - (bitLen X : Int)
                - (bitLen X : Int))).toNat = 54 := by
              have := (bitLen_spec X hXpos).1
              omega
            have hn : 2 * (X * X * 2 ^ (53 - bitLen (X * X))) < 2 ^ 54 := by omega
            rw [e, if_pos hn, if_pos hn]
            have := (bitLen_spec X hXpos).1
            exact ⟨by congr 1; omega, by omega⟩
        rw [hx3.1, hx3.2]
        have h2 : 2 ≤ X * X := by
          have : 2 * 1 ≤ X * X := Nat.mul_le_mul hX (by omega)
          omega
        obtain ⟨ae2, hres⟩ := ih (i / 2) P1 (X * X) ae1
          (by rw [Nat.pow_succ] at hi; omega) hP1 h2 (by rw [hprod]; exact hb)
        rw [hres, hprod]
        exact ⟨ae2, rfl⟩

theorem f64OfNat_pos (d : Nat) (hd : 0 < d) : 0 < f64OfNat d := by
  rcases Nat.lt_or_ge d (2 ^ 53) with h | h
  · rw [f64OfNat_of_lt d h]; exact hd
  · have := f64OfNat_ge d h
    omega

theorem goInt_of_lt (n : Nat) (h : n < 2 ^ 63) : goInt n = (n : Int) := by
  rw [goInt, if_pos h]

/-- While the exact power has at most 53 bits, `int(math.Pow(float64(k), float64(d)))` is
that power. -/
theorem intPow_eq (k d : Nat) (h : k ^ d < 2 ^ 53) : intPow k d = ((k ^ d : Nat) : Int) := by
  have hone : (F64.mk (2 ^ 52) (-52)).trunc = 1 := by decide
  have hzero : (F64.mk 0 0).trunc = 0 := by decide
  unfold intPow
  rcases Nat.eq_zero_or_pos d with hd0 | hdpos
  · subst hd0
    have : f64OfNat 0 = 0 := f64OfNat_of_lt 0 (by norm_num)
    simp only [this, f64Pow, true_or, if_true, hone, Nat.pow_zero]
    rfl
  · have hY := f64OfNat_pos d hdpos
    have hY0 : ¬ (f64OfNat d = 0) := by omega
    rcases Nat.eq_zero_or_pos k with hk0 | hkpos
    · subst hk0
      have hx : f64OfNat 0 = 0 := f64OfNat_of_lt 0 (by norm_num)
      have hpow : 0 ^ d = 0 := Nat.zero_pow hdpos
      rw [hx, hpow]
      have hp : f64Pow 0 (f64OfNat d) = some ⟨0, 0⟩ := by
        unfold f64Pow
        have c1 : ¬ (f64OfNat d = 0 ∨ (0 : Nat) = 1) := by omega
        rw [if_neg c1]
        by_cases hY1 : f64OfNat d = 1
        · rw [if_pos hY1, f64Round_zero]
        · rw [if_neg hY1, if_pos rfl]
      rw [hp]
      simp only
      rw [hzero]
      rfl
    · by_cases hk1 : k = 1
      · subst hk1
        have hx : f64OfNat 1 = 1 := f64OfNat_of_lt 1 (by norm_num)
        simp only [hx, f64Pow, or_true, if_true, hone, Nat.one_pow]
        rfl
      · have hk2 : 2 ≤ k := by omega
        have hd53 : d < 53 := by
          by_contra hcon
          have h1 : 2 ^ 53 ≤ 2 ^ d := Nat.pow_le_pow_right (by decide) (by omega)
          have h2 : 2 ^ d ≤ k ^ d := Nat.pow_le_pow_left hk2 d
          omega
        have hk53 : k < 2 ^ 53 := by
          have : k ^ 1 ≤ k ^ d := Nat.pow_le_pow_right hkpos hdpos
          rw [Nat.pow_one] at this
          omega
        have hx : f64OfNat k = k := f64OfNat_of_lt k hk53
        have hy : f64OfNat d = d := f64OfNat_of_lt d (by omega)
        rw [hx, hy]
        have hd0 : ¬ (d = 0 ∨ k = 1) := by omega
        by_cases hd1 : d = 1
        · subst hd1
          simp only [f64Pow, hd0, if_false, if_true]
          have : (f64Round k 1).trunc = k := hx
          rw [this, Nat.pow_one, goInt_of_lt k (by omega)]
        · have hk0 : ¬ (k = 0) := by omega
          have hd63 : ¬ (2 ^ 63 ≤ d) := by omega
          have hr := f64Round_exact k 0 hkpos hk53
          rw [Nat.pow_zero, Nat.mul_one] at hr
          simp only [f64Pow, hd0, hd1, hk0, hd63, if_false, hr]
          obtain ⟨ae1, hloop⟩ := powLoop_exact 64 d 1 k 0 (by omega) (by decide) hk2
            (by rw [Nat.one_mul]; exact h)
          have ea : (F64.mk (2 ^ 52) (-52))
              = ⟨1 * 2 ^ (53 - bitLen 1), (bitLen 1 : Int) - 53 - 0⟩ := by
            rw [bitLen_one]; rfl
          have ex : ((0 : Nat) : Int) + (bitLen k : Int) - 53 + 53 = (bitLen k : Int) := by omega
          rw [ea, ex, hloop]
          simp only [Nat.one_mul]
          have e3 : (bitLen (k ^ d) : Int) - 53 - ae1 + ae1 = (bitLen (k ^ d) : Int) - 53 := by
            omega
          rw [e3, trunc_exact (k ^ d) (Nat.pow_pos hkpos) h, goInt_of_lt _ (by omega)]

/-! ## Address decomposition -/

theorem foldl_cons_eq_reverse_map {α β : Type} (f : α → β) (l : List α) (acc : List β) :
    l.foldl (fun path x => f x :: path) acc = (l.map f).reverse ++ acc := by
  induction l generalizing acc with
  | nil => simp
  | cons a t ih => simp [ih]

theorem leafPath_eq_reverse (k depth n : Nat) :
    leafPath k depth n = ((List.range depth).map (fun level =>
      (Int.tmod (Int.tdiv (n : Int) (intPow k level)) (k : Int)).toNat)).reverse := by
  unfold leafPath
  rw [foldl_cons_eq_reverse_map]
  simp

theorem leafPath_length (k depth n : Nat) : (leafPath k depth n).length = depth := by
  simp [leafPath_eq_reverse]

theorem leafPath_lt (k depth n : Nat) (hk : 0 < k) : ∀ i ∈ leafPath k depth n, i < k := by
  intro i hi
  rw [leafPath_eq_reverse] at hi
  simp only [List.mem_reverse, List.mem_map, List.mem_range] at hi
  obtain ⟨L, _, rfl⟩ := hi
  have h1 := Int.tmod_lt_of_pos (Int.tdiv (n : Int) (intPow k L)) (b := (k : Int)) (by omega)
  omega

/-- The index `getLeaf` computes at a level whose power has at most 53 bits is the exact
digit. -/
theorem leafDigit_eq (k level n : Nat) (h : k ^ level < 2 ^ 53) :
    (Int.tmod (Int.tdiv (n : Int) (intPow k level)) (k : Int)).toNat = (n / k ^ level) % k := by
  rw [intPow_eq k level h, ← Int.ofNat_tdiv, ← Int.ofNat_tmod, Int.toNat_ofNat]

theorem leafPath_eq_map (k depth n : Nat) (hb : k ^ (depth - 1) < 2 ^ 53) :
    leafPath k depth n = (List.range depth).map (fun L => (n / k ^ (depth - 1 - L)) % k) := by
  rw [leafPath_eq_reverse]
  apply List.ext_getElem?
  intro i
  by_cases hi : i < depth
  · rw [List.getElem?_reverse (by simpa using hi)]
    simp only [List.length_map, List.length_range, List.getElem?_map]
    rw [List.getElem?_range (by omega), List.getElem?_range hi]
    simp only [Option.map_some', Option.some.injEq]
    apply leafDigit_eq
    rcases Nat.eq_zero_or_pos k with hk | hk
    · subst hk
      rcases Nat.eq_zero_or_pos (depth - 1 - i) with h0 | h0
      · rw [h0]; norm_num
      · rw [Nat.zero_pow h0]; norm_num
    · exact Nat.lt_of_le_of_lt (Nat.pow_le_pow_right hk (by omega)) hb
  · rw [List.getElem?_eq_none (by simpa using hi), List.getElem?_eq_none (by simpa using hi)]

theorem sum_digits_eq_mod (k n depth : Nat) :
    ∑ j ∈ Finset.range depth, ((n / k ^ j) % k) * k ^ j = n % k ^ depth := by
  induction depth with
  | zero => simp [Nat.mod_one]
  | succ d ih =>
    rw [Finset.sum_range_succ, ih, Nat.mod_pow_succ, Nat.mul_comm (k ^ d)]

/-! ## Capacity -/

theorem wrap64_of_lt (z : Int) (h0 : 0 ≤ z) (h : z < 2 ^ 63) : wrap64 z = z := by
  unfold wrap64
  rw [Int.emod_eq_of_lt (by omega) (by omega)]
  omega

/-- While the power has at most 53 bits and the product fits an `int`, `Capacity()` is the
exact product. -/
theorem Capacity_eq {σ : Type} (s : ShortenBlock σ) (h1 : s.idsPerNode ^ s.depth < 2 ^ 53)
    (h2 : s.idsPerNode ^ s.depth * s.shortener.NodeSize < 2 ^ 63) :
    s.Capacity = ((s.idsPerNode ^ s.depth * s.shortener.NodeSize : Nat) : Int) := by
  unfold ShortenBlock.Capacity
  rw [intPow_eq _ _ h1, ← Int.ofNat_mul]
  exact wrap64_of_lt _ (Int.ofNat_nonneg _) (by exact_mod_cast h2)

theorem Capacity_zero {σ : Type} (s : ShortenBlock σ) (hk : s.idsPerNode = 0 ∧ 0 < s.depth) :
    s.Capacity = 0 := by
  have h1 : s.idsPerNode ^ s.depth = 0 := by rw [hk.1]; exact Nat.zero_pow hk.2
  rw [Capacity_eq s (by rw [h1]; norm_num) (by rw [h1]; norm_num), h1]
  simp

/-! ## Leaf ranges -/

theorem exactCeil_mul_ge (E N : Nat) (hN : 0 < N) : E ≤ exactCeil E N * N := by
  unfold exactCeil
  have h1 := Nat.div_add_mod (E + N - 1) N
  have h2 := Nat.mod_lt (E + N - 1) hN
  have h3 : (E + N - 1) / N * N = N * ((E + N - 1) / N) := Nat.mul_comm _ _
  omega

theorem exactCeil_pos (E N : Nat) (hN : 0 < N) (hE : 0 < E) : 1 ≤ exactCeil E N := by
  unfold exactCeil
  exact (Nat.one_le_div_iff hN).2 (by omega)

theorem exactCeil_pred_mul_lt (E N : Nat) (hN : 0 < N) (hE : 0 < E) :
    (exactCeil E N - 1) * N < E := by
  have hp := exactCeil_pos E N hN hE
  have h0 : (exactCeil E N - 1) * N + N = exactCeil E N * N := by
    have : exactCeil E N = (exactCeil E N - 1) + 1 := by omega
    conv_rhs => rw [this, Nat.add_mul, Nat.one_mul]
  unfold exactCeil at h0 ⊢
  have h1 := Nat.div_add_mod (E + N - 1) N
  have h2 := Nat.mod_lt (E + N - 1) hN
  have h3 : (E + N - 1) / N * N = N * ((E + N - 1) / N) := Nat.mul_comm _ _
  omega

theorem mod_of_between (E N q : Nat) (h1 : q * N ≤ E) (h2 : E < q * N + N) :
    E % N = E - q * N := by
  have h : E = (E - q * N) + q * N := by omega
  conv_lhs => rw [h]
  rw [Nat.add_mul_mod_self_right, Nat.mod_eq_of_lt (by omega)]

theorem div_mul_le_and_lt (o N : Nat) (hN : 0 < N) :
    o / N * N ≤ o ∧ o < o / N * N + N ∧ o % N = o - o / N * N := by
  have h1 := Nat.div_add_mod o N
  have h2 := Nat.mod_lt o hN
  have h3 : o / N * N = N * (o / N) := Nat.mul_comm _ _
  omega

theorem succ_mul_le_of_lt (a b N : Nat) (h : a < b) : a * N + N ≤ b * N := by
  have : (a + 1) * N ≤ b * N := Nat.mul_le_mul_right N h
  rwa [Nat.add_mul, Nat.one_mul] at this

theorem pos_step_first_last (o E N sN b re : Nat)
    (a1 : sN ≤ o) (a2 : o < sN + N) (hE : o ≤ E)
    (b2 : sN < E) (b1 : E ≤ sN + N)
    (d1 : re = 0 → E = sN + N) (d2 : re ≠ 0 → re = E - sN)
    (hb : (re = 0 → b = N) ∧ (re ≠ 0 → b = re)) :
    o - sN ≤ b ∧ b ≤ N ∧ max o (min sN E) + (b - (o - sN)) = max o (min (sN + N) E) := by
  rcases Nat.eq_zero_or_pos re with h | h
  · have := d1 h; have := hb.1 h; omega
  · have := d2 (by omega); have := hb.2 (by omega); omega

theorem pos_step_first (o E N sN eN1 : Nat)
    (a1 : sN ≤ o) (a2 : o < sN + N)
    (b2 : eN1 < E) (c3 : sN + N ≤ eN1) :
    o - sN ≤ N ∧ max o (min sN E) + (N - (o - sN)) = max o (min (sN + N) E) := by
  omega

theorem pos_step_last (o E N sN eN1 b re : Nat)
    (a2 : o < sN + N)
    (b2 : eN1 < E) (b1 : E ≤ eN1 + N) (c2 : sN + N ≤ eN1)
    (d1 : re = 0 → E = eN1 + N) (d2 : re ≠ 0 → re = E - eN1)
    (hb : (re = 0 → b = N) ∧ (re ≠ 0 → b = re)) :
    b ≤ N ∧ max o (min eN1 E) + (b - 0) = max o (min (eN1 + N) E) := by
  rcases Nat.eq_zero_or_pos re with h | h
  · have := d1 h; have := hb.1 h; omega
  · have := d2 (by omega); have := hb.2 (by omega); omega

theorem pos_step_mid (o E N sN jN eN1 : Nat)
    (a2 : o < sN + N)
    (b2 : eN1 < E) (c2 : sN + N ≤ jN) (c3 : jN + N ≤ eN1) :
    max o (min jN E) + (N - 0) = max o (min (jN + N) E) := by
  omega

/-- The slice that `Read` takes from leaf `j` covers the part of `[offset, offset + size)`
inside the leaf. -/
theorem read_sub_arith (N o size j : Nat) (hN : 0 < N) (h1 : o / N ≤ j)
    (h2 : j < exactCeil (o + size) N) :
    (if j = o / N then o % N else 0)
        ≤ (if j = exactCeil (o + size) N - 1 then
            (if (o + size) % N = 0 then N else (o + size) % N) else N)
      ∧ (if j = exactCeil (o + size) N - 1 then
            (if (o + size) % N = 0 then N else (o + size) % N) else N) ≤ N
      ∧ max o (min (j * N) (o + size))
          + ((if j = exactCeil (o + size) N - 1 then
              (if (o + size) % N = 0 then N else (o + size) % N) else N)
            - (if j = o / N then o % N else 0))
        = max o (min ((j + 1) * N) (o + size)) := by
  have hE : 0 < o + size := by
    rcases Nat.eq_zero_or_pos (o + size) with h | h
    · rw [h] at h2; simp [exactCeil] at h2
      have : (N - 1) / N = 0 := Nat.div_eq_of_lt (by omega)
      omega
    · exact h
  obtain ⟨a1, a2, a3⟩ := div_mul_le_and_lt o N hN
  have b1 := exactCeil_mul_ge (o + size) N hN
  have b2 := exactCeil_pred_mul_lt (o + size) N hN hE
  have b3 := exactCeil_pos (o + size) N hN hE
  have b4 : (exactCeil (o + size) N - 1) * N + N = exactCeil (o + size) N * N := by
    have : exactCeil (o + size) N = (exactCeil (o + size) N - 1) + 1 := by omega
    conv_rhs => rw [this, Nat.add_mul, Nat.one_mul]
  have b5 : o + size ≤ (exactCeil (o + size) N - 1) * N + N := by omega
  have c1 : (j + 1) * N = j * N + N := by rw [Nat.add_mul, Nat.one_mul]
  have d1 : (o + size) % N = 0 → o + size = (exactCeil (o + size) N - 1) * N + N := by
    intro h0
    have e1 := Nat.div_add_mod (o + size) N
    rw [h0, Nat.add_zero, Nat.mul_comm] at e1
    have e2 : (exactCeil (o + size) N - 1) < (o + size) / N := by
      by_contra hc
      have := Nat.mul_le_mul_right N (Nat.le_of_not_lt hc)
      omega
    have e3 := succ_mul_le_of_lt _ _ N e2
    omega
  have d2 : (o + size) % N ≠ 0 →
      (o + size) % N = o + size - (exactCeil (o + size) N - 1) * N := by
    intro h0
    apply mod_of_between _ _ _ (by omega)
    rcases Nat.lt_or_ge (o + size) ((exactCeil (o + size) N - 1) * N + N) with h | h
    · exact h
    · exfalso
      apply h0
      have : o + size = exactCeil (o + size) N * N := by omega
      rw [this]; exact Nat.mul_mod_left _ _
  have hb : ((o + size) % N = 0 → (if (o + size) % N = 0 then N else (o + size) % N) = N)
      ∧ ((o + size) % N ≠ 0 →
          (if (o + size) % N = 0 then N else (o + size) % N) = (o + size) % N) :=
    ⟨fun h => if_pos h, fun h => if_neg h⟩
  rw [c1]
  by_cases g1 : j = o / N
  · by_cases g2 : j = exactCeil (o + size) N - 1
    · rw [if_pos g1, if_pos g2, a3, g1]
      rw [g1] at g2
      rw [← g2] at b2 b5 d1 d2
      exact pos_step_first_last o (o + size) N (o / N * N) _ _ a1 a2 (by omega) b2 b5 d1 d2 hb
    · rw [if_pos g1, if_neg g2, a3, g1]
      have c3 := succ_mul_le_of_lt (o / N) (exactCeil (o + size) N - 1) N (by omega)
      have := pos_step_first o (o + size) N (o / N * N) _ a1 a2 b2 c3
      exact ⟨this.1, Nat.le_refl _, this.2⟩
  · have c2 := succ_mul_le_of_lt (o / N) j N (by omega)
    by_cases g2 : j = exactCeil (o + size) N - 1
    · rw [if_neg g1, if_pos g2, g2]
      rw [g2] at c2
      have := pos_step_last o (o + size) N (o / N * N) _ _ _ a2 b2 b5 c2 d1 d2 hb
      exact ⟨Nat.zero_le _, this.1, this.2⟩
    · rw [if_neg g1, if_neg g2]
      have c3 := succ_mul_le_of_lt j (exactCeil (o + size) N - 1) N (by omega)
      exact ⟨Nat.zero_le _, Nat.le_refl _,
        pos_step_mid o (o + size) N (o / N * N) (j * N) _ a2 b2 c2 c3⟩

theorem range_start_inv (N o size : Nat) (hN : 0 < N) :
    max o (min (o / N * N) (o + size)) = o := by
  have := (div_mul_le_and_lt o N hN).1
  omega

theorem range_end_inv (N o size : Nat) (hN : 0 < N) :
    max o (min (exactCeil (o + size) N * N) (o + size)) = o + size := by
  have := exactCeil_mul_ge (o + size) N hN
  omega

/-! ## Reading a volume that has never been written -/

theorem unwritten_fresh (k d : Nat) : Unwritten k d (.mk [] []) := by
  cases d with
  | zero => simp [Unwritten, Node.id]
  | succ d => simp [Unwritten, Node.id, Node.children]

theorem unwritten_id (k d : Nat) (n : Node) (h : Unwritten k d n) : n.id = [] := by
  cases d with
  | zero => simpa [Unwritten] using h
  | succ d => exact h.1

theorem descend_unwritten {σ : Type} (D : Driver σ) (k : Nat) :
    ∀ (path : List Nat) (d : Nat) (node : Node) (w : World σ),
      path.length = d → (∀ i ∈ path, i < k) → Unwritten k d node →
      (descend D k path node w).1 = .ok [] ∧ Unwritten k d (descend D k path node w).2.1
        ∧ (descend D k path node w).2.2 = w := by
  intro path
  induction path with
  | nil =>
    intro d node w hlen _ hu
    subst hlen
    exact ⟨by simp [descend, unwritten_id k 0 node hu], hu, rfl⟩
  | cons i rest ih =>
    intro d node w hlen hlt hu
    cases d with
    | zero => simp at hlen
    | succ d =>
      obtain ⟨id, ch⟩ := node
      have hi : i < k := hlt i (by simp)
      have hrest : ∀ j ∈ rest, j < k := fun j hj => hlt j (by simp [hj])
      have hlen1 : rest.length = d := by simpa using hlen
      obtain ⟨hid, hch⟩ := hu
      simp only [Node.id, Node.children] at hid hch
      subst hid
      -- the children after lazy initialisation
      have key : ∃ ch1 : List Node, hydrate D k (.mk [] ch) w = (.ok (.mk [] ch1), w)
          ∧ ch1.length = k ∧ ∀ c ∈ ch1, Unwritten k d c := by
        rcases hch with h0 | ⟨hl, hall⟩
        · subst h0
          refine ⟨List.replicate k (.mk [] []), by simp [hydrate, Node.id, Node.children], by simp, ?_⟩
          intro c hc
          rw [List.eq_of_mem_replicate hc]
          exact unwritten_fresh k d
        · refine ⟨ch, ?_, hl, hall⟩
          have : ch.length ≠ 0 := by omega
          simp [hydrate, Node.children, this]
      obtain ⟨ch1, hh, hl1, hall1⟩ := key
      have hi1 : i < ch1.length := by omega
      have hget : ch1[i]? = some ch1[i] := List.getElem?_eq_getElem hi1
      have hc : Unwritten k d ch1[i] := hall1 _ (List.getElem_mem hi1)
      obtain ⟨h1, h2, h3⟩ := ih d ch1[i] w hlen1 hrest hc
      simp only [descend, hh, Node.children, Node.id, hget]
      refine ⟨h1, ⟨rfl, Or.inr ⟨by simp [Node.children, hl1], ?_⟩⟩, h3⟩
      intro c hc
      simp only [Node.children] at hc
      rcases List.mem_or_eq_of_mem_set hc with hc | hc
      · exact hall1 c hc
      · rw [hc]; exact h2


theorem leafPath_lt_of {k d : Nat} (j : Nat) (hk : ¬ (k = 0 ∧ 0 < d)) :
    ∀ i ∈ leafPath k d j, i < k := by
  rcases Nat.eq_zero_or_pos k with h0 | hpos
  · have hd : d = 0 := by omega
    subst hd
    simp [leafPath]
  · exact leafPath_lt k d j hpos

theorem getLeaf_unwritten {σ : Type} (s : ShortenBlock σ) (w : World σ) (j : Nat)
    (hu : Unwritten s.idsPerNode s.depth s.tree) :
    (s.getLeaf w j).2.2 = w
      ∧ (∃ t, (s.getLeaf w j).2.1 = { s with tree := t } ∧ Unwritten s.idsPerNode s.depth t)
      ∧ (¬ (s.idsPerNode = 0 ∧ 0 < s.depth) → (s.getLeaf w j).1 = .ok []) := by
  by_cases hk : s.idsPerNode = 0 ∧ 0 < s.depth
  · rw [ShortenBlock.getLeaf, if_pos hk]
    exact ⟨rfl, ⟨s.tree, rfl, hu⟩, fun h => absurd hk h⟩
  · obtain ⟨h1, h2, h3⟩ := descend_unwritten s.shortener s.idsPerNode
      (leafPath s.idsPerNode s.depth j) s.depth s.tree w (leafPath_length _ _ _)
      (leafPath_lt_of j hk) hu
    simp only [ShortenBlock.getLeaf, hk, if_false]
    exact ⟨h3, ⟨_, rfl, h2⟩, fun _ => h1⟩

theorem goSlice_replicate (n a b : Nat) (hab : a ≤ b) (hb : b ≤ n) :
    goSlice (List.replicate n 0) a b = some (List.replicate (b - a) 0) := by
  have : a ≤ b ∧ b ≤ n := ⟨hab, hb⟩
  simp [goSlice, this, List.take_replicate, List.drop_replicate, Nat.min_eq_left hb]

theorem readLeaf_unwritten {σ : Type} (s : ShortenBlock σ) (w : World σ)
    (size offset st en j : Nat) (readData : Bytes)
    (hu : Unwritten s.idsPerNode s.depth s.tree) :
    (s.readLeaf w size offset st en j readData).2.2 = w
      ∧ (∃ t, (s.readLeaf w size offset st en j readData).2.1 = { s with tree := t }
            ∧ Unwritten s.idsPerNode s.depth t)
      ∧ (¬ (s.idsPerNode = 0 ∧ 0 < s.depth) → ∀ a b : Nat,
          a = (if j = st then offset % s.shortener.NodeSize else 0) →
          b = (if j = en - 1 then
                (if (offset + size) % s.shortener.NodeSize = 0 then s.shortener.NodeSize
                 else (offset + size) % s.shortener.NodeSize)
               else s.shortener.NodeSize) →
          a ≤ b → b ≤ s.shortener.NodeSize →
          (s.readLeaf w size offset st en j readData).1
            = .ok (readData ++ List.replicate (b - a) 0)) := by
  obtain ⟨h1, ⟨t, h2, h3⟩, h4⟩ := getLeaf_unwritten s w j hu
  rcases hg0 : s.getLeaf w j with ⟨r, s1, w1⟩
  rw [hg0] at h1 h2 h4
  simp only at h1 h2 h4
  have hg : s.getLeaf w j = (r, { s with tree := t }, w) := by rw [hg0, h1, h2]
  clear hg0 h1 h2
  cases r with
  | err e => exact ⟨by simp [ShortenBlock.readLeaf, hg], ⟨t, by simp [ShortenBlock.readLeaf, hg], h3⟩,
      fun hk => by simpa using h4 hk⟩
  | panic => exact ⟨by simp [ShortenBlock.readLeaf, hg], ⟨t, by simp [ShortenBlock.readLeaf, hg], h3⟩,
      fun hk => by simpa using h4 hk⟩
  | ok leafId =>
    by_cases hk : s.idsPerNode = 0 ∧ 0 < s.depth
    · -- `getLeaf` panics in this case
      have : (s.getLeaf w j).1 = .panic := by simp [ShortenBlock.getLeaf, hk]
      rw [hg] at this
      simp at this
    · have hid : leafId = [] := by simpa using h4 hk
      subst hid
      have e1 : ¬ (s.shortener.NodeSize < s.shortener.NodeSize) := Nat.lt_irrefl _
      simp only [ShortenBlock.readLeaf, hg, ne_eq, not_true_eq_false, if_false,
        List.length_replicate, e1, Nat.sub_self, List.replicate_zero, List.append_nil]
      cases hs : goSlice (List.replicate s.shortener.NodeSize 0)
          (if j = st then offset % s.shortener.NodeSize else 0)
          (if j = en - 1 then
            (if (offset + size) % s.shortener.NodeSize = 0 then s.shortener.NodeSize
             else (offset + size) % s.shortener.NodeSize)
           else s.shortener.NodeSize) with
      | none =>
        refine ⟨rfl, ⟨t, rfl, h3⟩, ?_⟩
        intro _ a b ha hb hab hbN
        subst ha hb
        rw [goSlice_replicate _ _ _ hab hbN] at hs
        simp at hs
      | some sub =>
        refine ⟨rfl, ⟨t, rfl, h3⟩, ?_⟩
        intro _ a b ha hb hab hbN
        subst ha hb
        rw [goSlice_replicate _ _ _ hab hbN] at hs
        simp only [Option.some.injEq] at hs
        simp [hs]

theorem readLoop_unwritten_state {σ : Type} (size offset st en : Nat) :
    ∀ (l : List Nat) (s : ShortenBlock σ) (w : World σ) (readData : Bytes),
      Unwritten s.idsPerNode s.depth s.tree →
      (ShortenBlock.readLoop size offset st en l s w readData).2.2 = w
        ∧ ∃ t, (ShortenBlock.readLoop size offset st en l s w readData).2.1 = { s with tree := t }
            ∧ Unwritten s.idsPerNode s.depth t := by
  intro l
  induction l with
  | nil => intro s w readData hu; exact ⟨rfl, s.tree, rfl, hu⟩
  | cons j rest ih =>
    intro s w readData hu
    obtain ⟨h1, ⟨t, h2, h3⟩, _⟩ := readLeaf_unwritten s w size offset st en j readData hu
    rcases hr : s.readLeaf w size offset st en j readData with ⟨r, s1, w1⟩
    rw [hr] at h1 h2
    simp only at h1 h2
    subst h1 h2
    cases r with
    | ok readData1 =>
      simp only [ShortenBlock.readLoop, hr]
      obtain ⟨g1, t2, g2, g3⟩ := ih { s with tree := t } w1 readData1 h3
      exact ⟨g1, t2, by rw [g2], g3⟩
    | err e => refine ⟨?_, t, ?_, h3⟩ <;> simp only [ShortenBlock.readLoop, hr]
    | panic => refine ⟨?_, t, ?_, h3⟩ <;> simp only [ShortenBlock.readLoop, hr]

theorem readLoop_unwritten_zero {σ : Type} (size offset : Nat) (N : Nat) (hN : 0 < N) :
    ∀ (n j : Nat) (s : ShortenBlock σ) (w : World σ) (m : Nat),
      s.shortener.NodeSize = N →
      Unwritten s.idsPerNode s.depth s.tree →
      ¬ (s.idsPerNode = 0 ∧ 0 < s.depth) →
      offset / N ≤ j → j + n = exactCeil (offset + size) N →
      m + offset = max offset (min (j * N) (offset + size)) →
      (ShortenBlock.readLoop size offset (offset / N) (exactCeil (offset + size) N)
          (List.range' j n) s w (List.replicate m 0)).1 = .ok (List.replicate size 0) := by
  intro n
  induction n with
  | zero =>
    intro j s w m _ _ _ _ hj hm
    have hj' : j = exactCeil (offset + size) N := by omega
    rw [hj', range_end_inv N offset size hN] at hm
    have : m = size := by omega
    simp [ShortenBlock.readLoop, this]
  | succ n ih =>
    intro j s w m hNs hu hk hj1 hj2 hm
    obtain ⟨a1, a2, a3⟩ := read_sub_arith N offset size j hN hj1 (by omega)
    obtain ⟨h1, ⟨t, h2, h3⟩, h4⟩ :=
      readLeaf_unwritten s w size offset (offset / N) (exactCeil (offset + size) N) j
        (List.replicate m 0) hu
    have h5 := h4 hk _ _ rfl rfl (by rw [hNs]; exact a1) (by rw [hNs]; exact a2)
    rcases hr : s.readLeaf w size offset (offset / N) (exactCeil (offset + size) N) j
        (List.replicate m 0) with ⟨r, s1, w1⟩
    rw [hr] at h1 h2 h5
    simp only at h1 h2 h5
    subst h2 h5
    rw [List.range'_succ]
    simp only [ShortenBlock.readLoop, hr]
    rw [← List.replicate_add]
    apply ih (j + 1) { s with tree := t } w1 _ hNs h3 hk (by omega) (by omega)
    rw [hNs]
    omega

theorem Read_unwritten_state {σ : Type} (s : ShortenBlock σ) (w : World σ) (size offset : Nat)
    (hu : Unwritten s.idsPerNode s.depth s.tree) :
    (s.Read w size offset).2.2 = w
      ∧ ∃ t, (s.Read w size offset).2.1 = { s with tree := t }
          ∧ Unwritten s.idsPerNode s.depth t := by
  unfold ShortenBlock.Read
  split
  · exact ⟨rfl, s.tree, rfl, hu⟩
  · exact readLoop_unwritten_state _ _ _ _ _ s w [] hu

theorem Read_unwritten_zero {σ : Type} (s : ShortenBlock σ) (w : World σ) (size offset : Nat)
    (hN : 0 < s.shortener.NodeSize)
    (hu : Unwritten s.idsPerNode s.depth s.tree)
    (hcap : ((offset + size : Nat) : Int) ≤ s.Capacity) (hb : offset + size < 2 ^ 53) :
    (s.Read w size offset).1 = .ok (List.replicate size 0) := by
  have hN0 : ¬ (s.shortener.NodeSize = 0) := by omega
  simp only [ShortenBlock.Read, hN0, if_false]
  rw [ceilDiv_eq _ _ hb hN]
  by_cases hk : s.idsPerNode = 0 ∧ 0 < s.depth
  · -- the capacity is zero: nothing to read
    have hc : s.Capacity = 0 := Capacity_zero s hk
    have ho : offset = 0 := by omega
    have hs : size = 0 := by omega
    subst ho hs
    have : exactCeil 0 s.shortener.NodeSize = 0 := by
      simp only [exactCeil, Nat.zero_add]
      exact Nat.div_eq_of_lt (by omega)
    simp [this, ShortenBlock.readLoop]
  · rcases Nat.lt_or_ge (offset / s.shortener.NodeSize)
        (exactCeil (offset + size) s.shortener.NodeSize) with hlt | hge
    · have := readLoop_unwritten_zero size offset s.shortener.NodeSize hN
        (exactCeil (offset + size) s.shortener.NodeSize - offset / s.shortener.NodeSize)
        (offset / s.shortener.NodeSize) s w 0 rfl hu hk (Nat.le_refl _) (by omega)
        (by rw [range_start_inv _ _ _ hN]; omega)
      simpa using this
    · -- no leaf in range: the size is zero
      have h1 := exactCeil_mul_ge (offset + size) s.shortener.NodeSize hN
      have h2 := (div_mul_le_and_lt offset s.shortener.NodeSize hN).1
      have h3 := Nat.mul_le_mul_right s.shortener.NodeSize hge
      have hs : size = 0 := by omega
      have h0 : exactCeil (offset + size) s.shortener.NodeSize - offset / s.shortener.NodeSize = 0 := by
        omega
      rw [h0]
      simp [ShortenBlock.readLoop, hs]

theorem runReads_unwritten {σ : Type} :
    ∀ (reads : List (Nat × Nat)) (s : ShortenBlock σ) (w : World σ),
      Unwritten s.idsPerNode s.depth s.tree →
      (runReads reads s w).2 = w
        ∧ ∃ t, (runReads reads s w).1 = { s with tree := t }
            ∧ Unwritten s.idsPerNode s.depth t := by
  intro reads
  induction reads with
  | nil => intro s w hu; exact ⟨rfl, s.tree, rfl, hu⟩
  | cons r rest ih =>
    intro s w hu
    obtain ⟨size, offset⟩ := r
    obtain ⟨h1, t, h2, h3⟩ := Read_unwritten_state s w size offset hu
    simp only [runReads]
    rw [h1, h2]
    obtain ⟨g1, t2, g2, g3⟩ := ih { s with tree := t } w h3
    exact ⟨g1, t2, g2, g3⟩

/-! ## Reading a well-formed volume -/

theorem cacheGet_cacheSet (c : List (Bytes × Bytes)) (id d id1 : Bytes) :
    cacheGet (cacheSet c id d) id1 = if id = id1 then some d else cacheGet c id1 := by
  unfold cacheSet
  by_cases h : id = id1
  · simp [cacheGet, h]
  · simp only [cacheGet, h, if_false]
    induction c with
    | nil => simp [cacheGet]
    | cons kv rest ih =>
      obtain ⟨k, v⟩ := kv
      simp only [List.filter_cons]
      by_cases hk : k = id
      · subst hk
        simp [cacheGet, h, ih]
      · by_cases hk1 : k = id1
        · subst hk1
          simp [cacheGet, hk]
        · simp [cacheGet, hk, hk1, ih]

theorem cachedNodeRead_fst {σ : Type} (D : Driver σ) (w : World σ) (id : Bytes) :
    (cachedNodeRead D w id).1 = lookup D w id := by
  unfold cachedNodeRead lookup
  cases cacheGet w.readCache id with
  | some d => rfl
  | none =>
    rcases h : D.Read w.store id with ⟨r, st⟩
    cases r <;> simp [h]

theorem lookup_cachedNodeRead {σ : Type} (D : Driver σ) (hD : ReadStable D) (w : World σ)
    (id0 : Bytes) : lookup D (cachedNodeRead D w id0).2 = lookup D w := by
  funext id
  unfold cachedNodeRead
  cases hc : cacheGet w.readCache id0 with
  | some d => rfl
  | none =>
    have hst := hD w.store id0 id
    rcases h : D.Read w.store id0 with ⟨r, st⟩
    rw [h] at hst
    simp only at hst
    cases r with
    | error e =>
      simp only [lookup]
      cases cacheGet w.readCache id with
      | some d => rfl
      | none => exact hst
    | ok d =>
      simp only [lookup, cacheGet_cacheSet]
      by_cases hid : id0 = id
      · subst hid
        simp [hc, h]
      · simp only [hid, if_false]
        cases cacheGet w.readCache id with
        | some d => rfl
        | none => exact hst

theorem sound_fresh (L : Bytes → Except Err Bytes) (k N d : Nat) :
    Sound L k N d (.mk [] []) := by
  cases d with
  | zero => simp [Sound, Node.id]
  | succ d => simp [Sound, Node.id, Node.children]

theorem descend_sound {σ : Type} (D : Driver σ) (hD : ReadStable D) (k N : Nat) :
    ∀ (path : List Nat) (d : Nat) (node : Node) (w : World σ),
      path.length = d → (∀ i ∈ path, i < k) → Sound (lookup D w) k N d node →
      (∃ leafId, (descend D k path node w).1 = .ok leafId
          ∧ (leafId = [] ∨ ∃ b, lookup D w leafId = .ok b ∧ b.length ≤ N))
        ∧ Sound (lookup D w) k N d (descend D k path node w).2.1
        ∧ lookup D (descend D k path node w).2.2 = lookup D w := by
  intro path
  induction path with
  | nil =>
    intro d node w hlen _ hs
    subst hlen
    refine ⟨⟨node.id, rfl, ?_⟩, hs, rfl⟩
    simpa [Sound] using hs
  | cons i rest ih =>
    intro d node w hlen hlt hs
    cases d with
    | zero => simp at hlen
    | succ d =>
      obtain ⟨id, ch⟩ := node
      have hi : i < k := hlt i (by simp)
      have hrest : ∀ j ∈ rest, j < k := fun j hj => hlt j (by simp [hj])
      have hlen1 : rest.length = d := by simpa using hlen
      have key : ∃ (ch1 : List Node) (w1 : World σ),
          hydrate D k (.mk id ch) w = (.ok (.mk id ch1), w1)
            ∧ ch1.length = k ∧ (∀ c ∈ ch1, Sound (lookup D w) k N d c)
            ∧ lookup D w1 = lookup D w := by
        simp only [Sound, Node.id, Node.children] at hs
        rcases hs with ⟨h0, hid⟩ | ⟨h0, hl, hall⟩
        · by_cases hid0 : id = []
          · subst hid0
            refine ⟨List.replicate k (.mk [] []), w, by simp [hydrate, Node.id, Node.children, h0],
              by simp, ?_, rfl⟩
            intro c hc
            rw [List.eq_of_mem_replicate hc]
            exact sound_fresh _ k N d
          · rcases hid with hid | ⟨b, hb, hbl, hball⟩
            · exact absurd hid hid0
            · have e1 := cachedNodeRead_fst D w id
              rw [hb] at e1
              rcases hc : cachedNodeRead D w id with ⟨r, w1⟩
              rw [hc] at e1
              simp only at e1
              subst e1
              refine ⟨(stringsSplit (stringsTrim b)).map (fun c => Node.mk c []), w1, ?_,
                by simpa using hbl, ?_, ?_⟩
              · simp [hydrate, Node.id, Node.children, h0, hid0, hc]
              · intro c hcm
                obtain ⟨cid, hcid, rfl⟩ := List.mem_map.1 hcm
                exact hball cid hcid
              · have := lookup_cachedNodeRead D hD w id
                rw [hc] at this
                exact this
        · exact ⟨ch, w, by simp [hydrate, Node.children, h0], hl, hall, rfl⟩
      obtain ⟨ch1, w1, hh, hl1, hall1, hL1⟩ := key
      have hi1 : i < ch1.length := by omega
      have hget : ch1[i]? = some ch1[i] := List.getElem?_eq_getElem hi1
      have hc : Sound (lookup D w1) k N d ch1[i] := by
        rw [hL1]; exact hall1 _ (List.getElem_mem hi1)
      obtain ⟨⟨leafId, h1, h1'⟩, h2, h3⟩ := ih d ch1[i] w1 hlen1 hrest hc
      rw [hL1] at h1' h2 h3
      simp only [descend, hh, Node.children, Node.id, hget]
      refine ⟨⟨leafId, h1, h1'⟩, ?_, h3⟩
      simp only [Sound, Node.children]
      refine Or.inr ⟨by rw [List.length_set]; omega, by simp [hl1], ?_⟩
      intro c hc
      rcases List.mem_or_eq_of_mem_set hc with hc | hc
      · exact hall1 c hc
      · rw [hc]; exact h2

theorem goSlice_length (xs : Bytes) (a b : Nat) (hab : a ≤ b) (hb : b ≤ xs.length) :
    ∃ sub, goSlice xs a b = some sub ∧ sub.length = b - a := by
  refine ⟨(xs.take b).drop a, by simp [goSlice, hab, hb], ?_⟩
  simp [Nat.min_eq_left hb]

theorem getLeaf_sound {σ : Type} (s : ShortenBlock σ) (w : World σ) (j : Nat)
    (hD : ReadStable s.shortener)
    (hs : Sound (lookup s.shortener w) s.idsPerNode s.shortener.NodeSize s.depth s.tree)
    (hk : ¬ (s.idsPerNode = 0 ∧ 0 < s.depth)) :
    ∃ leafId t w1, s.getLeaf w j = (.ok leafId, { s with tree := t }, w1)
      ∧ (leafId = [] ∨ ∃ b, lookup s.shortener w leafId = .ok b ∧ b.length ≤ s.shortener.NodeSize)
      ∧ Sound (lookup s.shortener w) s.idsPerNode s.shortener.NodeSize s.depth t
      ∧ lookup s.shortener w1 = lookup s.shortener w := by
  obtain ⟨⟨leafId, h1, h1'⟩, h2, h3⟩ := descend_sound s.shortener hD s.idsPerNode
    s.shortener.NodeSize (leafPath s.idsPerNode s.depth j) s.depth s.tree w
    (leafPath_length _ _ _) (leafPath_lt_of j hk) hs
  refine ⟨leafId, _, _, ?_, h1', h2, h3⟩
  rw [ShortenBlock.getLeaf, if_neg hk, h1]

theorem readLeaf_sound {σ : Type} (s : ShortenBlock σ) (w : World σ)
    (size offset st en j : Nat) (readData : Bytes)
    (hD : ReadStable s.shortener)
    (hs : Sound (lookup s.shortener w) s.idsPerNode s.shortener.NodeSize s.depth s.tree)
    (hk : ¬ (s.idsPerNode = 0 ∧ 0 < s.depth))
    (hab : (if j = st then offset % s.shortener.NodeSize else 0)
      ≤ (if j = en - 1 then
            (if (offset + size) % s.shortener.NodeSize = 0 then s.shortener.NodeSize
             else (offset + size) % s.shortener.NodeSize)
           else s.shortener.NodeSize))
    (hbN : (if j = en - 1 then
            (if (offset + size) % s.shortener.NodeSize = 0 then s.shortener.NodeSize
             else (offset + size) % s.shortener.NodeSize)
           else s.shortener.NodeSize) ≤ s.shortener.NodeSize) :
    ∃ sub t w1, s.readLeaf w size offset st en j readData
          = (.ok (readData ++ sub), { s with tree := t }, w1)
      ∧ sub.length = (if j = en - 1 then
            (if (offset + size) % s.shortener.NodeSize = 0 then s.shortener.NodeSize
             else (offset + size) % s.shortener.NodeSize)
           else s.shortener.NodeSize) - (if j = st then offset % s.shortener.NodeSize else 0)
      ∧ Sound (lookup s.shortener w) s.idsPerNode s.shortener.NodeSize s.depth t
      ∧ lookup s.shortener w1 = lookup s.shortener w := by
  obtain ⟨leafId, t, w1, hg, hleaf, hs1, hL1⟩ := getLeaf_sound s w j hD hs hk
  -- the bytes of the leaf
  have key : ∃ leafData w2,
      (if leafId ≠ [] then cachedNodeRead s.shortener w1 leafId
        else (.ok (List.replicate s.shortener.NodeSize 0), w1)) = (.ok leafData, w2)
      ∧ leafData.length ≤ s.shortener.NodeSize
      ∧ lookup s.shortener w2 = lookup s.shortener w := by
    by_cases hid : leafId = []
    · exact ⟨List.replicate s.shortener.NodeSize 0, w1, by simp [hid], by simp, hL1⟩
    · rcases hleaf with h | ⟨b, hb, hbl⟩
      · exact absurd h hid
      · have e1 := cachedNodeRead_fst s.shortener w1 leafId
        rw [hL1, hb] at e1
        rcases hc : cachedNodeRead s.shortener w1 leafId with ⟨r, w2⟩
        rw [hc] at e1
        simp only at e1
        subst e1
        refine ⟨b, w2, by simp [hid], hbl, ?_⟩
        have := lookup_cachedNodeRead s.shortener hD w1 leafId
        rw [hc] at this
        simp only at this
        rw [this, hL1]
  obtain ⟨leafData, w2, hread, hlen, hL2⟩ := key
  obtain ⟨sub, hsub, hsublen⟩ := goSlice_length
    (leafData ++ List.replicate (s.shortener.NodeSize - leafData.length) 0) _ _ hab
    (by simp only [List.length_append, List.length_replicate]; omega)
  refine ⟨sub, t, w2, ?_, hsublen, hs1, hL2⟩
  have hnot : ¬ (s.shortener.NodeSize < leafData.length) := by omega
  simp only [ShortenBlock.readLeaf, hg, hread, hnot, if_false, hsub]

theorem readLoop_sound {σ : Type} (size offset : Nat) (N : Nat) (hN : 0 < N) :
    ∀ (n j : Nat) (s : ShortenBlock σ) (w : World σ) (readData : Bytes),
      s.shortener.NodeSize = N → ReadStable s.shortener →
      Sound (lookup s.shortener w) s.idsPerNode s.shortener.NodeSize s.depth s.tree →
      ¬ (s.idsPerNode = 0 ∧ 0 < s.depth) →
      offset / N ≤ j → j + n = exactCeil (offset + size) N →
      readData.length + offset = max offset (min (j * N) (offset + size)) →
      ∃ out, (ShortenBlock.readLoop size offset (offset / N) (exactCeil (offset + size) N)
          (List.range' j n) s w readData).1 = .ok out ∧ out.length = size := by
  intro n
  induction n with
  | zero =>
    intro j s w readData _ _ _ _ _ hj hm
    have hj' : j = exactCeil (offset + size) N := by omega
    rw [hj', range_end_inv N offset size hN] at hm
    exact ⟨readData, by simp [ShortenBlock.readLoop], by omega⟩
  | succ n ih =>
    intro j s w readData hNs hD hs hk hj1 hj2 hm
    obtain ⟨a1, a2, a3⟩ := read_sub_arith N offset size j hN hj1 (by omega)
    obtain ⟨sub, t, w1, hr, hsub, hs1, hL1⟩ :=
      readLeaf_sound s w size offset (offset / N) (exactCeil (offset + size) N) j readData hD hs hk
        (by rw [hNs]; exact a1) (by rw [hNs]; exact a2)
    rw [List.range'_succ]
    simp only [ShortenBlock.readLoop, hr]
    apply ih (j + 1) { s with tree := t } w1 _ hNs hD (by rw [hL1]; exact hs1) hk (by omega)
      (by omega)
    rw [hNs] at hsub
    rw [List.length_append, hsub]
    omega

/-- C2 (amended): on a well-formed volume (`Sound`: every named leaf reads, through the cache
or the shortener, to at most `NodeSize` bytes, and every interior node has its `idsPerNode`
children in memory or reads to a payload that splits into them), over a shortener of
positive node size whose reads do not disturb later reads, `Read(size, offset)` with
`offset + size ≤ Capacity()` and `offset + size < 2 ^ 53` returns without error a byte
string of length exactly `size`. -/
theorem Read_length_eq_size {σ : Type} (s : ShortenBlock σ) (w : World σ) (size offset : Nat)
    (hN : 0 < s.shortener.NodeSize) (hD : ReadStable s.shortener)
    (hs : Sound (lookup s.shortener w) s.idsPerNode s.shortener.NodeSize s.depth s.tree)
    (hcap : ((offset + size : Nat) : Int) ≤ s.Capacity) (hb : offset + size < 2 ^ 53) :
    ∃ out, (s.Read w size offset).1 = .ok out ∧ out.length = size := by
  have hN0 : ¬ (s.shortener.NodeSize = 0) := by omega
  simp only [ShortenBlock.Read, hN0, if_false]
  rw [ceilDiv_eq _ _ hb hN]
  by_cases hk : s.idsPerNode = 0 ∧ 0 < s.depth
  · have hc : s.Capacity = 0 := Capacity_zero s hk
    have ho : offset = 0 := by omega
    have hsz : size = 0 := by omega
    subst ho hsz
    have : exactCeil 0 s.shortener.NodeSize = 0 := by
      simp only [exactCeil, Nat.zero_add]
      exact Nat.div_eq_of_lt (by omega)
    exact ⟨[], by simp [this, ShortenBlock.readLoop], rfl⟩
  · rcases Nat.lt_or_ge (offset / s.shortener.NodeSize)
        (exactCeil (offset + size) s.shortener.NodeSize) with hlt | hge
    · exact readLoop_sound size offset s.shortener.NodeSize hN
        (exactCeil (offset + size) s.shortener.NodeSize - offset / s.shortener.NodeSize)
        (offset / s.shortener.NodeSize) s w [] rfl hD hs hk (Nat.le_refl _) (by omega)
        (by rw [range_start_inv _ _ _ hN]; simp)
    · have h1 := exactCeil_mul_ge (offset + size) s.shortener.NodeSize hN
      have h2 := (div_mul_le_and_lt offset s.shortener.NodeSize hN).1
      have h3 := Nat.mul_le_mul_right s.shortener.NodeSize hge
      have hsz : size = 0 := by omega
      have h0 : exactCeil (offset + size) s.shortener.NodeSize - offset / s.shortener.NodeSize = 0 := by
        omega
      rw [h0]
      exact ⟨[], by simp [ShortenBlock.readLoop], by simp [hsz]⟩

/-! ## Propagation -/

theorem Node.children_mk (id : Bytes) (ch : List Node) : (Node.mk id ch).children = ch := rfl

theorem Node.id_mk (id : Bytes) (ch : List Node) : (Node.mk id ch).id = id := rfl

theorem Node.at?_cons (n : Node) (i : Nat) (rest : List Nat) :
    n.at? (i :: rest) = match n.children[i]? with
      | none => none
      | some c => c.at? rest := by
  cases n; rfl

theorem descend_at {σ : Type} (D : Driver σ) (k : Nat) :
    ∀ (p : List Nat) (node : Node) (w : World σ) (leafId : Bytes),
      (descend D k p node w).1 = .ok leafId →
      ∃ leaf, (descend D k p node w).2.1.at? p = some leaf ∧ leaf.id = leafId := by
  intro p
  induction p with
  | nil =>
    intro node w leafId h
    simp only [descend, Res.ok.injEq] at h
    exact ⟨node, rfl, h⟩
  | cons i rest ih =>
    intro node w leafId h
    simp only [descend] at h
    simp only [descend]
    rcases hh : hydrate D k node w with ⟨r, w1⟩
    rw [hh] at h
    cases r with
    | error e => simp at h
    | ok node1 =>
      simp only at h ⊢
      cases hc : node1.children[i]? with
      | none => rw [hc] at h; simp at h
      | some child =>
        rw [hc] at h
        simp only at h ⊢
        obtain ⟨leaf, h1, h2⟩ := ih child w1 leafId h
        refine ⟨leaf, ?_, h2⟩
        have hi : i < node1.children.length := by
          rcases Nat.lt_or_ge i node1.children.length with h | h
          · exact h
          · rw [List.getElem?_eq_none h] at hc; simp at hc
        simp only [Node.at?_cons, Node.children_mk, List.getElem?_set_self hi, h1]

theorem nodeWriteAt_logged {σ : Type} (D : Driver σ) :
    ∀ (p : List Nat) (node : Node) (b : Bytes) (st : σ) (log : List Call),
      (node.at? p).isSome →
      ∃ new, (nodeWriteAt D.logged p node b (st, log)).2.2.2 = log ++ new
        ∧ ((∀ data e, Call.write data (.error e) ∉ new) →
            (nodeWriteAt D.logged p node b (st, log)).1 = .ok ()
              ∧ new = climbCalls (nodeWriteAt D.logged p node b (st, log)).2.1 p b)
        ∧ (∀ q, ¬ q <+: p →
            ((nodeWriteAt D.logged p node b (st, log)).2.1.at? q).map Node.id
              = (node.at? q).map Node.id) := by
  intro p
  induction p with
  | nil =>
    intro node b st log _
    have hW : D.logged.Write (st, log) b
        = ((D.Write st b).1, ((D.Write st b).2, log ++ [Call.write b (D.Write st b).1])) := rfl
    have hframe : ∀ (id1 : Bytes) (q : List Nat), ¬ q <+: [] →
        ((Node.mk id1 node.children).at? q).map Node.id = (node.at? q).map Node.id := by
      intro id1 q hq
      cases q with
      | nil => exact absurd (List.prefix_refl _) hq
      | cons j q1 => simp [Node.at?_cons, Node.children_mk]
    cases hr : (D.Write st b).1 with
    | error e =>
      rw [hr] at hW
      refine ⟨[Call.write b (.error e)], by simp only [nodeWriteAt, hW], ?_, ?_⟩
      · intro h
        exact absurd (List.mem_singleton.2 rfl) (h b e)
      · intro q _
        simp only [nodeWriteAt, hW]
    | ok id =>
      rw [hr] at hW
      refine ⟨[Call.write b (.ok id)], by simp only [nodeWriteAt, hW], ?_, ?_⟩
      · intro _
        simp only [nodeWriteAt, hW]
        simp [climbCalls, Node.idAt, Node.at?, Node.id]
      · intro q hq
        simp only [nodeWriteAt, hW]
        exact hframe id q hq
  | cons i rest ih =>
    intro node b st log hsome
    obtain ⟨nid, ch⟩ := node
    simp only [Node.at?_cons, Node.children_mk] at hsome
    cases hc : ch[i]? with
    | none => rw [hc] at hsome; simp at hsome
    | some child =>
      rw [hc] at hsome
      simp only at hsome
      obtain ⟨new1, h1, h2, h3⟩ := ih child b st log hsome
      rcases hr : nodeWriteAt D.logged rest child b (st, log) with ⟨r, child1, st1, log1⟩
      rw [hr] at h1 h2 h3
      simp only at h1 h2 h3
      subst h1
      have hi : i < ch.length := by
        rcases Nat.lt_or_ge i ch.length with h | h
        · exact h
        · rw [List.getElem?_eq_none h] at hc; simp at hc
      have hframe : ∀ (id1 : Bytes) (q : List Nat), ¬ q <+: i :: rest →
          ((Node.mk id1 (ch.set i child1)).at? q).map Node.id
            = ((Node.mk nid ch).at? q).map Node.id := by
        intro id1 q hq
        cases q with
        | nil => exact absurd (List.nil_prefix) hq
        | cons j q1 =>
          by_cases hj : j = i
          · subst hj
            have hq1 : ¬ q1 <+: rest := fun hp => hq ((List.prefix_cons_inj j).2 hp)
            have := h3 q1 hq1
            simp only [Node.at?_cons, Node.children_mk, List.getElem?_set_self hi, hc]
            exact this
          · simp only [Node.at?_cons, Node.children_mk]
            rw [List.getElem?_set_ne (Ne.symm hj)]
      have hclimb : ∀ id1 : Bytes,
          climbCalls (Node.mk id1 (ch.set i child1)) (i :: rest) b
            = climbCalls child1 rest b
              ++ [Call.write (stringsJoin ((ch.set i child1).map Node.id)) (.ok id1)] := by
        intro id1
        simp only [climbCalls, List.inits_cons, List.reverse_cons, List.map_append,
          List.map_cons, List.map_nil, List.map_reverse, List.map_map]
        congr 1
        · congr 1
          apply List.map_congr_left
          intro q _
          simp only [Function.comp, Node.idAt, Node.childIdsAt, Node.at?_cons, Node.children_mk,
            List.getElem?_set_self hi, List.cons.injEq, true_and]
      cases r with
      | err e =>
        refine ⟨new1, by simp only [nodeWriteAt, Node.children_mk, Node.id_mk, hc, hr], ?_, ?_⟩
        · intro h
          have := (h2 h).1
          simp at this
        · intro q hq
          simp only [nodeWriteAt, Node.children_mk, Node.id_mk, hc, hr]
          exact hframe nid q hq
      | panic =>
        refine ⟨new1, by simp only [nodeWriteAt, Node.children_mk, Node.id_mk, hc, hr], ?_, ?_⟩
        · intro h
          have := (h2 h).1
          simp at this
        · intro q hq
          simp only [nodeWriteAt, Node.children_mk, Node.id_mk, hc, hr]
          exact hframe nid q hq
      | ok u =>
        have hW : D.logged.Write (st1, log ++ new1) (stringsJoin ((ch.set i child1).map Node.id))
            = ((D.Write st1 (stringsJoin ((ch.set i child1).map Node.id))).1,
                ((D.Write st1 (stringsJoin ((ch.set i child1).map Node.id))).2,
                  (log ++ new1) ++ [Call.write (stringsJoin ((ch.set i child1).map Node.id))
                    (D.Write st1 (stringsJoin ((ch.set i child1).map Node.id))).1])) := rfl
        cases hw : (D.Write st1 (stringsJoin ((ch.set i child1).map Node.id))).1 with
        | error e =>
          rw [hw] at hW
          refine ⟨new1 ++ [Call.write (stringsJoin ((ch.set i child1).map Node.id)) (.error e)],
            by simp only [nodeWriteAt, Node.children_mk, Node.id_mk, hc, hr, hW, List.append_assoc],
            ?_, ?_⟩
          · intro h
            exact absurd (List.mem_append_right _ (List.mem_singleton.2 rfl)) (h _ e)
          · intro q hq
            simp only [nodeWriteAt, Node.children_mk, Node.id_mk, hc, hr, hW]
            exact hframe nid q hq
        | ok id =>
          rw [hw] at hW
          refine ⟨new1 ++ [Call.write (stringsJoin ((ch.set i child1).map Node.id)) (.ok id)],
            by simp only [nodeWriteAt, Node.children_mk, Node.id_mk, hc, hr, hW, List.append_assoc],
            ?_, ?_⟩
          · intro h
            have h' : ∀ data e, Call.write data (.error e) ∉ new1 :=
              fun data e hm => h data e (List.mem_append_left _ hm)
            simp only [nodeWriteAt, Node.children_mk, Node.id_mk, hc, hr, hW]
            refine ⟨trivial, ?_⟩
            rw [hclimb, ← (h2 h').2]
          · intro q hq
            simp only [nodeWriteAt, Node.children_mk, Node.id_mk, hc, hr, hW]
            exact hframe id q hq

/-! ## Payload sizes -/

theorem bounded_id (k I d : Nat) (n : Node) (h : Bounded k I d n) : n.id.length ≤ I := by
  cases d with
  | zero => simpa [Bounded] using h
  | succ d => exact h.1

theorem bounded_fresh (k I d : Nat) : Bounded k I d (.mk [] []) := by
  cases d with
  | zero => simp [Bounded, Node.id]
  | succ d => simp [Bounded, Node.id, Node.children]

theorem descend_bounded {σ : Type} (D : Driver σ) (k I : Nat) :
    ∀ (path : List Nat) (d : Nat) (node : Node) (w : World σ),
      path.length = d → (∀ i ∈ path, i < k) → Bounded k I d node →
      (∃ leafId, (descend D k path node w).1 = .ok leafId)
        ∧ Bounded k I d (descend D k path node w).2.1
        ∧ (descend D k path node w).2.2 = w := by
  intro path
  induction path with
  | nil =>
    intro d node w hlen _ hb
    subst hlen
    exact ⟨⟨node.id, rfl⟩, hb, rfl⟩
  | cons i rest ih =>
    intro d node w hlen hlt hb
    cases d with
    | zero => simp at hlen
    | succ d =>
      obtain ⟨id, ch⟩ := node
      have hi : i < k := hlt i (by simp)
      have hrest : ∀ j ∈ rest, j < k := fun j hj => hlt j (by simp [hj])
      have hlen1 : rest.length = d := by simpa using hlen
      obtain ⟨hidl, hch⟩ := hb
      simp only [Node.id_mk, Node.children_mk] at hidl hch
      have key : ∃ ch1 : List Node, hydrate D k (.mk id ch) w = (.ok (.mk id ch1), w)
          ∧ ch1.length = k ∧ ∀ c ∈ ch1, Bounded k I d c := by
        rcases hch with ⟨h0, hid0⟩ | ⟨hl, hall⟩
        · subst hid0
          refine ⟨List.replicate k (.mk [] []),
            by simp [hydrate, Node.id_mk, Node.children_mk, h0], by simp, ?_⟩
          intro c hc
          rw [List.eq_of_mem_replicate hc]
          exact bounded_fresh k I d
        · refine ⟨ch, ?_, hl, hall⟩
          have : ch.length ≠ 0 := by omega
          simp [hydrate, Node.children_mk, this]
      obtain ⟨ch1, hh, hl1, hall1⟩ := key
      have hi1 : i < ch1.length := by omega
      have hget : ch1[i]? = some ch1[i] := List.getElem?_eq_getElem hi1
      have hc : Bounded k I d ch1[i] := hall1 _ (List.getElem_mem hi1)
      obtain ⟨⟨leafId, h1⟩, h2, h3⟩ := ih d ch1[i] w hlen1 hrest hc
      simp only [descend, hh, Node.children_mk, Node.id_mk, hget]
      refine ⟨⟨leafId, h1⟩, ⟨hidl, Or.inr ⟨by simp [Node.children_mk, hl1], ?_⟩⟩, h3⟩
      intro c hc
      simp only [Node.children_mk] at hc
      rcases List.mem_or_eq_of_mem_set hc with hc | hc
      · exact hall1 c hc
      · rw [hc]; exact h2

theorem stringsJoin_length_le (I : Nat) :
    ∀ l : List Bytes, (∀ x ∈ l, x.length ≤ I) →
      (stringsJoin l).length ≤ l.length * (I + 1) - 1 := by
  intro l
  induction l with
  | nil => intro _; simp [stringsJoin]
  | cons a rest ih =>
    intro h
    have ha : a.length ≤ I := h a (by simp)
    cases rest with
    | nil => simpa [stringsJoin] using ha
    | cons b rest1 =>
      have := ih (fun x hx => h x (by simp [hx]))
      simp only [stringsJoin, List.length_append, List.length_cons] at this ⊢
      have e1 : (rest1.length + 1 + 1) * (I + 1) = (rest1.length + 1) * (I + 1) + (I + 1) := by
        rw [Nat.add_mul (rest1.length + 1) 1, Nat.one_mul]
      have e2 : 1 ≤ (rest1.length + 1) * (I + 1) := Nat.mul_pos (by omega) (by omega)
      omega

theorem writesBounded_append (N : Nat) (log : List Call) (c : Call)
    (h : WritesBounded N log) (hc : ∀ data res, c = Call.write data res → data.length ≤ N) :
    WritesBounded N (log ++ [c]) := by
  intro data res hm
  rcases List.mem_append.1 hm with hm | hm
  · exact h data res hm
  · simp only [List.mem_singleton] at hm
    exact hc data res hm.symm

theorem nodeWriteAt_bounded {σ : Type} (D : Driver σ) (P : σ → Prop) (k : Nat)
    (hkI : k * (D.IdSize + 1) ≤ D.NodeSize + 1) (hC : SizeContract D P) :
    ∀ (path : List Nat) (d : Nat) (node : Node) (b : Bytes) (st : σ) (log : List Call),
      path.length = d → Bounded k D.IdSize d node → b.length ≤ D.NodeSize → P st →
      WritesBounded D.NodeSize log →
      Bounded k D.IdSize d (nodeWriteAt D.logged path node b (st, log)).2.1
        ∧ P (nodeWriteAt D.logged path node b (st, log)).2.2.1
        ∧ WritesBounded D.NodeSize (nodeWriteAt D.logged path node b (st, log)).2.2.2 := by
  intro path
  induction path with
  | nil =>
    intro d node b st log hlen hb hbl hP hlog
    subst hlen
    have hlog1 : WritesBounded D.NodeSize (log ++ [Call.write b (D.Write st b).1]) :=
      writesBounded_append _ log _ hlog (fun data res h => by cases h; exact hbl)
    have hP1 := hC.write_keeps st b hP hbl
    simp only [nodeWriteAt, Driver.logged]
    cases hr : (D.Write st b).1 with
    | error e => exact ⟨hb, hP1, by rw [hr] at hlog1; exact hlog1⟩
    | ok newID =>
      refine ⟨?_, hP1, by rw [hr] at hlog1; exact hlog1⟩
      simp only [Bounded, Node.id_mk]
      exact hC.id_le st b newID hP hbl hr
  | cons i rest ih =>
    intro d node b st log hlen hb hbl hP hlog
    cases d with
    | zero => simp at hlen
    | succ d =>
      obtain ⟨nid, ch⟩ := node
      have hlen1 : rest.length = d := by simpa using hlen
      cases hc : ch[i]? with
      | none =>
        simp only [nodeWriteAt, Node.children_mk, hc]
        exact ⟨hb, hP, hlog⟩
      | some child =>
        have hi : i < ch.length := by
          rcases Nat.lt_or_ge i ch.length with h | h
          · exact h
          · rw [List.getElem?_eq_none h] at hc; simp at hc
        obtain ⟨hidl, hch⟩ := hb
        simp only [Node.id_mk, Node.children_mk] at hidl hch
        rcases hch with ⟨h0, _⟩ | ⟨hl, hall⟩
        · omega
        · have hchild : Bounded k D.IdSize d child := by
            have := List.getElem?_eq_some_iff.1 hc
            obtain ⟨h1, h2⟩ := this
            rw [← h2]
            exact hall _ (List.getElem_mem h1)
          obtain ⟨g1, gP, g2⟩ := ih d child b st log hlen1 hchild hbl hP hlog
          rcases hr : nodeWriteAt D.logged rest child b (st, log) with ⟨r, child1, st1, log1⟩
          rw [hr] at g1 gP g2
          simp only at g1 gP g2
          have hset : ∀ c ∈ ch.set i child1, Bounded k D.IdSize d c := by
            intro c hc
            rcases List.mem_or_eq_of_mem_set hc with hc | hc
            · exact hall c hc
            · rw [hc]; exact g1
          have hnode : ∀ id1 : Bytes, id1.length ≤ D.IdSize →
              Bounded k D.IdSize (d + 1) (.mk id1 (ch.set i child1)) := by
            intro id1 h1
            exact ⟨h1, Or.inr ⟨by simp [Node.children_mk, hl], hset⟩⟩
          cases r with
          | err e =>
            simp only [nodeWriteAt, Node.children_mk, Node.id_mk, hc, hr]
            exact ⟨hnode nid hidl, gP, g2⟩
          | panic =>
            simp only [nodeWriteAt, Node.children_mk, Node.id_mk, hc, hr]
            exact ⟨hnode nid hidl, gP, g2⟩
          | ok u =>
            have hpay : (stringsJoin ((ch.set i child1).map Node.id)).length ≤ D.NodeSize := by
              have := stringsJoin_length_le D.IdSize ((ch.set i child1).map Node.id) (by
                intro x hx
                obtain ⟨c, hc, rfl⟩ := List.mem_map.1 hx
                exact bounded_id _ _ _ _ (hset c hc))
              simp only [List.length_map, List.length_set, hl] at this
              omega
            have hlog1 := writesBounded_append D.NodeSize log1
              (Call.write (stringsJoin ((ch.set i child1).map Node.id))
                (D.Write st1 (stringsJoin ((ch.set i child1).map Node.id))).1) g2
              (fun data res h => by cases h; exact hpay)
            have hP1 := hC.write_keeps st1 _ gP hpay
            have hW : D.logged.Write (st1, log1) (stringsJoin ((ch.set i child1).map Node.id))
                = ((D.Write st1 (stringsJoin ((ch.set i child1).map Node.id))).1,
                    ((D.Write st1 (stringsJoin ((ch.set i child1).map Node.id))).2,
                      log1 ++ [Call.write (stringsJoin ((ch.set i child1).map Node.id))
                        (D.Write st1 (stringsJoin ((ch.set i child1).map Node.id))).1])) := rfl
            cases hw : (D.Write st1 (stringsJoin ((ch.set i child1).map Node.id))).1 with
            | error e =>
              rw [hw] at hW hlog1
              simp only [nodeWriteAt, Node.children_mk, Node.id_mk, hc, hr, hW]
              exact ⟨hnode nid hidl, hP1, hlog1⟩
            | ok newID =>
              rw [hw] at hW hlog1
              simp only [nodeWriteAt, Node.children_mk, Node.id_mk, hc, hr, hW]
              exact ⟨hnode newID (hC.id_le _ _ _ gP hpay hw), hP1, hlog1⟩

theorem cacheGet_mem (c : List (Bytes × Bytes)) (id d : Bytes) (h : cacheGet c id = some d) :
    (id, d) ∈ c := by
  induction c with
  | nil => simp [cacheGet] at h
  | cons kv rest ih =>
    obtain ⟨k, v⟩ := kv
    by_cases hk : k = id
    · simp only [cacheGet, hk, if_true, Option.some.injEq] at h
      simp [hk, h]
    · simp only [cacheGet, hk, if_false] at h
      exact List.mem_cons_of_mem _ (ih h)

theorem mem_cacheSet (c : List (Bytes × Bytes)) (id d : Bytes) (kv : Bytes × Bytes)
    (h : kv ∈ cacheSet c id d) : kv = (id, d) ∨ kv ∈ c := by
  simp only [cacheSet, List.mem_cons, List.mem_filter] at h
  rcases h with h | h
  · exact Or.inl h
  · exact Or.inr h.1

theorem mem_cacheOverwrite (c : List (Bytes × Bytes)) (id d : Bytes) (kv : Bytes × Bytes)
    (h : kv ∈ cacheOverwrite c id d) : kv.2 = d ∨ kv ∈ c := by
  simp only [cacheOverwrite, List.mem_map] at h
  obtain ⟨kv0, h0, h1⟩ := h
  by_cases hk : kv0.1 = id
  · simp only [hk, if_true] at h1
    exact Or.inl (by rw [← h1])
  · simp only [hk, if_false] at h1
    exact Or.inr (by rw [← h1]; exact h0)

theorem composeLeaf_length_le (leafData data : Bytes) (a e N : Nat)
    (hL : leafData.length ≤ N) (he : e ≤ N) (hae : a ≤ e) :
    (composeLeaf leafData data a e).length ≤ N := by
  simp only [composeLeaf, List.length_append, List.length_take, List.length_drop]
  omega

theorem composeLeaf_length_eq (leafData data : Bytes) (a e N : Nat)
    (hL : leafData.length = N) (he : e ≤ N) (hae : a ≤ e) (hd : e - a ≤ data.length) :
    (composeLeaf leafData data a e).length = N := by
  simp only [composeLeaf, List.length_append, List.length_take, List.length_drop]
  omega

theorem cachedNodeRead_logged_inv {σ : Type} (D : Driver σ) (P : σ → Prop)
    (hC : SizeContract D P) (w : World (σ × List Call)) (id : Bytes) (hP : P w.store.1)
    (hlog : WritesBounded D.NodeSize w.store.2)
    (hcache : ∀ kv ∈ w.readCache, kv.2.length ≤ D.NodeSize) :
    P (cachedNodeRead D.logged w id).2.store.1
      ∧ WritesBounded D.NodeSize (cachedNodeRead D.logged w id).2.store.2
      ∧ (∀ kv ∈ (cachedNodeRead D.logged w id).2.readCache, kv.2.length ≤ D.NodeSize)
      ∧ (∀ b, (cachedNodeRead D.logged w id).1 = .ok b → b.length ≤ D.NodeSize) := by
  unfold cachedNodeRead
  cases hc : cacheGet w.readCache id with
  | some d =>
    refine ⟨hP, hlog, hcache, ?_⟩
    intro b hb
    simp only [Except.ok.injEq] at hb
    subst hb
    exact hcache _ (cacheGet_mem _ _ _ hc)
  | none =>
    have hW : D.logged.Read w.store id
        = ((D.Read w.store.1 id).1,
            ((D.Read w.store.1 id).2, w.store.2 ++ [Call.read id (D.Read w.store.1 id).1])) := rfl
    have hlog1 : WritesBounded D.NodeSize (w.store.2 ++ [Call.read id (D.Read w.store.1 id).1]) :=
      writesBounded_append _ _ _ hlog (fun data res h => by cases h)
    have hP1 := hC.read_keeps w.store.1 id hP
    cases hr : (D.Read w.store.1 id).1 with
    | error e =>
      rw [hr] at hW hlog1
      simp only [hW]
      exact ⟨hP1, hlog1, hcache, fun b hb => by simp at hb⟩
    | ok d =>
      have hd := hC.read_le _ _ _ hP hr
      rw [hr] at hW hlog1
      simp only [hW]
      refine ⟨hP1, hlog1, ?_, ?_⟩
      · intro kv hkv
        rcases mem_cacheSet _ _ _ _ hkv with h | h
        · rw [h]; exact hd
        · exact hcache kv h
      · intro b hb
        simp only [Except.ok.injEq] at hb
        rw [← hb]; exact hd

theorem getLeaf_bounded {σ : Type} (s : ShortenBlock σ) (w : World σ) (I j : Nat)
    (hk : 1 ≤ s.idsPerNode) (hb : Bounded s.idsPerNode I s.depth s.tree) :
    ∃ leafId t, s.getLeaf w j = (.ok leafId, { s with tree := t }, w)
      ∧ Bounded s.idsPerNode I s.depth t := by
  have h0 : ¬ (s.idsPerNode = 0 ∧ 0 < s.depth) := by omega
  obtain ⟨⟨leafId, h1⟩, h2, h3⟩ := descend_bounded s.shortener s.idsPerNode I
    (leafPath s.idsPerNode s.depth j) s.depth s.tree w (leafPath_length _ _ _)
    (leafPath_lt _ _ _ hk) hb
  refine ⟨leafId, _, ?_, h2⟩
  rw [ShortenBlock.getLeaf, if_neg h0, h1, h3]

theorem nodeWrite_bounded {σ : Type} (D : Driver σ) (P : σ → Prop)
    (s : ShortenBlock (σ × List Call))
    (w : World (σ × List Call)) (j : Nat) (b : Bytes)
    (hS : s.shortener = D.logged)
    (hkI : s.idsPerNode * (D.IdSize + 1) ≤ D.NodeSize + 1)
    (hC : SizeContract D P)
    (hinv : PayloadInv D P s w) (hb : b.length ≤ D.NodeSize) :
    (∃ t, (s.nodeWrite w (leafPath s.idsPerNode s.depth j) b).2.1 = { s with tree := t })
      ∧ PayloadInv D P (s.nodeWrite w (leafPath s.idsPerNode s.depth j) b).2.1
          (s.nodeWrite w (leafPath s.idsPerNode s.depth j) b).2.2 := by
  obtain ⟨h1, hP, h2, h3⟩ := hinv
  obtain ⟨g1, gP, g2⟩ := nodeWriteAt_bounded D P s.idsPerNode hkI hC
    (leafPath s.idsPerNode s.depth j) s.depth s.tree b w.store.1 w.store.2
    (leafPath_length _ _ _) h1 hb hP h2
  have e : (w.store.1, w.store.2) = w.store := rfl
  rw [e, ← hS] at g1 gP g2
  exact ⟨⟨_, rfl⟩, g1, gP, g2, h3⟩

theorem writeLeaf_bounded {σ : Type} (D : Driver σ) (P : σ → Prop)
    (s : ShortenBlock (σ × List Call))
    (w : World (σ × List Call)) (size offset st en j : Nat) (data : Bytes) (n : Nat)
    (hS : s.shortener = D.logged) (hN : 0 < D.NodeSize) (hk : 1 ≤ s.idsPerNode)
    (hkI : s.idsPerNode * (D.IdSize + 1) ≤ D.NodeSize + 1)
    (hC : SizeContract D P)
    (hinv : PayloadInv D P s w) :
    (∃ t, (s.writeLeaf w size offset st en j data n).2.1 = { s with tree := t })
      ∧ PayloadInv D P (s.writeLeaf w size offset st en j data n).2.1
          (s.writeLeaf w size offset st en j data n).2.2 := by
  obtain ⟨leafId, t, hg, hbt⟩ := getLeaf_bounded s w D.IdSize j hk hinv.1
  have hNS : s.shortener.NodeSize = D.NodeSize := by rw [hS]; rfl
  -- the bytes of the leaf
  have key : P (if leafId ≠ [] then cachedNodeRead s.shortener w leafId
          else (.ok (List.replicate s.shortener.NodeSize 0), w)).2.store.1
      ∧ WritesBounded D.NodeSize
        (if leafId ≠ [] then cachedNodeRead s.shortener w leafId
          else (.ok (List.replicate s.shortener.NodeSize 0), w)).2.store.2
      ∧ (∀ kv ∈ (if leafId ≠ [] then cachedNodeRead s.shortener w leafId
          else (.ok (List.replicate s.shortener.NodeSize 0), w)).2.readCache,
            kv.2.length ≤ D.NodeSize)
      ∧ (∀ b, (if leafId ≠ [] then cachedNodeRead s.shortener w leafId
          else (.ok (List.replicate s.shortener.NodeSize 0), w)).1 = .ok b →
            b.length ≤ D.NodeSize) := by
    by_cases hid0 : leafId = []
    · simp only [hid0, ne_eq, not_true_eq_false, if_false]
      refine ⟨hinv.2.1, hinv.2.2.1, hinv.2.2.2, ?_⟩
      intro b hb
      simp only [Except.ok.injEq] at hb
      rw [← hb, List.length_replicate, hNS]
    · simp only [ne_eq, hid0, not_false_eq_true, if_true]
      rw [hS]
      exact cachedNodeRead_logged_inv D P hC w leafId hinv.2.1 hinv.2.2.1 hinv.2.2.2
  unfold ShortenBlock.writeLeaf
  rw [hg]
  simp only
  rcases hX : (if leafId ≠ [] then cachedNodeRead s.shortener w leafId
      else (.ok (List.replicate s.shortener.NodeSize 0), w)) with ⟨r, w2⟩
  rw [hX] at key
  obtain ⟨kP, k1, k2, k3⟩ := key
  simp only at kP k1 k2 k3
  cases r with
  | error e => exact ⟨⟨t, rfl⟩, hbt, kP, k1, k2⟩
  | ok leafData =>
    have hL : leafData.length ≤ D.NodeSize := k3 leafData rfl
    simp only
    have he : (if j = en - 1 then (offset + size) % s.shortener.NodeSize
        else s.shortener.NodeSize) ≤ D.NodeSize := by
      split
      · rw [hNS]; exact Nat.le_of_lt (Nat.mod_lt _ hN)
      · rw [hNS]
    generalize (if j = st then offset % s.shortener.NodeSize else 0) = a
    generalize (if j = en - 1 then (offset + size) % s.shortener.NodeSize
        else s.shortener.NodeSize) = e at he ⊢
    by_cases h1 : leafData.length < a
    · rw [if_pos h1]
      exact ⟨⟨t, rfl⟩, hbt, kP, k1, k2⟩
    · rw [if_neg h1]
      by_cases h2 : e < a ∨ data.length < e - a
      · rw [if_pos h2]
        exact ⟨⟨t, rfl⟩, hbt, kP, k1, k2⟩
      · rw [if_neg h2]
        have hae : a ≤ e := by
          rcases Nat.lt_or_ge e a with h | h
          · exact absurd (Or.inl h) h2
          · exact h
        have hnew := composeLeaf_length_le leafData data a e D.NodeSize hL he hae
        -- the world handed to `nodeWrite`
        have hw3 : PayloadInv D P { s with tree := t }
            (if leafId ≠ [] ∧ e ≤ leafData.length then
                { w2 with
                  readCache := (cacheOverwrite w2.readCache leafId (composeLeaf leafData data a e)) }
              else w2) := by
          split
          · refine ⟨hbt, kP, k1, ?_⟩
            intro kv hkv
            rcases mem_cacheOverwrite _ _ _ _ hkv with h | h
            · rw [h]; exact hnew
            · exact k2 kv h
          · exact ⟨hbt, kP, k1, k2⟩
        obtain ⟨⟨t2, g1⟩, g2⟩ := nodeWrite_bounded D P { s with tree := t } _ j _ hS hkI hC hw3 hnew
        split
        · exact ⟨⟨t2, g1⟩, g2⟩
        · exact ⟨⟨t2, g1⟩, g2⟩

theorem writeLoop_bounded {σ : Type} (D : Driver σ) (P : σ → Prop) (size offset st en : Nat)
    (hN : 0 < D.NodeSize) (hC : SizeContract D P) :
    ∀ (l : List Nat) (s : ShortenBlock (σ × List Call)) (w : World (σ × List Call))
      (data : Bytes) (n : Nat),
      s.shortener = D.logged → 1 ≤ s.idsPerNode →
      s.idsPerNode * (D.IdSize + 1) ≤ D.NodeSize + 1 → PayloadInv D P s w →
      PayloadInv D P (ShortenBlock.writeLoop size offset st en l s w data n).2.1
        (ShortenBlock.writeLoop size offset st en l s w data n).2.2 := by
  intro l
  induction l with
  | nil => intro s w data n _ _ _ hinv; exact hinv
  | cons j rest ih =>
    intro s w data n hS hk hkI hinv
    obtain ⟨⟨t, h1⟩, h2⟩ :=
      writeLeaf_bounded D P s w size offset st en j data n hS hN hk hkI hC hinv
    rcases hr : s.writeLeaf w size offset st en j data n with ⟨step, s1, w1⟩
    rw [hr] at h1 h2
    simp only at h1 h2
    subst h1
    simp only [ShortenBlock.writeLoop, hr]
    cases step with
    | done r => exact h2
    | next data1 n1 => exact ih _ w1 data1 n1 hS hk hkI h2

/-! ## Writes on a volume with full leaves -/

theorem full_fresh (L : Bytes → Except Err Bytes) (k N d : Nat) : Full L k N d (.mk [] []) := by
  cases d with
  | zero => simp [Full, Node.id]
  | succ d => simp [Full, Node.id, Node.children]

theorem full_mono (L L1 : Bytes → Except Err Bytes) (k N : Nat)
    (h : ∀ id b, L id = .ok b → b.length = N → ∃ b1, L1 id = .ok b1 ∧ b1.length = N) :
    ∀ (d : Nat) (n : Node), Full L k N d n → Full L1 k N d n := by
  intro d
  induction d with
  | zero =>
    intro n hn
    simp only [Full] at hn ⊢
    rcases hn with h0 | ⟨b, hb, hl⟩
    · exact Or.inl h0
    · exact Or.inr (h _ b hb hl)
  | succ d ih =>
    intro n hn
    simp only [Full] at hn ⊢
    rcases hn with h0 | ⟨hl, hall⟩
    · exact Or.inl h0
    · exact Or.inr ⟨hl, fun c hc => ih c (hall c hc)⟩

theorem descend_full {σ : Type} (D : Driver σ) (L : Bytes → Except Err Bytes) (k N : Nat) :
    ∀ (path : List Nat) (d : Nat) (node : Node) (w : World σ),
      path.length = d → (∀ i ∈ path, i < k) → Full L k N d node →
      (∃ leafId, (descend D k path node w).1 = .ok leafId
          ∧ (leafId = [] ∨ ∃ b, L leafId = .ok b ∧ b.length = N))
        ∧ Full L k N d (descend D k path node w).2.1
        ∧ (descend D k path node w).2.2 = w := by
  intro path
  induction path with
  | nil =>
    intro d node w hlen _ hf
    subst hlen
    refine ⟨⟨node.id, rfl, ?_⟩, hf, rfl⟩
    simpa [Full] using hf
  | cons i rest ih =>
    intro d node w hlen hlt hf
    cases d with
    | zero => simp at hlen
    | succ d =>
      obtain ⟨id, ch⟩ := node
      have hi : i < k := hlt i (by simp)
      have hrest : ∀ j ∈ rest, j < k := fun j hj => hlt j (by simp [hj])
      have hlen1 : rest.length = d := by simpa using hlen
      simp only [Full, Node.id_mk, Node.children_mk] at hf
      have key : ∃ ch1 : List Node, hydrate D k (.mk id ch) w = (.ok (.mk id ch1), w)
          ∧ ch1.length = k ∧ ∀ c ∈ ch1, Full L k N d c := by
        rcases hf with ⟨h0, hid0⟩ | ⟨hl, hall⟩
        · subst hid0
          refine ⟨List.replicate k (.mk [] []),
            by simp [hydrate, Node.id_mk, Node.children_mk, h0], by simp, ?_⟩
          intro c hc
          rw [List.eq_of_mem_replicate hc]
          exact full_fresh L k N d
        · refine ⟨ch, ?_, hl, hall⟩
          have : ch.length ≠ 0 := by omega
          simp [hydrate, Node.children_mk, this]
      obtain ⟨ch1, hh, hl1, hall1⟩ := key
      have hi1 : i < ch1.length := by omega
      have hget : ch1[i]? = some ch1[i] := List.getElem?_eq_getElem hi1
      have hc : Full L k N d ch1[i] := hall1 _ (List.getElem_mem hi1)
      obtain ⟨⟨leafId, h1, h1'⟩, h2, h3⟩ := ih d ch1[i] w hlen1 hrest hc
      simp only [descend, hh, Node.children_mk, Node.id_mk, hget]
      refine ⟨⟨leafId, h1, h1'⟩, ?_, h3⟩
      simp only [Full, Node.children_mk]
      refine Or.inr ⟨by simp [hl1], ?_⟩
      intro c hc
      rcases List.mem_or_eq_of_mem_set hc with hc | hc
      · exact hall1 c hc
      · rw [hc]; exact h2

theorem nodeWriteAt_retains {σ : Type} (D : Driver σ) (hD : Faithful D) :
    ∀ (p : List Nat) (node : Node) (b : Bytes) (st : σ) (id x : Bytes),
      (D.Read st id).1 = .ok x → (D.Read (nodeWriteAt D p node b st).2.2 id).1 = .ok x := by
  intro p
  induction p with
  | nil =>
    intro node b st id x h
    have := hD.write_retains st b id x h
    simp only [nodeWriteAt]
    rcases hw : D.Write st b with ⟨r, st1⟩
    rw [hw] at this
    cases r <;> exact this
  | cons i rest ih =>
    intro node b st id x h
    simp only [nodeWriteAt]
    cases hc : node.children[i]? with
    | none => exact h
    | some child =>
      have h1 := ih child b st id x h
      simp only
      rcases hr : nodeWriteAt D rest child b st with ⟨r, child1, st1⟩
      rw [hr] at h1
      cases r with
      | err e => exact h1
      | panic => exact h1
      | ok u =>
        have := hD.write_retains st1 (stringsJoin ((node.children.set i child1).map Node.id)) id x h1
        simp only
        rcases hw : D.Write st1 (stringsJoin ((node.children.set i child1).map Node.id)) with ⟨r2, st2⟩
        rw [hw] at this
        cases r2 <;> exact this

theorem nodeWriteAt_leaf_readable {σ : Type} (D : Driver σ) (hD : Faithful D) :
    ∀ (p : List Nat) (node : Node) (b : Bytes) (st : σ) (newID : Bytes),
      (node.at? p).isSome → (D.Write st b).1 = .ok newID →
      (D.Read (nodeWriteAt D p node b st).2.2 newID).1 = .ok b := by
  intro p
  induction p with
  | nil =>
    intro node b st newID _ h
    have := hD.write_read st b newID h
    simp only [nodeWriteAt]
    rcases hw : D.Write st b with ⟨r, st1⟩
    rw [hw] at this h
    simp only at h
    subst h
    exact this
  | cons i rest ih =>
    intro node b st newID hsome h
    simp only [Node.at?_cons] at hsome
    simp only [nodeWriteAt]
    cases hc : node.children[i]? with
    | none => rw [hc] at hsome; simp at hsome
    | some child =>
      rw [hc] at hsome
      have h1 := ih child b st newID hsome h
      simp only
      rcases hr : nodeWriteAt D rest child b st with ⟨r, child1, st1⟩
      rw [hr] at h1
      cases r with
      | err e => exact h1
      | panic => exact h1
      | ok u =>
        have := hD.write_retains st1 (stringsJoin ((node.children.set i child1).map Node.id))
          newID b h1
        simp only
        rcases hw : D.Write st1 (stringsJoin ((node.children.set i child1).map Node.id)) with ⟨r2, st2⟩
        rw [hw] at this
        cases r2 <;> exact this

theorem nodeWriteAt_ne_panic {σ : Type} (D : Driver σ) :
    ∀ (p : List Nat) (node : Node) (b : Bytes) (st : σ),
      (node.at? p).isSome → (nodeWriteAt D p node b st).1 ≠ .panic := by
  intro p
  induction p with
  | nil =>
    intro node b st _
    simp only [nodeWriteAt]
    rcases hw : D.Write st b with ⟨r, st1⟩
    cases r <;> simp
  | cons i rest ih =>
    intro node b st hsome
    simp only [Node.at?_cons] at hsome
    simp only [nodeWriteAt]
    cases hc : node.children[i]? with
    | none => rw [hc] at hsome; simp at hsome
    | some child =>
      rw [hc] at hsome
      have h1 := ih child b st hsome
      simp only
      rcases hr : nodeWriteAt D rest child b st with ⟨r, child1, st1⟩
      rw [hr] at h1
      cases r with
      | err e => simp
      | panic => exact absurd rfl h1
      | ok u =>
        simp only
        rcases hw : D.Write st1 (stringsJoin ((node.children.set i child1).map Node.id)) with ⟨r2, st2⟩
        cases r2 <;> simp

theorem nodeWriteAt_full {σ : Type} (D : Driver σ) (L : Bytes → Except Err Bytes) (k N : Nat) :
    ∀ (p : List Nat) (d : Nat) (node : Node) (b : Bytes) (st : σ),
      p.length = d → Full L k N d node →
      (∀ newID, (D.Write st b).1 = .ok newID →
        newID = [] ∨ ∃ x, L newID = .ok x ∧ x.length = N) →
      Full L k N d (nodeWriteAt D p node b st).2.1 := by
  intro p
  induction p with
  | nil =>
    intro d node b st hlen hf hnew
    subst hlen
    simp only [nodeWriteAt]
    rcases hw : D.Write st b with ⟨r, st1⟩
    cases r with
    | error e => exact hf
    | ok newID =>
      simp only [Full, Node.id_mk]
      exact hnew newID (by rw [hw])
  | cons i rest ih =>
    intro d node b st hlen hf hnew
    cases d with
    | zero => simp at hlen
    | succ d =>
      have hlen1 : rest.length = d := by simpa using hlen
      simp only [nodeWriteAt]
      cases hc : node.children[i]? with
      | none => exact hf
      | some child =>
        have hi : i < node.children.length := by
          rcases Nat.lt_or_ge i node.children.length with h | h
          · exact h
          · rw [List.getElem?_eq_none h] at hc; simp at hc
        simp only [Full] at hf
        rcases hf with ⟨h0, _⟩ | ⟨hl, hall⟩
        · omega
        · have hchild : Full L k N d child := by
            obtain ⟨h1, h2⟩ := List.getElem?_eq_some_iff.1 hc
            rw [← h2]
            exact hall _ (List.getElem_mem h1)
          have g1 := ih d child b st hlen1 hchild hnew
          simp only
          rcases hr : nodeWriteAt D rest child b st with ⟨r, child1, st1⟩
          rw [hr] at g1
          simp only at g1
          have hnode : ∀ id1 : Bytes, Full L k N (d + 1) (.mk id1 (node.children.set i child1)) := by
            intro id1
            simp only [Full, Node.children_mk]
            refine Or.inr ⟨by simp [hl], ?_⟩
            intro c hc
            rcases List.mem_or_eq_of_mem_set hc with hc | hc
            · exact hall c hc
            · rw [hc]; exact g1
          cases r with
          | err e => exact hnode _
          | panic => exact hnode _
          | ok u =>
            simp only
            rcases hw : D.Write st1 (stringsJoin ((node.children.set i child1).map Node.id)) with ⟨r2, st2⟩
            cases r2 <;> exact hnode _

theorem cacheGet_cacheOverwrite (c : List (Bytes × Bytes)) (i d id : Bytes) :
    cacheGet (cacheOverwrite c i d) id
      = if id = i then (cacheGet c id).map (fun _ => d) else cacheGet c id := by
  induction c with
  | nil => simp [cacheOverwrite, cacheGet]
  | cons kv rest ih =>
    obtain ⟨k, v⟩ := kv
    have e : cacheOverwrite ((k, v) :: rest) i d
        = (if k = i then (k, d) else (k, v)) :: cacheOverwrite rest i d := rfl
    rw [e]
    by_cases hk : k = i
    · rw [if_pos hk]
      by_cases hid : k = id
      · have hid' : id = i := by rw [← hid, hk]
        simp [cacheGet, hid, hid']
      · have hid' : ¬ id = i := fun h => hid (by rw [hk, h])
        simp only [cacheGet, hid, if_false, ih, hid']
    · rw [if_neg hk]
      by_cases hid : k = id
      · have hid' : ¬ id = i := fun h => hk (by rw [hid, h])
        simp [cacheGet, hid, hid']
      · simp only [cacheGet, hid, if_false, ih]

theorem cachedNodeRead_cache_mem {σ : Type} (D : Driver σ) (w : World σ) (id : Bytes)
    (kv : Bytes × Bytes) (h : kv ∈ (cachedNodeRead D w id).2.readCache) :
    kv ∈ w.readCache ∨ (cachedNodeRead D w id).1 = .ok kv.2 := by
  unfold cachedNodeRead at h ⊢
  cases hc : cacheGet w.readCache id with
  | some d => rw [hc] at h; exact Or.inl h
  | none =>
    rw [hc] at h
    simp only at h ⊢
    rcases hr : D.Read w.store id with ⟨r, st⟩
    rw [hr] at h
    cases r with
    | error e => exact Or.inl h
    | ok d =>
      simp only at h ⊢
      rcases mem_cacheSet _ _ _ _ h with h1 | h1
      · exact Or.inr (by rw [h1])
      · exact Or.inl h1

theorem cachedNodeRead_store {σ : Type} (D : Driver σ) (w : World σ) (id : Bytes) :
    (cachedNodeRead D w id).2.store = w.store
      ∨ (cachedNodeRead D w id).2.store = (D.Read w.store id).2 := by
  unfold cachedNodeRead
  cases cacheGet w.readCache id with
  | some d => exact Or.inl rfl
  | none =>
    simp only
    rcases h : D.Read w.store id with ⟨r, st⟩
    cases r with
    | ok d => exact Or.inr rfl
    | error e => exact Or.inr rfl

theorem getLeaf_full {σ : Type} (s : ShortenBlock σ) (w : World σ) (j : Nat)
    (hk : 1 ≤ s.idsPerNode)
    (hf : Full (lookup s.shortener w) s.idsPerNode s.shortener.NodeSize s.depth s.tree) :
    ∃ leafId t, s.getLeaf w j = (.ok leafId, { s with tree := t }, w)
      ∧ (leafId = [] ∨ ∃ b, lookup s.shortener w leafId = .ok b
          ∧ b.length = s.shortener.NodeSize)
      ∧ Full (lookup s.shortener w) s.idsPerNode s.shortener.NodeSize s.depth t
      ∧ (t.at? (leafPath s.idsPerNode s.depth j)).isSome := by
  have h0 : ¬ (s.idsPerNode = 0 ∧ 0 < s.depth) := by omega
  obtain ⟨⟨leafId, h1, h1'⟩, h2, h3⟩ := descend_full s.shortener (lookup s.shortener w)
    s.idsPerNode s.shortener.NodeSize
    (leafPath s.idsPerNode s.depth j) s.depth s.tree w (leafPath_length _ _ _)
    (leafPath_lt _ _ _ hk) hf
  obtain ⟨leaf, h4, _⟩ := descend_at _ _ _ _ _ _ h1
  refine ⟨leafId, _, ?_, h1', h2, by simp [h4]⟩
  rw [ShortenBlock.getLeaf, if_neg h0, h1, h3]

/-- One iteration of the loop of `Write` on a volume with full leaves: whatever the
shortener's writes return, the loop goes on with the leaf's bytes counted.  The store it
leaves is the one `nodeWrite` leaves when called with the leaf's new bytes, composed from
`NodeSize` existing bytes, after at most one read. -/
theorem writeLeaf_full {σ : Type} (s : ShortenBlock σ) (w : World σ)
    (size offset st en j : Nat) (data : Bytes) (n : Nat)
    (hD : Faithful s.shortener) (hk : 1 ≤ s.idsPerNode) (hd : 0 < s.depth)
    (hinv : FullInv s w)
    (hae : (if j = st then offset % s.shortener.NodeSize else 0)
      ≤ (if j = en - 1 then (offset + size) % s.shortener.NodeSize else s.shortener.NodeSize))
    (heN : (if j = en - 1 then (offset + size) % s.shortener.NodeSize else s.shortener.NodeSize)
      ≤ s.shortener.NodeSize)
    (hdata : (if j = en - 1 then (offset + size) % s.shortener.NodeSize
        else s.shortener.NodeSize)
      - (if j = st then offset % s.shortener.NodeSize else 0) ≤ data.length) :
    ∃ t w1, s.writeLeaf w size offset st en j data n
        = (.next
            (data.drop ((if j = en - 1 then (offset + size) % s.shortener.NodeSize
                else s.shortener.NodeSize)
              - (if j = st then offset % s.shortener.NodeSize else 0)))
            (n + ((if j = en - 1 then (offset + size) % s.shortener.NodeSize
                else s.shortener.NodeSize)
              - (if j = st then offset % s.shortener.NodeSize else 0))),
          { s with tree := t }, w1)
      ∧ FullInv { s with tree := t } w1
      ∧ ∃ leafData t0 st3, leafData.length = s.shortener.NodeSize
          ∧ (st3 = w.store ∨ ∃ id, st3 = (s.shortener.Read w.store id).2)
          ∧ (t0.at? (leafPath s.idsPerNode s.depth j)).isSome
          ∧ w1.store = (nodeWriteAt s.shortener (leafPath s.idsPerNode s.depth j) t0
              (composeLeaf leafData data
                (if j = st then offset % s.shortener.NodeSize else 0)
                (if j = en - 1 then (offset + size) % s.shortener.NodeSize
                  else s.shortener.NodeSize)) st3).2.2 := by
  obtain ⟨hfull, hcache⟩ := hinv
  obtain ⟨leafId, t, hg, hleaf, hft, hat⟩ := getLeaf_full s w j hk hfull
  -- the bytes of the leaf
  have key : ∃ leafData w2,
      (if leafId ≠ [] then cachedNodeRead s.shortener w leafId
        else (.ok (List.replicate s.shortener.NodeSize 0), w)) = (.ok leafData, w2)
      ∧ leafData.length = s.shortener.NodeSize
      ∧ lookup s.shortener w2 = lookup s.shortener w
      ∧ (∀ kv ∈ w2.readCache, kv.2.length = s.shortener.NodeSize)
      ∧ (w2.store = w.store ∨ ∃ id, w2.store = (s.shortener.Read w.store id).2) := by
    by_cases hid : leafId = []
    · exact ⟨List.replicate s.shortener.NodeSize 0, w, by simp [hid], by simp, rfl, hcache,
        Or.inl rfl⟩
    · rcases hleaf with h | ⟨b, hb, hbl⟩
      · exact absurd h hid
      · have e1 := cachedNodeRead_fst s.shortener w leafId
        rw [hb] at e1
        have e2 := lookup_cachedNodeRead s.shortener hD.read_stable w leafId
        have e3 := cachedNodeRead_cache_mem s.shortener w leafId
        have e4 := cachedNodeRead_store s.shortener w leafId
        rcases hc : cachedNodeRead s.shortener w leafId with ⟨r, w2⟩
        rw [hc] at e1 e2 e3 e4
        simp only at e1 e2 e3 e4
        subst e1
        refine ⟨b, w2, by simp [hid], hbl, e2, ?_, ?_⟩
        · intro kv hkv
          rcases e3 kv hkv with h | h
          · exact hcache kv h
          · simp only [Except.ok.injEq] at h
            rw [← h]; exact hbl
        · rcases e4 with h | h
          · exact Or.inl h
          · exact Or.inr ⟨leafId, h⟩
  obtain ⟨leafData, w2, hread, hlen, hL2, hcache2, hstore2⟩ := key
  unfold ShortenBlock.writeLeaf
  rw [hg]
  simp only [hread]
  generalize (if j = st then offset % s.shortener.NodeSize else 0) = a at hae hdata ⊢
  generalize (if j = en - 1 then (offset + size) % s.shortener.NodeSize
      else s.shortener.NodeSize) = e at hae heN hdata ⊢
  have h1 : ¬ (leafData.length < a) := by omega
  have h2 : ¬ (e < a ∨ data.length < e - a) := by omega
  rw [if_neg h1, if_neg h2]
  have hnew : (composeLeaf leafData data a e).length = s.shortener.NodeSize :=
    composeLeaf_length_eq leafData data a e _ hlen heN hae hdata
  -- the world handed to `nodeWrite`
  have hw3 : ∃ w3 : World σ,
      (if leafId ≠ [] ∧ e ≤ leafData.length then
          { w2 with
            readCache := (cacheOverwrite w2.readCache leafId (composeLeaf leafData data a e)) }
        else w2) = w3
      ∧ (∀ kv ∈ w3.readCache, kv.2.length = s.shortener.NodeSize)
      ∧ (∀ id b, lookup s.shortener w id = .ok b → b.length = s.shortener.NodeSize →
          ∃ b1, lookup s.shortener w3 id = .ok b1 ∧ b1.length = s.shortener.NodeSize)
      ∧ w3.store = w2.store := by
    refine ⟨_, rfl, ?_, ?_, ?_⟩
    · split
      · intro kv hkv
        rcases mem_cacheOverwrite _ _ _ _ hkv with h | h
        · rw [h]; exact hnew
        · exact hcache2 kv h
      · exact hcache2
    · intro id b hb hbl
      rw [← hL2] at hb
      split
      · simp only [lookup, cacheGet_cacheOverwrite] at hb ⊢
        by_cases hid : id = leafId
        · simp only [hid, if_true] at hb ⊢
          cases hc : cacheGet w2.readCache leafId with
          | none => rw [hc] at hb; exact ⟨b, by simpa using hb, hbl⟩
          | some v => exact ⟨_, rfl, hnew⟩
        · simp only [hid, if_false] at hb ⊢
          exact ⟨b, hb, hbl⟩
      · exact ⟨b, hb, hbl⟩
    · split <;> rfl
  obtain ⟨w3, hw3e, hcache3, hext3, hstore3⟩ := hw3
  rw [hw3e]
  -- the propagation
  have hp : leafPath s.idsPerNode s.depth j ≠ [] := by
    intro h
    have := leafPath_length s.idsPerNode s.depth j
    rw [h] at this
    simp at this
    omega
  have hnp := nodeWriteAt_ne_panic s.shortener (leafPath s.idsPerNode s.depth j) t
    (composeLeaf leafData data a e) w3.store hat
  have hres : (ShortenBlock.nodeWrite { s with tree := t } w3
      (leafPath s.idsPerNode s.depth j) (composeLeaf leafData data a e)).1 ≠ .panic := by
    simp only [ShortenBlock.nodeWrite]
    split
    · next h _ => exact absurd h hp
    · exact hnp
  have hfinal : FullInv
      (ShortenBlock.nodeWrite { s with tree := t } w3
        (leafPath s.idsPerNode s.depth j) (composeLeaf leafData data a e)).2.1
      (ShortenBlock.nodeWrite { s with tree := t } w3
        (leafPath s.idsPerNode s.depth j) (composeLeaf leafData data a e)).2.2 := by
    simp only [ShortenBlock.nodeWrite, FullInv]
    refine ⟨?_, hcache3⟩
    -- what was readable stays readable
    have hext4 : ∀ id b, lookup s.shortener w3 id = .ok b → b.length = s.shortener.NodeSize →
        ∃ b1, lookup s.shortener
          { w3 with store := (nodeWriteAt s.shortener (leafPath s.idsPerNode s.depth j) t
            (composeLeaf leafData data a e) w3.store).2.2 } id = .ok b1
          ∧ b1.length = s.shortener.NodeSize := by
      intro id b hb hbl
      simp only [lookup] at hb ⊢
      cases hc : cacheGet w3.readCache id with
      | some v => rw [hc] at hb; exact ⟨b, by simpa using hb, hbl⟩
      | none =>
        rw [hc] at hb
        exact ⟨b, nodeWriteAt_retains s.shortener hD _ _ _ _ _ _ hb, hbl⟩
    apply nodeWriteAt_full s.shortener _ s.idsPerNode s.shortener.NodeSize _ s.depth t _ _
      (leafPath_length _ _ _)
    · apply full_mono _ _ _ _ _ _ _ hft
      intro id b hb hbl
      obtain ⟨b1, hb1, hbl1⟩ := hext3 id b hb hbl
      exact hext4 id b1 hb1 hbl1
    · intro newID hw
      right
      simp only [lookup]
      cases hc : cacheGet w3.readCache newID with
      | some v => exact ⟨v, rfl, hcache3 _ (cacheGet_mem _ _ _ hc)⟩
      | none =>
        exact ⟨_, nodeWriteAt_leaf_readable s.shortener hD _ _ _ _ _ hat hw, hnew⟩
  refine ⟨_, _, ?_, hfinal, leafData, t, w3.store, hlen, ?_, hat, rfl⟩
  · split
    · next h => exact absurd h hres
    · rfl
  · rw [hstore3]
    exact hstore2

theorem memDecode_append (xs : Bytes) (c : UInt8) :
    memDecode (xs ++ [c]) = memDecode xs * 26 + (c.toNat - 97) := by
  simp [memDecode, List.foldl_append]

theorem memDecode_memId (idSize n : Nat) : memDecode (memId idSize n) = n % 26 ^ idSize := by
  induction idSize generalizing n with
  | zero => simp [memId, memDecode, Nat.mod_one]
  | succ k ih =>
    rw [memId, memDecode_append, ih]
    have h1 : (UInt8.ofNat (97 + n % 26)).toNat - 97 = n % 26 := by
      have : n % 26 < 26 := Nat.mod_lt _ (by decide)
      have h2 : (UInt8.ofNat (97 + n % 26)).toNat = (97 + n % 26) % 256 := rfl
      rw [h2]
      omega
    rw [h1, Nat.pow_succ, Nat.mul_comm (26 ^ k) 26, Nat.mod_mul]
    omega

theorem memFind_getElem? : ∀ (st : List Bytes) (d : Bytes) (n : Nat),
    memFind st d = some n → st[n]? = some d := by
  intro st
  induction st with
  | nil => intro d n h; simp [memFind] at h
  | cons x rest ih =>
    intro d n h
    by_cases hx : x = d
    · simp only [memFind, hx, if_true, Option.some.injEq] at h
      subst h
      simp [hx]
    · simp only [memFind, hx, if_false, Option.map_eq_some'] at h
      obtain ⟨m, hm, rfl⟩ := h
      simpa using ih d m hm

theorem memDriver_read_ok (nodeSize idSize : Nat) (dedup : Bool) (st : List Bytes)
    (id b : Bytes) :
    ((memDriver nodeSize idSize dedup).Read st id).1 = .ok b ↔ st[memDecode id]? = some b := by
  simp only [memDriver]
  cases st[memDecode id]? <;> simp

theorem memDriver_write_store (nodeSize idSize : Nat) (dedup : Bool) (st : List Bytes)
    (d : Bytes) :
    ((memDriver nodeSize idSize dedup).Write st d).2 = st
      ∨ ((memDriver nodeSize idSize dedup).Write st d).2 = st ++ [d] := by
  simp only [memDriver]
  split
  · split <;> exact Or.inl rfl
  · split
    · exact Or.inr rfl
    · exact Or.inl rfl

theorem memDriver_write_ok (nodeSize idSize : Nat) (dedup : Bool) (st : List Bytes)
    (d id : Bytes) (h : ((memDriver nodeSize idSize dedup).Write st d).1 = .ok id) :
    (((memDriver nodeSize idSize dedup).Write st d).2)[memDecode id]? = some d := by
  simp only [memDriver] at h ⊢
  split at h
  · next n hn =>
    split at h
    · next hlt =>
      simp only [Except.ok.injEq] at h
      have hf : memFind st d = some n := by
        cases dedup with
        | false => simp at hn
        | true => simpa using hn
      have := memFind_getElem? st d n hf
      simp only [hlt, if_true]
      rw [← h, memDecode_memId, Nat.mod_eq_of_lt hlt, this]
    · simp at h
  · next hn =>
    split at h
    · next hlt =>
      simp only [Except.ok.injEq] at h
      simp only [hlt, if_true]
      rw [← h, memDecode_memId, Nat.mod_eq_of_lt hlt]
      simp
    · simp at h

theorem memDriver_faithful (nodeSize idSize : Nat) (dedup : Bool) :
    Faithful (memDriver nodeSize idSize dedup) where
  read_stable := by
    intro st id id1
    simp only [memDriver]
    cases st[memDecode id]? <;> rfl
  write_retains := by
    intro st d id b h
    rw [memDriver_read_ok] at h ⊢
    rcases memDriver_write_store nodeSize idSize dedup st d with e | e
    · rw [e]; exact h
    · rw [e]
      obtain ⟨h1, h2⟩ := List.getElem?_eq_some_iff.1 h
      rw [List.getElem?_append_left h1]
      exact h
  write_read := by
    intro st d id h
    rw [memDriver_read_ok]
    exact memDriver_write_ok nodeSize idSize dedup st d id h

/-- C9 (counterexample): with `idsPerNode = 3` and `depth = 35`, for leaf `3 ^ 34 - 1`
(below `3 ^ 35`) the index `getLeaf` takes at the root is 1, while the most significant of
the 35 base-3 digits of the leaf index is 0: `int(math.Pow(3, 34))` is 16677181699666568,
one less than `3 ^ 34`. -/
theorem getLeaf_path_rounded_power_counterexample :
    3 ^ 34 - 1 < 3 ^ 35
      ∧ intPow 3 34 = 16677181699666568
      ∧ leafPath 3 35 (3 ^ 34 - 1) = 1 :: List.replicate 34 2
      ∧ ((3 ^ 34 - 1) / 3 ^ (35 - 1 - 0)) % 3 = 0
      ∧ (ShortenBlock.getLeaf
            { depth := 35, tree := .mk [] [], shortener := memDriver 8 2 true, idsPerNode := 3 }
            { store := [], readCache := [] } (3 ^ 34 - 1)).1
          = (descend (memDriver 8 2 true) 3 (1 :: List.replicate 34 2) (.mk [] [])
              { store := [], readCache := [] }).1 := by
  have h : leafPath 3 35 (3 ^ 34 - 1) = 1 :: List.replicate 34 2 := by decide
  refine ⟨by decide, by decide, h, by decide, ?_⟩
  simp only [ShortenBlock.getLeaf, h]
  rfl

/-- C9 (amended): for every depth, `idsPerNode ≥ 1` with `idsPerNode ^ (depth - 1) < 2 ^ 53`
and `leafIdx < idsPerNode ^ depth`, the path that `getLeaf` descends from the root is the
list of the `depth` base-`idsPerNode` digits of `leafIdx`, most significant first: the index
at level `L` is `(leafIdx / idsPerNode ^ (depth - 1 - L)) % idsPerNode`, every index is below
`idsPerNode`, and the digits weighted by `idsPerNode ^ (depth - 1 - L)` sum to `leafIdx`. -/
theorem getLeaf_path_msb_digits {σ : Type} (s : ShortenBlock σ) (w : World σ) (leafIdx : Nat)
    (hk : 1 ≤ s.idsPerNode) (hlt : leafIdx < s.idsPerNode ^ s.depth)
    (hb : s.idsPerNode ^ (s.depth - 1) < 2 ^ 53) :
    s.getLeaf w leafIdx =
        ((descend s.shortener s.idsPerNode
            ((List.range s.depth).map
              (fun L => (leafIdx / s.idsPerNode ^ (s.depth - 1 - L)) % s.idsPerNode))
            s.tree w).1,
          { s with tree :=
              (descend s.shortener s.idsPerNode
                ((List.range s.depth).map
                  (fun L => (leafIdx / s.idsPerNode ^ (s.depth - 1 - L)) % s.idsPerNode))
                s.tree w).2.1 },
          (descend s.shortener s.idsPerNode
            ((List.range s.depth).map
              (fun L => (leafIdx / s.idsPerNode ^ (s.depth - 1 - L)) % s.idsPerNode))
            s.tree w).2.2)
      ∧ (∀ L, L < s.depth →
          (leafPath s.idsPerNode s.depth leafIdx)[L]? =
            some ((leafIdx / s.idsPerNode ^ (s.depth - 1 - L)) % s.idsPerNode))
      ∧ (∀ i ∈ leafPath s.idsPerNode s.depth leafIdx, i < s.idsPerNode)
      ∧ ∑ L ∈ Finset.range s.depth,
          ((leafIdx / s.idsPerNode ^ (s.depth - 1 - L)) % s.idsPerNode)
            * s.idsPerNode ^ (s.depth - 1 - L) = leafIdx := by
  refine ⟨?_, ?_, leafPath_lt _ _ _ hk, ?_⟩
  · have h0 : ¬ (s.idsPerNode = 0 ∧ 0 < s.depth) := by omega
    simp only [ShortenBlock.getLeaf, h0, if_false, leafPath_eq_map _ _ _ hb]
  · intro L hL
    rw [leafPath_eq_map _ _ _ hb, List.getElem?_map, List.getElem?_range hL]
    rfl
  · rw [Finset.sum_range_reflect
      (fun j => ((leafIdx / s.idsPerNode ^ j) % s.idsPerNode) * s.idsPerNode ^ j) s.depth,
      sum_digits_eq_mod, Nat.mod_eq_of_lt hlt]

/-- C9 (amended) at `NODE_SIZE = 8`, `ID_SIZE = 2`, `DEPTH = 2`, leaf 5 (digits 1, 2). -/
theorem getLeaf_path_msb_digits_witness :
    (leafPath 3 2 5)[0]? = some ((5 / 3 ^ (2 - 1 - 0)) % 3)
      ∧ (∀ i ∈ leafPath 3 2 5, i < 3)
      ∧ ∑ L ∈ Finset.range 2, ((5 / 3 ^ (2 - 1 - L)) % 3) * 3 ^ (2 - 1 - L) = 5 :=
  have h := getLeaf_path_msb_digits
    { depth := 2, tree := .mk [] [], shortener := memDriver 8 2 true, idsPerNode := 3 }
    { store := [], readCache := [] } 5 (by decide) (by decide) (by decide)
  ⟨h.2.1 0 (by decide), h.2.2.1, h.2.2.2⟩

/-- C7 (counterexample): with `NodeSize = 8`, `IdSize = 2` and depth 34, `idsPerNode = 3`
and `Capacity()` returns 133417453597332544, while `3 ^ 34 * 8` is 133417453597332552;
with depth 41 it returns 0. -/
theorem capacity_rounded_power_counterexample :
    (∃ s, NewShortenBlock (memDriver 8 2 true) { RootID := [], Depth := 34 } = some s
      ∧ s.idsPerNode = 3 ∧ s.Capacity = 133417453597332544
      ∧ ((s.idsPerNode ^ 34 * (memDriver 8 2 true).NodeSize : Nat) : Int) = 133417453597332552)
    ∧ (∃ s, NewShortenBlock (memDriver 8 2 true) { RootID := [], Depth := 41 } = some s
      ∧ s.Capacity = 0) :=
  ⟨⟨_, rfl, rfl, by decide, by decide⟩, ⟨_, rfl, by decide⟩⟩

/-- C7 (amended): for a positive configured depth `d`, `NewShortenBlock` returns a block with
`idsPerNode = (NodeSize + 1) / (IdSize + 1)` (integer division), and when
`idsPerNode ^ d < 2 ^ 53` and `idsPerNode ^ d * NodeSize < 2 ^ 63`,
`Capacity() = idsPerNode ^ d * NodeSize`. -/
theorem capacity_formula {σ : Type} (D : Driver σ) (rootID : Bytes) (d : Nat) (hd : 1 ≤ d) :
    ∃ s, NewShortenBlock D { RootID := rootID, Depth := (d : Int) } = some s
      ∧ s.idsPerNode = (D.NodeSize + 1) / (D.IdSize + 1)
      ∧ (((D.NodeSize + 1) / (D.IdSize + 1)) ^ d < 2 ^ 53 →
          ((D.NodeSize + 1) / (D.IdSize + 1)) ^ d * D.NodeSize < 2 ^ 63 →
          s.Capacity = (((D.NodeSize + 1) / (D.IdSize + 1)) ^ d * D.NodeSize : Nat)) := by
  have h : ¬ ((d : Int) ≤ 0) := by omega
  refine ⟨_, if_neg h, rfl, ?_⟩
  intro h1 h2
  exact Capacity_eq _ (by simpa using h1) (by simpa using h2)

/-- C7 (amended) at `NodeSize = 8`, `IdSize = 2`, depth 2: `idsPerNode = 3` and
`Capacity() = 72`. -/
theorem capacity_formula_witness :
    ∃ s, NewShortenBlock (memDriver 8 2 true) { RootID := [], Depth := 2 } = some s
      ∧ s.idsPerNode = 3 ∧ s.Capacity = 72 :=
  (capacity_formula (memDriver 8 2 true) [] 2 (by decide)).elim
    fun s hs => ⟨s, hs.1, hs.2.1, hs.2.2 (by decide) (by decide)⟩

theorem memDriver_readStable (nodeSize idSize : Nat) (dedup : Bool) :
    ReadStable (memDriver nodeSize idSize dedup) := by
  intro st id id1
  simp only [memDriver]
  cases st[memDecode id]? <;> rfl

/-- C2 (counterexample): `Read` does not return `size` bytes in four states that meet the
claim's conditions.

A shortener with `NodeSize() = 0`: on the fresh volume (`IDS_PER_NODE = 1`, `DEPTH = 1`,
capacity 0) `Read(0, 0)` divides by zero: a panic.

Rounding: on the fresh volume with `NODE_SIZE = 1527`, `ID_SIZE = 7`, `DEPTH = 6`
(`IDS_PER_NODE = 191`, capacity 74137722518322807), `Read(1, 9007199254750044)` returns no
byte: `float64(offset + size)` is 9007199254750044, which `NODE_SIZE` divides, so
`endLeafIdx = startLeafIdx = 5898624266372`.

A root identifier that names a leaf payload: on the store left by `Write(6, "XYZW")`
(`NODE_SIZE = 8`, `ID_SIZE = 2`, `DEPTH = 2`; every stored payload has at most 8 bytes) a
block created with `ROOT_ID = "aa"` hydrates its root from the bytes of leaf 0, six zero
bytes and `"XY"`, to one child, and `Read(8, 24)` indexes child 1: a panic.

After a restart: following `Write(24, bytes 1..17)` and `Write(0, "aa,ad,ag!")`, leaf 0 and
interior node 1 share the identifier `ah`.  The block created with the saved root
identifier and an empty cache performs `Write(0, "aaaaaaa")`, which composes the new bytes
of leaf 0 in place in the slice cached under `ah`; `Read(8, 32)` then hydrates node 1 from
that slice to one child and indexes child 1: a panic.  Every stored payload has at most 8
bytes. -/
theorem Read_length_counterexample :
    (∃ s, NewShortenBlock (memDriver 0 0 true) { RootID := [], Depth := 1 } = some s
        ∧ ((0 + 0 : Nat) : Int) ≤ s.Capacity
        ∧ (s.Read { store := [], readCache := [] } 0 0).1 = .panic)
      ∧ (∃ s, NewShortenBlock (memDriver 1527 7 true) { RootID := [], Depth := 6 } = some s
        ∧ s.idsPerNode = 191
        ∧ ((9007199254750044 + 1 : Nat) : Int) ≤ s.Capacity
        ∧ (s.Read { store := [], readCache := [] } 1 9007199254750044).1 = .ok [])
      ∧ (∃ s, NewShortenBlock (memDriver 8 2 true) { RootID := [97, 97], Depth := 2 } = some s
        ∧ ((24 + 8 : Nat) : Int) ≤ s.Capacity
        ∧ (∀ d ∈ (runWrites [(6, [88, 89, 90, 87])] (demoBlock true) demoWorld).2.store,
            d.length ≤ 8)
        ∧ (s.Read (runWrites [(6, [88, 89, 90, 87])] (demoBlock true) demoWorld).2.expired
            8 24).1 = .panic)
      ∧ (∃ v, demoRestarted
            [(24, [1, 2, 3, 4, 5, 6, 7, 8, 9, 10, 11, 12, 13, 14, 15, 16, 17]),
              (0, [97, 97, 44, 97, 100, 44, 97, 103, 33])]
            [(0, [97, 97, 97, 97, 97, 97, 97])] = some v
        ∧ ((32 + 8 : Nat) : Int) ≤ v.1.Capacity
        ∧ (∀ d ∈ v.2.store, d.length ≤ 8)
        ∧ (v.1.Read v.2 8 32).1 = .panic) :=
  ⟨⟨_, rfl, by decide, by decide⟩, ⟨_, rfl, rfl, by decide, by decide⟩,
    ⟨_, rfl, by decide, by decide, by decide⟩, ⟨_, rfl, by decide, by decide, by decide⟩⟩

/-- C2 (amended) on the volume left by `Write(6, "XYZW")` (`NODE_SIZE = 8`, `ID_SIZE = 2`,
`DEPTH = 2`): `Read(12, 0)` returns 12 bytes. -/
theorem Read_length_eq_size_witness :
    ∃ out, (ShortenBlock.Read
        { depth := 2, idsPerNode := 3, shortener := memDriver 8 2 true,
          tree := .mk [97, 102]
            [.mk [97, 101] [.mk [97, 97] [], .mk [97, 100] [], .mk [] []], .mk [] [], .mk [] []] }
        { store := [[0, 0, 0, 0, 0, 0, 88, 89], [97, 97, 44, 44], [97, 98, 44, 44],
            [90, 87, 0, 0, 0, 0, 0, 0], [97, 97, 44, 97, 100, 44], [97, 101, 44, 44]],
          readCache := [] } 12 0).1 = .ok out ∧ out.length = 12 :=
  Read_length_eq_size _ _ 12 0 (by decide) (memDriver_readStable 8 2 true)
    (by
      have h1 : ∀ (L : Bytes → Except Err Bytes) (id b : Bytes), L id = .ok b → b.length ≤ 8 →
          Sound L 3 8 0 (.mk id []) := fun L id b hb hl => by
        simp only [Sound]; exact Or.inr ⟨b, hb, hl⟩
      have h2 : ∀ (L : Bytes → Except Err Bytes) (d : Nat) (id : Bytes) (c1 c2 c3 : Node),
          Sound L 3 8 d c1 → Sound L 3 8 d c2 → Sound L 3 8 d c3 →
          Sound L 3 8 (d + 1) (.mk id [c1, c2, c3]) := fun L d id c1 c2 c3 g1 g2 g3 => by
        simp only [Sound]
        refine Or.inr ⟨by simp [Node.children], by simp [Node.children], ?_⟩
        intro c hc
        simp only [Node.children, List.mem_cons, List.mem_singleton, List.not_mem_nil,
          or_false] at hc
        rcases hc with rfl | rfl | rfl
        · exact g1
        · exact g2
        · exact g3
      exact h2 _ 1 _ _ _ _
        (h2 _ 0 _ _ _ _ (h1 _ _ [0, 0, 0, 0, 0, 0, 88, 89] rfl (by decide))
          (h1 _ _ [90, 87, 0, 0, 0, 0, 0, 0] rfl (by decide)) (sound_fresh _ _ _ _))
        (sound_fresh _ _ _ _) (sound_fresh _ _ _ _))
    (by decide) (by decide)

/-- C3 (counterexample): on the fresh volume with `NODE_SIZE = 6096`, `ID_SIZE = 8`,
`DEPTH = 5` (`IDS_PER_NODE = 677`, capacity 866938523414829072),
`Read(1, 9007199254745040)` returns no byte instead of one zero byte:
`float64(offset + size)` is 9007199254745040, which `NODE_SIZE` divides, so
`endLeafIdx = startLeafIdx = 1477558932865`.  And over a shortener with `NodeSize() = 0`
(`IDS_PER_NODE = 1`, `DEPTH = 1`, capacity 0) `Read(0, 0)` on the fresh volume divides by
zero: a panic. -/
theorem zero_fill_counterexample :
    (∃ s, NewShortenBlock (memDriver 6096 8 true) { RootID := [], Depth := 5 } = some s
      ∧ s.idsPerNode = 677
      ∧ ((9007199254745040 + 1 : Nat) : Int) ≤ s.Capacity
      ∧ 9007199254745040 / s.shortener.NodeSize = 1477558932865
      ∧ ceilDiv (9007199254745040 + 1) s.shortener.NodeSize = 1477558932865
      ∧ (s.Read { store := [], readCache := [] } 1 9007199254745040).1 = .ok [])
    ∧ (∃ s, NewShortenBlock (memDriver 0 0 true) { RootID := [], Depth := 1 } = some s
      ∧ s.idsPerNode = 1
      ∧ ((0 + 0 : Nat) : Int) ≤ s.Capacity
      ∧ (s.Read { store := [], readCache := [] } 0 0).1 = .panic) :=
  ⟨⟨_, rfl, rfl, by decide, by decide, by decide, by decide⟩,
    ⟨_, rfl, rfl, by decide, by decide⟩⟩

/-- C3 (amended): on a block created with an empty root identifier over a shortener with
`NodeSize() ≥ 1`, after any sequence of earlier `Read` calls and no `Write`,
`Read(size, offset)` with `offset + size ≤ Capacity()` and `offset + size < 2 ^ 53` returns
`size` zero bytes and leaves the world (the shortener's store and the cache) exactly as it
was when the block was created.  This holds for every such driver, whatever its `Read` does
to the store, so no call reaches the shortener. -/
theorem zero_fill_unwritten_volume {σ : Type} (D : Driver σ) (depth : Int)
    (s0 : ShortenBlock σ) (hN : 0 < D.NodeSize)
    (hnew : NewShortenBlock D { RootID := [], Depth := depth } = some s0)
    (w : World σ) (reads : List (Nat × Nat)) (size offset : Nat)
    (hcap : ((offset + size : Nat) : Int) ≤ s0.Capacity) (hb : offset + size < 2 ^ 53) :
    ((runReads reads s0 w).1.Read (runReads reads s0 w).2 size offset).1
        = .ok (List.replicate size 0)
      ∧ ((runReads reads s0 w).1.Read (runReads reads s0 w).2 size offset).2.2 = w := by
  have hs0 : s0.tree = .mk [] [] ∧ s0.shortener = D := by
    unfold NewShortenBlock at hnew
    split at hnew
    · simp at hnew
    · simp only [Option.some.injEq] at hnew
      subst hnew
      exact ⟨rfl, rfl⟩
  have hu : Unwritten s0.idsPerNode s0.depth s0.tree := by
    rw [hs0.1]; exact unwritten_fresh _ _
  obtain ⟨h1, t, h2, h3⟩ := runReads_unwritten reads s0 w hu
  rw [h1, h2]
  refine ⟨Read_unwritten_zero { s0 with tree := t } w size offset
    (by simpa [hs0.2] using hN) h3 hcap hb, ?_⟩
  exact (Read_unwritten_state { s0 with tree := t } w size offset h3).1

/-- C3 (amended) at `NODE_SIZE = 8`, `ID_SIZE = 2`, `DEPTH = 2` (scenario S1, after two earlier reads):
`Read(8, 0)` gives eight zero bytes and the empty store and cache are untouched. -/
theorem zero_fill_unwritten_volume_witness :
    ((runReads [(72, 0), (3, 9)]
          { depth := 2, tree := .mk [] [], shortener := memDriver 8 2 true, idsPerNode := 3 }
          { store := [], readCache := [] }).1.Read
        (runReads [(72, 0), (3, 9)]
          { depth := 2, tree := .mk [] [], shortener := memDriver 8 2 true, idsPerNode := 3 }
          { store := [], readCache := [] }).2 8 0).1 = .ok (List.replicate 8 0)
      ∧ ((runReads [(72, 0), (3, 9)]
          { depth := 2, tree := .mk [] [], shortener := memDriver 8 2 true, idsPerNode := 3 }
          { store := [], readCache := [] }).1.Read
        (runReads [(72, 0), (3, 9)]
          { depth := 2, tree := .mk [] [], shortener := memDriver 8 2 true, idsPerNode := 3 }
          { store := [], readCache := [] }).2 8 0).2.2 = { store := [], readCache := [] } :=
  zero_fill_unwritten_volume (memDriver 8 2 true) 2 _ (by decide) rfl _ _ 8 0 (by decide)
    (by decide)

theorem climbCalls_getLast (t : Node) (p : List Nat) (b : Bytes) (hp : p ≠ []) :
    (climbCalls t p b).getLast?
      = some (Call.write (stringsJoin (t.children.map Node.id)) (.ok t.id)) := by
  cases p with
  | nil => exact absurd rfl hp
  | cons i rest =>
    simp [climbCalls, List.inits_cons, Node.idAt, Node.childIdsAt, Node.at?]

/-- C5: let `leaf` be the leaf that `getLeaf(leafIdx)` returned and `p` its path from the
root, and let the shortener be observed through the record of its calls.  If no write made
during `nodeWrite(leaf, b)` failed, then `nodeWrite` returns no error and the calls it made
are exactly `climbCalls`: a write of `b` that returned the identifier the leaf now has, then
for every ancestor, from the parent up to the root, a write of the comma-join of the
identifiers its children now have (in order) that returned the identifier the ancestor now
has; in particular the last write returned what `GetRootID()` now returns.  In every case
the identifier of every node that is not on the path from the root to the leaf is
unchanged. -/
theorem nodeWrite_propagates_to_root {σ : Type} (D : Driver σ)
    (s : ShortenBlock (σ × List Call)) (w : World (σ × List Call)) (leafIdx : Nat) (b : Bytes)
    (leafId : Bytes) (s1 : ShortenBlock (σ × List Call)) (w1 : World (σ × List Call))
    (hS : s.shortener = D.logged) (hd : 0 < s.depth)
    (hget : s.getLeaf w leafIdx = (.ok leafId, s1, w1)) :
    ((∀ data e, Call.write data (.error e) ∉
          (s1.nodeWrite w1 (leafPath s.idsPerNode s.depth leafIdx) b).2.2.store.2.drop
            w1.store.2.length) →
        (s1.nodeWrite w1 (leafPath s.idsPerNode s.depth leafIdx) b).1 = .ok ()
          ∧ (s1.nodeWrite w1 (leafPath s.idsPerNode s.depth leafIdx) b).2.2.store.2
              = w1.store.2 ++
                climbCalls (s1.nodeWrite w1 (leafPath s.idsPerNode s.depth leafIdx) b).2.1.tree
                  (leafPath s.idsPerNode s.depth leafIdx) b
          ∧ (s1.nodeWrite w1 (leafPath s.idsPerNode s.depth leafIdx) b).2.2.store.2.getLast?
              = some (Call.write
                  (stringsJoin
                    ((s1.nodeWrite w1
                      (leafPath s.idsPerNode s.depth leafIdx) b).2.1.tree.children.map Node.id))
                  (.ok (s1.nodeWrite w1
                    (leafPath s.idsPerNode s.depth leafIdx) b).2.1.GetRootID)))
      ∧ (∀ q, ¬ q <+: leafPath s.idsPerNode s.depth leafIdx →
          ((s1.nodeWrite w1 (leafPath s.idsPerNode s.depth leafIdx) b).2.1.tree.at? q).map Node.id
            = (s1.tree.at? q).map Node.id) := by
  have hp : leafPath s.idsPerNode s.depth leafIdx ≠ [] := by
    intro h
    have := leafPath_length s.idsPerNode s.depth leafIdx
    rw [h] at this
    simp at this
    omega
  -- the leaf is in the tree that `getLeaf` returned
  have hs1 : s1.shortener = D.logged ∧ (s1.tree.at? (leafPath s.idsPerNode s.depth leafIdx)).isSome := by
    unfold ShortenBlock.getLeaf at hget
    split at hget
    · simp at hget
    · simp only [Prod.mk.injEq] at hget
      obtain ⟨h1, h2, _⟩ := hget
      obtain ⟨leaf, h3, _⟩ := descend_at _ _ _ _ _ _ h1
      subst h2
      exact ⟨hS, by simp [h3]⟩
  obtain ⟨new, g1, g2, g3⟩ := nodeWriteAt_logged D (leafPath s.idsPerNode s.depth leafIdx)
    s1.tree b w1.store.1 w1.store.2 hs1.2
  have e : (w1.store.1, w1.store.2) = w1.store := rfl
  rw [e, ← hs1.1] at g1 g2 g3
  have g1' : (s1.nodeWrite w1 (leafPath s.idsPerNode s.depth leafIdx) b).2.2.store.2
      = w1.store.2 ++ new := g1
  refine ⟨?_, g3⟩
  intro hno
  rw [g1', List.drop_left] at hno
  obtain ⟨r0, r2⟩ := g2 hno
  have r1 : (s1.nodeWrite w1 (leafPath s.idsPerNode s.depth leafIdx) b).1 = .ok () := by
    simp only [ShortenBlock.nodeWrite, r0]
    split
    · next h _ => exact absurd h hp
    · rfl
  have r3 : (s1.nodeWrite w1 (leafPath s.idsPerNode s.depth leafIdx) b).2.2.store.2
      = w1.store.2 ++
        climbCalls (s1.nodeWrite w1 (leafPath s.idsPerNode s.depth leafIdx) b).2.1.tree
          (leafPath s.idsPerNode s.depth leafIdx) b := by
    rw [g1', r2]; rfl
  refine ⟨r1, r3, ?_⟩
  rw [r3, List.getLast?_append, climbCalls_getLast _ _ _ hp]
  rfl

/-- C5 on the volume of the scenarios: propagation from leaf 4 of the fresh volume. -/
theorem nodeWrite_propagates_to_root_witness :
    (((demoLoggedBlock true).getLeaf demoLoggedWorld 4).2.1.nodeWrite
        ((demoLoggedBlock true).getLeaf demoLoggedWorld 4).2.2 (leafPath 3 2 4) [7, 7, 7]).1
      = .ok ()
    ∧ (((demoLoggedBlock true).getLeaf demoLoggedWorld 4).2.1.nodeWrite
        ((demoLoggedBlock true).getLeaf demoLoggedWorld 4).2.2 (leafPath 3 2 4)
          [7, 7, 7]).2.2.store.2
      = [] ++ climbCalls
          (((demoLoggedBlock true).getLeaf demoLoggedWorld 4).2.1.nodeWrite
            ((demoLoggedBlock true).getLeaf demoLoggedWorld 4).2.2 (leafPath 3 2 4)
              [7, 7, 7]).2.1.tree (leafPath 3 2 4) [7, 7, 7] :=
  have h := (nodeWrite_propagates_to_root (memDriver 8 2 true) (demoLoggedBlock true)
    demoLoggedWorld 4 [7, 7, 7] [] _ _ rfl (by decide) rfl).1 (by
      intro data e hm
      change Call.write data (Except.error e) ∈
        [Call.write [7, 7, 7] (.ok [97, 97]), Call.write [44, 97, 97, 44] (.ok [97, 98]),
          Call.write [44, 97, 98, 44] (.ok [97, 99])] at hm
      simp at hm)
  ⟨h.1, h.2.1⟩

/-- The payload limit on trees grown from a fresh mount.  Let the block have
`idsPerNode = (NodeSize + 1) / (IdSize + 1) ≥ 1` and run over a
shortener that keeps its size limits (`SizeContract`: identifiers of at most `IdSize` bytes,
stored payloads of at most `NodeSize` bytes), observed through the record of its calls, on a
tree whose identifiers have at most `IdSize` bytes and whose named interior nodes have their
children in memory, with cached slices of at most `NodeSize` bytes.  Then every byte string
that `Write(offset, data)` passes to the shortener's `Write` has at most `NodeSize` bytes.
The two kinds of payload: the new leaf bytes have at most `NodeSize` bytes, exactly
`NodeSize` when the existing leaf bytes are `NodeSize` long; the comma-join of `idsPerNode`
identifiers has at most `idsPerNode * (IdSize + 1) - 1 ≤ NodeSize` bytes. -/
theorem Write_payloads_le_NodeSize {σ : Type} (D : Driver σ) (P : σ → Prop)
    (s : ShortenBlock (σ × List Call)) (w : World (σ × List Call)) (offset : Nat) (data : Bytes)
    (hS : s.shortener = D.logged) (hk : 1 ≤ s.idsPerNode)
    (hkdef : s.idsPerNode = (D.NodeSize + 1) / (D.IdSize + 1))
    (hC : SizeContract D P) (hinv : PayloadInv D P s w) :
    WritesBounded D.NodeSize (s.Write w offset data).2.2.store.2
      ∧ (∀ (leafData : Bytes) (a e : Nat), leafData.length ≤ D.NodeSize → a ≤ e →
          e ≤ D.NodeSize →
          (composeLeaf leafData data a e).length ≤ D.NodeSize
            ∧ (leafData.length = D.NodeSize → e - a ≤ data.length →
                (composeLeaf leafData data a e).length = D.NodeSize))
      ∧ (∀ ids : List Bytes, ids.length = s.idsPerNode → (∀ x ∈ ids, x.length ≤ D.IdSize) →
          (stringsJoin ids).length ≤ s.idsPerNode * (D.IdSize + 1) - 1
            ∧ s.idsPerNode * (D.IdSize + 1) - 1 ≤ D.NodeSize) := by
  have hkI : s.idsPerNode * (D.IdSize + 1) ≤ D.NodeSize + 1 := by
    rw [hkdef]; exact Nat.div_mul_le_self _ _
  refine ⟨?_, ?_, ?_⟩
  · unfold ShortenBlock.Write
    split
    · exact hinv.2.2.1
    · next hN =>
      have hN' : 0 < D.NodeSize := by
        have : s.shortener.NodeSize = D.NodeSize := by rw [hS]; rfl
        omega
      exact (writeLoop_bounded D P _ _ _ _ hN' hC _ s w data 0 hS hk hkI hinv).2.2.1
  · intro leafData a e hL hae he
    exact ⟨composeLeaf_length_le leafData data a e _ hL he hae,
      fun hL' hd => composeLeaf_length_eq leafData data a e _ hL' he hae hd⟩
  · intro ids hlen hall
    have := stringsJoin_length_le D.IdSize ids hall
    rw [hlen] at this
    exact ⟨this, by omega⟩

theorem memId_length (idSize n : Nat) : (memId idSize n).length = idSize := by
  induction idSize generalizing n with
  | zero => rfl
  | succ k ih => simp [memId, ih]

theorem memDriver_sizeContract (nodeSize idSize : Nat) (dedup : Bool) :
    SizeContract (memDriver nodeSize idSize dedup) (memStoreOK nodeSize) where
  read_keeps := by
    intro st id hP
    simp only [memDriver]
    cases st[memDecode id]? <;> exact hP
  write_keeps := by
    intro st d hP hd
    have hadd : memStoreOK nodeSize (st ++ [d]) := by
      intro x hx
      rcases List.mem_append.1 hx with h | h
      · exact hP x h
      · rw [List.mem_singleton.1 h]; exact hd
    simp only [memDriver]
    split
    · split <;> exact hP
    · split
      · exact hadd
      · exact hP
  id_le := by
    intro st d id _ _ h
    simp only [memDriver] at h
    split at h
    · split at h
      · simp only [Except.ok.injEq] at h
        rw [← h, memId_length]
        exact Nat.le_refl _
      · simp at h
    · split at h
      · simp only [Except.ok.injEq] at h
        rw [← h, memId_length]
        exact Nat.le_refl _
      · simp at h
  read_le := by
    intro st id b hP h
    simp only [memDriver] at h
    cases hg : st[memDecode id]? with
    | none => rw [hg] at h; simp at h
    | some d =>
      rw [hg] at h
      simp only [Except.ok.injEq] at h
      rw [← h]
      obtain ⟨h1, h2⟩ := List.getElem?_eq_some_iff.1 hg
      rw [← h2]
      exact hP _ (List.getElem_mem h1)

/-- The payload limit on the fresh volume of the scenarios: every payload that
`Write(6, "XYZW")` hands to the in-memory shortener has at most 8 bytes. -/
theorem Write_payloads_le_NodeSize_witness :
    WritesBounded 8
      ((demoLoggedBlock true).Write demoLoggedWorld 6 [88, 89, 90, 87]).2.2.store.2 :=
  (Write_payloads_le_NodeSize (memDriver 8 2 true) (memStoreOK 8) (demoLoggedBlock true)
    demoLoggedWorld 6 [88, 89, 90, 87] rfl (by decide) (by decide)
    (memDriver_sizeContract 8 2 true)
    ⟨bounded_fresh _ _ _, fun _ h => by simp [demoLoggedWorld] at h,
      fun _ _ h => by simp [demoLoggedWorld] at h,
      fun _ h => by simp [demoLoggedWorld] at h⟩).1

/-- C6: `Write` passes the shortener a payload of more than `NODE_SIZE` bytes.  On the
volume of the scenarios (`NODE_SIZE = 8`, `ID_SIZE = 2`, `DEPTH = 2`, `IDS_PER_NODE = 3`)
over the content-addressed in-memory shortener, `Write(24, bytes 1..17)` and
`Write(0, "aa,ad,ag!")` leave leaf 0 and interior node 1 with the same identifier `ah`.
After a restart (a block created with the saved root identifier, empty cache)
`Write(0, ",,,,,,,")` composes the new bytes of leaf 0 in place in the slice cached under
`ah`, which then holds `",,,,,,,g"`.  Every identifier has two bytes and every stored payload
at most 8.  `Write(24, "Z")` returns `(1, nil)`; it hydrates node 1 from the cached slice to
eight children and, after the leaf's bytes, writes the ten bytes `"ar,,,,,,,g"` for node 1. -/
theorem Write_passes_payload_longer_than_NodeSize :
    ∃ u, demoLoggedRestarted
          [(24, [1, 2, 3, 4, 5, 6, 7, 8, 9, 10, 11, 12, 13, 14, 15, 16, 17]),
            (0, [97, 97, 44, 97, 100, 44, 97, 103, 33])]
          [(0, [44, 44, 44, 44, 44, 44, 44])] = some u
      ∧ u.1.shortener.NodeSize = 8 ∧ u.1.shortener.IdSize = 2 ∧ u.1.idsPerNode = 3
      ∧ (∀ d ∈ u.2.store.1, d.length ≤ 8)
      ∧ cacheGet u.2.readCache [97, 104] = some [44, 44, 44, 44, 44, 44, 44, 103]
      ∧ (u.1.Write u.2 24 [90]).1 = .ok 1
      ∧ (u.1.Write u.2 24 [90]).2.2.store.2.drop u.2.store.2.length
          = [Call.write [90, 0, 0, 0, 0, 0, 0, 0] (.ok [97, 114]),
              Call.write [97, 114, 44, 44, 44, 44, 44, 44, 44, 103] (.ok [97, 115]),
              Call.write [97, 112, 44, 97, 115, 44] (.ok [97, 116])]
      ∧ ¬ WritesBounded 8 (u.1.Write u.2 24 [90]).2.2.store.2 := by
  refine ⟨_, rfl, rfl, rfl, rfl, by decide, by decide, by decide, by rfl, ?_⟩
  intro h
  have hm : Call.write [97, 114, 44, 44, 44, 44, 44, 44, 44, 103] (.ok [97, 115])
      ∈ List.drop 21 ((runWrites [(0, [44, 44, 44, 44, 44, 44, 44]), (24, [90])]
          ((NewShortenBlock (memDriver 8 2 true).logged
            { RootID := [97, 110], Depth := 2 }).getD (demoLoggedBlock true))
          (runWrites
            [(24, [1, 2, 3, 4, 5, 6, 7, 8, 9, 10, 11, 12, 13, 14, 15, 16, 17]),
              (0, [97, 97, 44, 97, 100, 44, 97, 103, 33])]
            (demoLoggedBlock true) demoLoggedWorld).2.expired).2.store.2) := by
    have e : List.drop 21 ((runWrites [(0, [44, 44, 44, 44, 44, 44, 44]), (24, [90])]
          ((NewShortenBlock (memDriver 8 2 true).logged
            { RootID := [97, 110], Depth := 2 }).getD (demoLoggedBlock true))
          (runWrites
            [(24, [1, 2, 3, 4, 5, 6, 7, 8, 9, 10, 11, 12, 13, 14, 15, 16, 17]),
              (0, [97, 97, 44, 97, 100, 44, 97, 103, 33])]
            (demoLoggedBlock true) demoLoggedWorld).2.expired).2.store.2)
        = [Call.write [90, 0, 0, 0, 0, 0, 0, 0] (.ok [97, 114]),
            Call.write [97, 114, 44, 44, 44, 44, 44, 44, 44, 103] (.ok [97, 115]),
            Call.write [97, 112, 44, 97, 115, 44] (.ok [97, 116])] := by rfl
    rw [e]
    simp
  exact absurd (h _ _ (List.mem_of_mem_drop hm)) (by decide)

/-- C1: a write that ends on a node boundary does not reach its last leaf.  On the fresh
volume of the scenarios (`NODE_SIZE = 8`, `ID_SIZE = 2`, `DEPTH = 2`), `Write(0, "ABCDEFGH")`
returns `(0, nil)` and the following `Read(8, 0)` returns eight zero bytes (scenario S2);
`Write(0, 72 bytes of 0xFF)` returns `(64, nil)` and the following `Read(72, 0)` returns 64
bytes `0xFF` and eight zero bytes (scenario S5). -/
theorem Write_ending_on_node_boundary_skips_last_leaf :
    NewShortenBlock (memDriver 8 2 true) { RootID := [], Depth := 2 } = some (demoBlock true)
      ∧ ((demoBlock true).Write demoWorld 0 [65, 66, 67, 68, 69, 70, 71, 72]).1 = .ok 0
      ∧ ((runWrites [(0, [65, 66, 67, 68, 69, 70, 71, 72])] (demoBlock true) demoWorld).1.Read
          (runWrites [(0, [65, 66, 67, 68, 69, 70, 71, 72])] (demoBlock true) demoWorld).2 8 0).1
        = .ok [0, 0, 0, 0, 0, 0, 0, 0]
      ∧ ((demoBlock true).Write demoWorld 0 (List.replicate 72 255)).1 = .ok 64
      ∧ ((runWrites [(0, List.replicate 72 255)] (demoBlock true) demoWorld).1.Read
          (runWrites [(0, List.replicate 72 255)] (demoBlock true) demoWorld).2 72 0).1
        = .ok (List.replicate 64 255 ++ List.replicate 8 0) :=
  ⟨by rfl, by decide, by decide, by decide, by decide⟩

/-- C10: read-after-write fails through the read cache.  On the volume of the scenarios over
the content-addressed in-memory shortener, after `Write(0, "AB")` and `Write(0, "CD")` on the
fresh volume, `Write(0, "AB")` returns `(2, nil)` and the following `Read(2, 0)` returns
`"CD"`.  The leaf then has the identifier `aa`, under which the shortener holds
`"AB"` + zeros, while the cache entry of `aa` holds `"CD"` + zeros: the second write
composed its leaf bytes in place in the slice cached under `aa`.  (Scenario S3,
`Write(6, "XYZW")` on the fresh volume and `Read(12, 0)`, gives the expected bytes.) -/
theorem read_after_write_returns_overwritten_cache_entry :
    NewShortenBlock (memDriver 8 2 true) { RootID := [], Depth := 2 } = some (demoBlock true)
      ∧ ((runWrites [(6, [88, 89, 90, 87])] (demoBlock true) demoWorld).1.Read
          (runWrites [(6, [88, 89, 90, 87])] (demoBlock true) demoWorld).2 12 0).1
        = .ok [0, 0, 0, 0, 0, 0, 88, 89, 90, 87, 0, 0]
      ∧ ((runWrites [(0, [65, 66]), (0, [67, 68])] (demoBlock true) demoWorld).1.Write
        (runWrites [(0, [65, 66]), (0, [67, 68])] (demoBlock true) demoWorld).2 0 [65, 66]).1
        = .ok 2
      ∧ ((runWrites [(0, [65, 66]), (0, [67, 68]), (0, [65, 66])] (demoBlock true) demoWorld).1.Read
          (runWrites [(0, [65, 66]), (0, [67, 68]), (0, [65, 66])] (demoBlock true) demoWorld).2
          2 0).1 = .ok [67, 68]
      ∧ ((runWrites [(0, [65, 66]), (0, [67, 68]), (0, [65, 66])] (demoBlock true)
          demoWorld).1.getLeaf
          (runWrites [(0, [65, 66]), (0, [67, 68]), (0, [65, 66])] (demoBlock true) demoWorld).2
          0).1 = .ok [97, 97]
      ∧ ((memDriver 8 2 true).Read
          (runWrites [(0, [65, 66]), (0, [67, 68]), (0, [65, 66])] (demoBlock true)
            demoWorld).2.store [97, 97]).1 = .ok [65, 66, 0, 0, 0, 0, 0, 0]
      ∧ cacheGet
          (runWrites [(0, [65, 66]), (0, [67, 68]), (0, [65, 66])] (demoBlock true)
            demoWorld).2.readCache [97, 97] = some [67, 68, 0, 0, 0, 0, 0, 0] :=
  ⟨by rfl, by decide, by decide, by decide, by decide, by rfl, by decide⟩

/-- C4: a write changes stored bytes outside its window.  On the volume of the scenarios
over the content-addressed in-memory shortener, after `Write(0, "AB")` and `Write(8, "AB")`
leaves 0 and 1 share one identifier; with the cache expired, `Read(16, 0)` returns
`"AB"`, six zeros, `"AB"`, six zeros.  `Write(6, "XYZW")`, again on an expired cache,
returns `(4, nil)`; its window is `[6, 10)`.  With the cache expired once more `Read(16, 0)`
returns `"AB"`, four zeros, `"XYZW"`, four zeros, `"XY"`: bytes 14 and 15 have changed.  The
first leaf's bytes were composed in place in the slice cached under the shared identifier,
and the second leaf was then read from that cache entry. -/
theorem Write_changes_bytes_outside_window :
    NewShortenBlock (memDriver 8 2 true) { RootID := [], Depth := 2 } = some (demoBlock true)
      ∧ ((runWrites [(0, [65, 66]), (8, [65, 66])] (demoBlock true) demoWorld).1.Read
        (runWrites [(0, [65, 66]), (8, [65, 66])] (demoBlock true) demoWorld).2.expired 16 0).1
        = .ok [65, 66, 0, 0, 0, 0, 0, 0, 65, 66, 0, 0, 0, 0, 0, 0]
      ∧ ((runWrites [(0, [65, 66]), (8, [65, 66])] (demoBlock true) demoWorld).1.Write
          (runWrites [(0, [65, 66]), (8, [65, 66])] (demoBlock true) demoWorld).2.expired
          6 [88, 89, 90, 87]).1 = .ok 4
      ∧ (((runWrites [(0, [65, 66]), (8, [65, 66])] (demoBlock true) demoWorld).1.Write
          (runWrites [(0, [65, 66]), (8, [65, 66])] (demoBlock true) demoWorld).2.expired
          6 [88, 89, 90, 87]).2.1.Read
          ((runWrites [(0, [65, 66]), (8, [65, 66])] (demoBlock true) demoWorld).1.Write
            (runWrites [(0, [65, 66]), (8, [65, 66])] (demoBlock true) demoWorld).2.expired
            6 [88, 89, 90, 87]).2.2.expired 16 0).1
        = .ok [65, 66, 0, 0, 0, 0, 88, 89, 90, 87, 0, 0, 0, 0, 88, 89] :=
  ⟨by rfl, by decide, by decide, by decide⟩

/-! ## Writes that end on a node boundary -/

/-- The slice of `Write` for leaf `j` when the range ends on a node boundary and holds at
least one whole node: the last leaf gets the empty slice `[0, 0)`. -/
theorem write_sub_arith_aligned (N o size j : Nat) (hN : 0 < N) (hE : (o + size) % N = 0)
    (hs : N ≤ size) (h1 : o / N ≤ j) (h2 : j < exactCeil (o + size) N) :
    (if j = o / N then o % N else 0)
        ≤ (if j = exactCeil (o + size) N - 1 then (o + size) % N else N)
      ∧ (if j = exactCeil (o + size) N - 1 then (o + size) % N else N) ≤ N
      ∧ max o (min (j * N) (o + size - N))
          + ((if j = exactCeil (o + size) N - 1 then (o + size) % N else N)
            - (if j = o / N then o % N else 0))
        = max o (min ((j + 1) * N) (o + size - N)) := by
  have hEp : 0 < o + size := by omega
  obtain ⟨a1, a2, a3⟩ := div_mul_le_and_lt o N hN
  have b1 := exactCeil_mul_ge (o + size) N hN
  have b2 := exactCeil_pred_mul_lt (o + size) N hN hEp
  have b3 := exactCeil_pos (o + size) N hN hEp
  have b4 : (exactCeil (o + size) N - 1) * N + N = exactCeil (o + size) N * N := by
    have : exactCeil (o + size) N = (exactCeil (o + size) N - 1) + 1 := by omega
    conv_rhs => rw [this, Nat.add_mul, Nat.one_mul]
  have d1 : o + size = (exactCeil (o + size) N - 1) * N + N := by
    have e1 := Nat.div_add_mod (o + size) N
    rw [hE, Nat.add_zero, Nat.mul_comm] at e1
    have e2 : (exactCeil (o + size) N - 1) < (o + size) / N := by
      by_contra hc
      have := Nat.mul_le_mul_right N (Nat.le_of_not_lt hc)
      omega
    have e3 := succ_mul_le_of_lt _ _ N e2
    omega
  have c1 : (j + 1) * N = j * N + N := by rw [Nat.add_mul, Nat.one_mul]
  rw [c1, hE]
  by_cases g1 : j = o / N
  · by_cases g2 : j = exactCeil (o + size) N - 1
    · rw [if_pos g1, if_pos g2, a3, g1]
      rw [g1] at g2
      rw [← g2] at d1
      omega
    · rw [if_pos g1, if_neg g2, a3, g1]
      have c3 := succ_mul_le_of_lt (o / N) (exactCeil (o + size) N - 1) N (by omega)
      omega
  · have c2 := succ_mul_le_of_lt (o / N) j N (by omega)
    by_cases g2 : j = exactCeil (o + size) N - 1
    · rw [if_neg g1, if_pos g2, g2]
      rw [g2] at c2
      omega
    · rw [if_neg g1, if_neg g2]
      have c3 := succ_mul_le_of_lt j (exactCeil (o + size) N - 1) N (by omega)
      omega

/-- A range of fewer than `N` bytes that ends on a node boundary lies in one leaf and starts
inside it. -/
theorem write_short_aligned (N o size : Nat) (hN : 0 < N) (hE : (o + size) % N = 0)
    (h0 : 0 < size) (hs : size < N) :
    exactCeil (o + size) N = o / N + 1 ∧ 0 < o % N := by
  have hEp : 0 < o + size := by omega
  obtain ⟨a1, a2, a3⟩ := div_mul_le_and_lt o N hN
  have b2 := exactCeil_pred_mul_lt (o + size) N hN hEp
  have b3 := exactCeil_pos (o + size) N hN hEp
  have b4 : (exactCeil (o + size) N - 1) * N + N = exactCeil (o + size) N * N := by
    have : exactCeil (o + size) N = (exactCeil (o + size) N - 1) + 1 := by omega
    conv_rhs => rw [this, Nat.add_mul, Nat.one_mul]
  have d1 : o + size = (exactCeil (o + size) N - 1) * N + N := by
    have b1 := exactCeil_mul_ge (o + size) N hN
    have e1 := Nat.div_add_mod (o + size) N
    rw [hE, Nat.add_zero, Nat.mul_comm] at e1
    have e2 : (exactCeil (o + size) N - 1) < (o + size) / N := by
      by_contra hc
      have := Nat.mul_le_mul_right N (Nat.le_of_not_lt hc)
      omega
    have e3 := succ_mul_le_of_lt _ _ N e2
    omega
  have hq : exactCeil (o + size) N - 1 = o / N := by
    rcases Nat.lt_trichotomy (exactCeil (o + size) N - 1) (o / N) with h | h | h
    · have := succ_mul_le_of_lt _ _ N h
      omega
    · exact h
    · have := succ_mul_le_of_lt _ _ N h
      omega
  rw [hq] at d1
  constructor
  · omega
  · omega

/-- The loop of `Write` on a volume with full leaves, for any account `pos` of the bytes
consumed before each leaf that the slices of the leaves add up to: every leaf of the range
is visited and the sum of the slice lengths is returned. -/
theorem writeLoop_pos {σ : Type} (size offset st en N T : Nat) (pos : Nat → Nat)
    (hstep : ∀ i, st ≤ i → i < en →
      (if i = st then offset % N else 0) ≤ (if i = en - 1 then (offset + size) % N else N)
      ∧ (if i = en - 1 then (offset + size) % N else N) ≤ N
      ∧ pos i + ((if i = en - 1 then (offset + size) % N else N)
          - (if i = st then offset % N else 0)) = pos (i + 1))
    (hT : ∀ i, st ≤ i → i ≤ en → pos i ≤ T) :
    ∀ (n j : Nat) (s : ShortenBlock σ) (w : World σ) (data : Bytes) (bw : Nat),
      s.shortener.NodeSize = N → Faithful s.shortener → 1 ≤ s.idsPerNode → 0 < s.depth →
      FullInv s w → st ≤ j → j + n = en → bw + offset = pos j → data.length + pos j = T →
      ∃ t w1, ShortenBlock.writeLoop size offset st en (List.range' j n) s w data bw
          = (.ok (pos en - offset), { s with tree := t }, w1)
        ∧ FullInv { s with tree := t } w1 := by
  intro n
  induction n with
  | zero =>
    intro j s w data bw _ _ _ _ hinv _ hj hm _
    have hj' : j = en := by omega
    subst hj'
    refine ⟨s.tree, w, ?_, hinv⟩
    have : bw = pos j - offset := by omega
    simp [ShortenBlock.writeLoop, this]
  | succ n ih =>
    intro j s w data bw hNs hD hk hd hinv hj1 hj2 hm hdl
    obtain ⟨a1, a2, a3⟩ := hstep j hj1 (by omega)
    have hpos := hT (j + 1) (by omega) (by omega)
    obtain ⟨t, w1, hr, hinv1, _⟩ :=
      writeLeaf_full s w size offset st en j data bw hD hk hd
        hinv (by rw [hNs]; exact a1) (by rw [hNs]; exact a2) (by rw [hNs]; omega)
    rw [List.range'_succ]
    simp only [ShortenBlock.writeLoop, hr]
    rw [hNs]
    obtain ⟨t2, w2, hr2, hinv2⟩ := ih (j + 1) { s with tree := t } w1
      (data.drop ((if j = en - 1 then (offset + size) % N else N)
        - (if j = st then offset % N else 0)))
      (bw + ((if j = en - 1 then (offset + size) % N else N)
        - (if j = st then offset % N else 0)))
      hNs hD hk hd hinv1 (by omega) (by omega) (by omega)
      (by rw [List.length_drop]; omega)
    exact ⟨t2, w2, hr2, hinv2⟩

/-- One iteration of the loop of `Write` whose slice start lies after its slice end:
`data[:subWriteEnd-subWriteStart]` has a negative length and the call panics. -/
theorem writeLeaf_negative_slice {σ : Type} (s : ShortenBlock σ) (w : World σ)
    (size offset st en j : Nat) (data : Bytes) (n : Nat) (hk : 1 ≤ s.idsPerNode)
    (hf : Full (lookup s.shortener w) s.idsPerNode s.shortener.NodeSize s.depth s.tree)
    (hlt : (if j = en - 1 then (offset + size) % s.shortener.NodeSize else s.shortener.NodeSize)
      < (if j = st then offset % s.shortener.NodeSize else 0))
    (haN : (if j = st then offset % s.shortener.NodeSize else 0) ≤ s.shortener.NodeSize) :
    (s.writeLeaf w size offset st en j data n).1 = .done .panic := by
  obtain ⟨leafId, t, hg, hleaf, _, _⟩ := getLeaf_full s w j hk hf
  have key : ∃ leafData w2,
      (if leafId ≠ [] then cachedNodeRead s.shortener w leafId
        else (.ok (List.replicate s.shortener.NodeSize 0), w)) = (.ok leafData, w2)
      ∧ leafData.length = s.shortener.NodeSize := by
    by_cases hid : leafId = []
    · exact ⟨List.replicate s.shortener.NodeSize 0, w, by simp [hid], by simp⟩
    · rcases hleaf with h | ⟨b, hb, hbl⟩
      · exact absurd h hid
      · have e1 := cachedNodeRead_fst s.shortener w leafId
        rw [hb] at e1
        rcases hc : cachedNodeRead s.shortener w leafId with ⟨r, w2⟩
        rw [hc] at e1
        simp only at e1
        subst e1
        exact ⟨b, w2, by simp [hid], hbl⟩
  obtain ⟨leafData, w2, hread, hlen⟩ := key
  unfold ShortenBlock.writeLeaf
  rw [hg]
  simp only [hread]
  generalize (if j = st then offset % s.shortener.NodeSize else 0) = a at hlt haN ⊢
  generalize (if j = en - 1 then (offset + size) % s.shortener.NodeSize
      else s.shortener.NodeSize) = e at hlt ⊢
  have h1 : ¬ (leafData.length < a) := by omega
  have h2 : e < a ∨ data.length < e - a := Or.inl hlt
  rw [if_neg h1, if_pos h2]

/-- `Write` with a range that does not end on a node boundary, on a volume with full leaves:
it returns `(len(data), nil)` and leaves a volume with full leaves. -/
theorem Write_unaligned_state {σ : Type} (s : ShortenBlock σ) (w : World σ) (offset : Nat)
    (data : Bytes) (hD : Faithful s.shortener) (hN : 0 < s.shortener.NodeSize)
    (hk : 1 ≤ s.idsPerNode) (hd : 0 < s.depth) (hinv : FullInv s w)
    (hE : (offset + data.length) % s.shortener.NodeSize ≠ 0)
    (hb : offset + data.length < 2 ^ 53) :
    ∃ t w1, s.Write w offset data = (.ok data.length, { s with tree := t }, w1)
      ∧ FullInv { s with tree := t } w1 := by
  have hN0 : ¬ (s.shortener.NodeSize = 0) := by omega
  simp only [ShortenBlock.Write, hN0, if_false]
  rw [ceilDiv_eq _ _ hb hN]
  have h2 := exactCeil_mul_ge (offset + data.length) s.shortener.NodeSize hN
  have h3 := (div_mul_le_and_lt offset s.shortener.NodeSize hN).1
  have hle : offset / s.shortener.NodeSize
      ≤ exactCeil (offset + data.length) s.shortener.NodeSize := by
    by_contra hc
    have h4 := succ_mul_le_of_lt _ _ s.shortener.NodeSize (Nat.lt_of_not_le hc)
    omega
  obtain ⟨t, w1, hr, hinv1⟩ := writeLoop_pos data.length offset (offset / s.shortener.NodeSize)
    (exactCeil (offset + data.length) s.shortener.NodeSize) s.shortener.NodeSize
    (offset + data.length)
    (fun j => max offset (min (j * s.shortener.NodeSize) (offset + data.length)))
    (fun i hi1 hi2 => by
      have := read_sub_arith s.shortener.NodeSize offset data.length i hN hi1 hi2
      simp only [if_neg hE] at this
      exact this)
    (fun i _ _ => by simp only; omega)
    (exactCeil (offset + data.length) s.shortener.NodeSize - offset / s.shortener.NodeSize)
    (offset / s.shortener.NodeSize) s w data 0 rfl hD hk hd hinv (Nat.le_refl _) (by omega)
    (by simp only; rw [range_start_inv _ _ _ hN]; omega)
    (by simp only; rw [range_start_inv _ _ _ hN]; omega)
  refine ⟨t, w1, ?_, hinv1⟩
  rw [hr]
  simp only [range_end_inv _ _ _ hN]
  congr 2
  omega

/-- `Write` with a range of at least `NodeSize` bytes that ends on a node boundary, on a
volume with full leaves: the last leaf of the range receives nothing and the call returns
`(len(data) - NodeSize, nil)`. -/
theorem Write_aligned_long {σ : Type} (s : ShortenBlock σ) (w : World σ) (offset : Nat)
    (data : Bytes) (hD : Faithful s.shortener) (hN : 0 < s.shortener.NodeSize)
    (hk : 1 ≤ s.idsPerNode) (hd : 0 < s.depth) (hinv : FullInv s w)
    (hE : (offset + data.length) % s.shortener.NodeSize = 0)
    (hs : s.shortener.NodeSize ≤ data.length)
    (hb : offset + data.length < 2 ^ 53) :
    ∃ t w1, s.Write w offset data
        = (.ok (data.length - s.shortener.NodeSize), { s with tree := t }, w1)
      ∧ FullInv { s with tree := t } w1 := by
  have hN0 : ¬ (s.shortener.NodeSize = 0) := by omega
  simp only [ShortenBlock.Write, hN0, if_false]
  rw [ceilDiv_eq _ _ hb hN]
  have h2 := exactCeil_mul_ge (offset + data.length) s.shortener.NodeSize hN
  have h3 := (div_mul_le_and_lt offset s.shortener.NodeSize hN).1
  have hle : offset / s.shortener.NodeSize
      ≤ exactCeil (offset + data.length) s.shortener.NodeSize := by
    by_contra hc
    have h4 := succ_mul_le_of_lt _ _ s.shortener.NodeSize (Nat.lt_of_not_le hc)
    omega
  obtain ⟨t, w1, hr, hinv1⟩ := writeLoop_pos data.length offset (offset / s.shortener.NodeSize)
    (exactCeil (offset + data.length) s.shortener.NodeSize) s.shortener.NodeSize
    (offset + data.length)
    (fun j => max offset (min (j * s.shortener.NodeSize)
      (offset + data.length - s.shortener.NodeSize)))
    (fun i hi1 hi2 =>
      write_sub_arith_aligned s.shortener.NodeSize offset data.length i hN hE hs hi1 hi2)
    (fun i _ _ => by simp only; omega)
    (exactCeil (offset + data.length) s.shortener.NodeSize - offset / s.shortener.NodeSize)
    (offset / s.shortener.NodeSize) s w data 0 rfl hD hk hd hinv (Nat.le_refl _) (by omega)
    (by simp only; omega)
    (by simp only; omega)
  refine ⟨t, w1, ?_, hinv1⟩
  rw [hr]
  congr 2
  omega

/-- `Write` with a non-empty range of fewer than `NodeSize` bytes that ends on a node
boundary, on a volume with full leaves: the slice of the only leaf starts after its end and
the call panics. -/
theorem Write_aligned_short {σ : Type} (s : ShortenBlock σ) (w : World σ) (offset : Nat)
    (data : Bytes) (hN : 0 < s.shortener.NodeSize) (hk : 1 ≤ s.idsPerNode)
    (hinv : FullInv s w)
    (hE : (offset + data.length) % s.shortener.NodeSize = 0)
    (h0 : 0 < data.length) (hs : data.length < s.shortener.NodeSize)
    (hb : offset + data.length < 2 ^ 53) :
    (s.Write w offset data).1 = .panic := by
  have hN0 : ¬ (s.shortener.NodeSize = 0) := by omega
  obtain ⟨hc, hm⟩ := write_short_aligned s.shortener.NodeSize offset data.length hN hE h0 hs
  have hml := Nat.mod_lt offset hN
  have hp := writeLeaf_negative_slice s w data.length offset (offset / s.shortener.NodeSize)
    (offset / s.shortener.NodeSize + 1) (offset / s.shortener.NodeSize) data 0 hk hinv.1
    (by simp only [Nat.add_sub_cancel, if_true, hE]; exact hm)
    (by simp only [if_true]; omega)
  simp only [ShortenBlock.Write, hN0, if_false]
  rw [ceilDiv_eq _ _ hb hN]
  simp only [hc, Nat.add_sub_cancel_left]
  rcases hw : s.writeLeaf w data.length offset (offset / s.shortener.NodeSize)
    (offset / s.shortener.NodeSize + 1) (offset / s.shortener.NodeSize) data 0 with ⟨r, s1, w1⟩
  rw [hw] at hp
  simp only at hp
  subst hp
  simp [List.range', ShortenBlock.writeLoop, hw]

/-- `Write` of no bytes at a node boundary visits no leaf. -/
theorem Write_empty_aligned {σ : Type} (s : ShortenBlock σ) (w : World σ) (offset : Nat)
    (hN : 0 < s.shortener.NodeSize) (hE : offset % s.shortener.NodeSize = 0)
    (hb : offset < 2 ^ 53) :
    s.Write w offset [] = (.ok 0, s, w) := by
  have hN0 : ¬ (s.shortener.NodeSize = 0) := by omega
  have h1 := Nat.div_add_mod offset s.shortener.NodeSize
  rw [hE, Nat.add_zero] at h1
  have hc : exactCeil (offset + 0) s.shortener.NodeSize = offset / s.shortener.NodeSize := by
    unfold exactCeil
    have h2 : offset + 0 + s.shortener.NodeSize - 1
        = (s.shortener.NodeSize - 1) + s.shortener.NodeSize * (offset / s.shortener.NodeSize) := by
      omega
    rw [h2, Nat.add_mul_div_left _ _ hN, Nat.div_eq_of_lt (by omega), Nat.zero_add]
  simp only [ShortenBlock.Write, hN0, if_false, List.length_nil]
  rw [ceilDiv_eq _ _ (by omega) hN]
  simp only [hc, Nat.sub_self]
  rfl

/-- A sequence of writes none of which ends on a node boundary or at `2 ^ 53` or beyond, from
a volume with full leaves: every one of them completes and the volume keeps full leaves. -/
theorem runWrites_full {σ : Type} : ∀ (l : List (Nat × Bytes)) (s : ShortenBlock σ)
    (w : World σ), Faithful s.shortener → 0 < s.shortener.NodeSize → 1 ≤ s.idsPerNode →
    0 < s.depth → FullInv s w →
    (∀ p ∈ l, (p.1 + p.2.length) % s.shortener.NodeSize ≠ 0) →
    (∀ p ∈ l, p.1 + p.2.length < 2 ^ 53) →
    ∃ t w1, runWrites l s w = ({ s with tree := t }, w1) ∧ FullInv { s with tree := t } w1 := by
  intro l
  induction l with
  | nil =>
    intro s w _ _ _ _ hinv _ _
    exact ⟨s.tree, w, rfl, hinv⟩
  | cons p rest ih =>
    intro s w hD hN hk hd hinv hl hlb
    obtain ⟨offset, data⟩ := p
    obtain ⟨t, w1, hr, hinv1⟩ := Write_unaligned_state s w offset data hD hN hk hd hinv
      (hl (offset, data) (List.mem_cons_self _ _)) (hlb (offset, data) (List.mem_cons_self _ _))
    obtain ⟨t2, w2, hr2, hinv2⟩ := ih { s with tree := t } w1 hD hN hk hd hinv1
      (fun p hp => hl p (List.mem_cons_of_mem _ hp))
      (fun p hp => hlb p (List.mem_cons_of_mem _ hp))
    refine ⟨t2, w2, ?_, hinv2⟩
    simp only [runWrites, hr]
    exact hr2

/-- C11: what `Write` returns on a volume whose named leaves read to `NodeSize` bytes and
whose named interior nodes have their children in memory, over a shortener that returns
what was written under an identifier, for a range that ends below `2 ^ 53` (where the
`float64` computation of `endLeafIdx` is exact).  When the range does not end on a node
boundary (or is empty) the call returns `(len(data), nil)`.  When a non-empty range ends on a node
boundary the call does not: with fewer than `NodeSize` bytes the only leaf has
`subWriteStart > 0 = subWriteEnd`, the slice `data[:subWriteEnd-subWriteStart]` has a
negative length and the call panics; with `NodeSize` bytes or more the last leaf receives
nothing and the call returns `(len(data) - NodeSize, nil)`. -/
theorem Write_on_node_boundary_panics_or_returns_short {σ : Type} (s : ShortenBlock σ)
    (w : World σ) (offset : Nat) (data : Bytes)
    (hD : Faithful s.shortener) (hN : 0 < s.shortener.NodeSize) (hk : 1 ≤ s.idsPerNode)
    (hd : 0 < s.depth) (hinv : FullInv s w) (hb : offset + data.length < 2 ^ 53) :
    (s.Write w offset data).1
      = if (offset + data.length) % s.shortener.NodeSize = 0 ∧ 0 < data.length then
          (if data.length < s.shortener.NodeSize then .panic
           else .ok (data.length - s.shortener.NodeSize))
        else .ok data.length := by
  by_cases hE : (offset + data.length) % s.shortener.NodeSize = 0
  · by_cases h0 : 0 < data.length
    · rw [if_pos ⟨hE, h0⟩]
      by_cases hs : data.length < s.shortener.NodeSize
      · rw [if_pos hs]
        exact Write_aligned_short s w offset data hN hk hinv hE h0 hs hb
      · rw [if_neg hs]
        obtain ⟨t, w1, hr, _⟩ := Write_aligned_long s w offset data hD hN hk hd hinv hE
          (by omega) hb
        rw [hr]
    · rw [if_neg (fun h => h0 h.2)]
      have hnil : data = [] := List.eq_nil_of_length_eq_zero (by omega)
      subst hnil
      rw [Write_empty_aligned s w offset hN (by simpa using hE) (by simpa using hb)]
      rfl
  · rw [if_neg (fun h => hE h.1)]
    obtain ⟨t, w1, hr, _⟩ := Write_unaligned_state s w offset data hD hN hk hd hinv hE hb
    rw [hr]

/-- C11 on the volume of the scenarios (`NODE_SIZE = 8`): `Write(7, [1])` panics, on the
fresh volume and on the volume on which `Write(6, "XYZW")` has been performed. -/
theorem Write_on_node_boundary_panics_or_returns_short_witness :
    ((demoBlock true).Write demoWorld 7 [1]).1 = .panic
      ∧ ((runWrites [(6, [88, 89, 90, 87])] (demoBlock true) demoWorld).1.Write
          (runWrites [(6, [88, 89, 90, 87])] (demoBlock true) demoWorld).2 7 [1]).1
        = .panic := by
  have hfresh : FullInv (demoBlock true) demoWorld :=
    ⟨full_fresh _ _ _ _, fun _ h => by simp [demoWorld] at h⟩
  refine ⟨(Write_on_node_boundary_panics_or_returns_short (demoBlock true) demoWorld 7 [1]
    (memDriver_faithful 8 2 true) (by decide) (by decide) (by decide) hfresh
    (by decide)).trans (by decide), ?_⟩
  obtain ⟨t, w1, hr, hinv⟩ := runWrites_full [(6, [88, 89, 90, 87])] (demoBlock true) demoWorld
    (memDriver_faithful 8 2 true) (by decide) (by decide) (by decide) hfresh
    (by simp [demoBlock, memDriver]) (by simp)
  rw [hr]
  exact (Write_on_node_boundary_panics_or_returns_short { demoBlock true with tree := t } w1
    7 [1] (memDriver_faithful 8 2 true) (by show 0 < 8; decide) (by show 1 ≤ 3; decide)
    (by show 0 < 2; decide) hinv (by decide)).trans (by simp [demoBlock, memDriver])

/-! ## Remounting -/

theorem stringsSplit_ne_nil : ∀ s : Bytes, stringsSplit s ≠ []
  | [] => by simp [stringsSplit]
  | b :: bs => by
    unfold stringsSplit
    split
    · simp
    · split <;> simp

/-- A string without a comma is one token. -/
theorem stringsSplit_of_no_comma : ∀ a : Bytes, (44 : UInt8) ∉ a → stringsSplit a = [a]
  | [], _ => rfl
  | b :: bs, h => by
    have hb : ¬ (b = 44) := fun e => h (by simp [e])
    have ih := stringsSplit_of_no_comma bs (fun e => h (List.mem_cons_of_mem _ e))
    rw [stringsSplit, if_neg hb, ih]

/-- The first comma ends the first token. -/
theorem stringsSplit_append_comma : ∀ (a rest : Bytes), (44 : UInt8) ∉ a →
    stringsSplit (a ++ 44 :: rest) = a :: stringsSplit rest
  | [], rest, _ => by simp [stringsSplit]
  | b :: bs, rest, h => by
    have hb : ¬ (b = 44) := fun e => h (by simp [e])
    have ih := stringsSplit_append_comma bs rest (fun e => h (List.mem_cons_of_mem _ e))
    rw [List.cons_append, stringsSplit, if_neg hb, ih]

/-- Comma-splitting the comma-join of identifiers without a comma gives the identifiers back,
in order, empty ones included. -/
theorem stringsSplit_stringsJoin : ∀ ids : List Bytes, ids ≠ [] →
    (∀ id ∈ ids, (44 : UInt8) ∉ id) → stringsSplit (stringsJoin ids) = ids
  | [], h, _ => absurd rfl h
  | [a], _, hc => by
    rw [stringsJoin]
    exact stringsSplit_of_no_comma a (hc a (by simp))
  | a :: b :: rest, _, hc => by
    rw [stringsJoin, stringsSplit_append_comma a _ (hc a (by simp)),
      stringsSplit_stringsJoin (b :: rest) (by simp)
        (fun id hid => hc id (List.mem_cons_of_mem _ hid))]

theorem mem_stringsJoin : ∀ (ids : List Bytes) (c : UInt8), c ∈ stringsJoin ids →
    c = 44 ∨ ∃ id ∈ ids, c ∈ id
  | [], c, h => by simp [stringsJoin] at h
  | [a], c, h => by
    rw [stringsJoin] at h
    exact Or.inr ⟨a, by simp, h⟩
  | a :: b :: rest, c, h => by
    rw [stringsJoin, List.mem_append, List.mem_cons] at h
    rcases h with h | h | h
    · exact Or.inr ⟨a, by simp, h⟩
    · exact Or.inl h
    · rcases mem_stringsJoin (b :: rest) c h with h1 | ⟨id, hid, hc⟩
      · exact Or.inl h1
      · exact Or.inr ⟨id, List.mem_cons_of_mem _ hid, hc⟩

/-- A string without a NUL byte is not changed by `strings.Trim(s, "\x00")`. -/
theorem stringsTrim_of_no_nul (s : Bytes) (h : (0 : UInt8) ∉ s) : stringsTrim s = s := by
  have key : ∀ l : Bytes, (0 : UInt8) ∉ l → l.dropWhile (fun b => decide (b = 0)) = l := by
    intro l hl
    cases l with
    | nil => rfl
    | cons b bs =>
      have hb : ¬ (b = 0) := fun e => hl (by simp [e])
      simp [List.dropWhile, hb]
  unfold stringsTrim
  rw [key s h, key s.reverse (by simpa using h), List.reverse_reverse]

/-- Hydration inverts propagation: the payload `nodeWrite` stores for an interior node, the
comma-join of its children's identifiers, is split by `getLeaf` into exactly these
identifiers, in order, empty ones included, when no identifier holds a comma or a NUL
byte. -/
theorem stringsSplit_stringsTrim_stringsJoin (ids : List Bytes) (hne : ids ≠ [])
    (hc : ∀ id ∈ ids, (44 : UInt8) ∉ id ∧ (0 : UInt8) ∉ id) :
    stringsSplit (stringsTrim (stringsJoin ids)) = ids := by
  rw [stringsTrim_of_no_nul, stringsSplit_stringsJoin ids hne (fun id hid => (hc id hid).1)]
  intro h0
  rcases mem_stringsJoin ids 0 h0 with h | ⟨id, hid, h⟩
  · exact absurd h (by decide)
  · exact (hc id hid).2 h

/-! ## Reading a remounted volume -/

theorem coherent_of_unwritten (L : Bytes → Except Err Bytes) (k d : Nat) (n : Node)
    (h : Unwritten k d n) : Coherent L k d n := by
  cases d with
  | zero => simp [Coherent]
  | succ d => exact Or.inl h

/-- A node that has its children in memory is not hydrated again, and a named node without
children gets the children its payload names. -/
theorem hydrate_coherent {σ : Type} (D : Driver σ) (hD : ReadStable D) (k d : Nat)
    (id : Bytes) (ch : List Node) (w : World σ) (hid : id ≠ [])
    (hc : Coherent (lookup D w) k (d + 1) (.mk id ch)) :
    ∃ (b : Bytes) (ch1 : List Node) (w1 : World σ),
      lookup D w id = .ok b
        ∧ hydrate D k (.mk id ch) w = (.ok (.mk id ch1), w1)
        ∧ ch1.map Node.id = stringsSplit (stringsTrim b)
        ∧ ch1.length = k
        ∧ (∀ c ∈ ch1, Coherent (lookup D w) k d c)
        ∧ lookup D w1 = lookup D w := by
  simp only [Coherent, Node.id, Node.children] at hc
  rcases hc with hu | ⟨_, b, hb, hbl, hch⟩
  · exact absurd (unwritten_id k (d + 1) _ hu) hid
  · rcases hch with ⟨h0, hall⟩ | ⟨hmap, hall⟩
    · subst h0
      have e1 := cachedNodeRead_fst D w id
      rw [hb] at e1
      rcases hr : cachedNodeRead D w id with ⟨r, w1⟩
      rw [hr] at e1
      simp only at e1
      subst e1
      refine ⟨b, (stringsSplit (stringsTrim b)).map (fun c => Node.mk c []), w1, hb, ?_, ?_,
        by simpa using hbl, ?_, ?_⟩
      · simp [hydrate, Node.id, Node.children, hid, hr]
      · rw [List.map_map]
        exact List.map_id _
      · intro c hcm
        obtain ⟨cid, hcid, rfl⟩ := List.mem_map.1 hcm
        exact hall cid hcid
      · have := lookup_cachedNodeRead D hD w id
        rw [hr] at this
        exact this
    · have hlen : ch.length = k := by rw [← hbl, ← hmap, List.length_map]
      have hk : 1 ≤ k := by
        rw [← hbl]
        exact Nat.pos_of_ne_zero (fun h => stringsSplit_ne_nil _ (List.eq_nil_of_length_eq_zero h))
      have hne : ch.length ≠ 0 := by omega
      exact ⟨b, ch, w, hb, by simp [hydrate, Node.children, hne], hmap, hlen, hall, rfl⟩

theorem coherent_set (L : Bytes → Except Err Bytes) (k d : Nat) (id : Bytes) (b : Bytes)
    (ch : List Node) (i : Nat) (c1 : Node) (hid : id ≠ []) (hb : L id = .ok b)
    (hmap : ch.map Node.id = stringsSplit (stringsTrim b)) (hlen : ch.length = k)
    (hall : ∀ c ∈ ch, Coherent L k d c) (hi : i < ch.length)
    (hc1 : Coherent L k d c1) (hid1 : c1.id = ch[i].id) :
    Coherent L k (d + 1) (.mk id (ch.set i c1)) := by
  simp only [Coherent, Node.id, Node.children]
  refine Or.inr ⟨hid, b, hb, by rw [← hmap, List.length_map, hlen], Or.inr ⟨?_, ?_⟩⟩
  · rw [← hmap]
    apply List.ext_getElem
    · simp
    · intro n h1 h2
      simp only [List.getElem_map, List.getElem_set]
      split
      · next h => subst h; exact hid1
      · rfl
  · intro c hc
    rcases List.mem_or_eq_of_mem_set hc with hc | hc
    · exact hall c hc
    · rw [hc]; exact hc1

/-- The descent of `getLeaf` in a coherent tree succeeds and keeps the tree coherent, the
root identifier and the answers of `cachedNodeRead`. -/
theorem descend_coherent {σ : Type} (D : Driver σ) (hD : ReadStable D) (k : Nat)
    (L : Bytes → Except Err Bytes) :
    ∀ (path : List Nat) (d : Nat) (node : Node) (w : World σ),
      path.length = d → (∀ i ∈ path, i < k) → lookup D w = L → Coherent L k d node →
      (∃ leafId, (descend D k path node w).1 = .ok leafId)
        ∧ Coherent L k d (descend D k path node w).2.1
        ∧ (descend D k path node w).2.1.id = node.id
        ∧ lookup D (descend D k path node w).2.2 = L := by
  intro path
  induction path with
  | nil =>
    intro d node w hlen _ hL hc
    subst hlen
    exact ⟨⟨node.id, rfl⟩, hc, rfl, hL⟩
  | cons i rest ih =>
    intro d node w hlen hlt hL hc
    cases d with
    | zero => simp at hlen
    | succ d =>
      have hrest : ∀ j ∈ rest, j < k := fun j hj => hlt j (by simp [hj])
      have hlen1 : rest.length = d := by simpa using hlen
      by_cases hid : node.id = []
      · -- an unwritten subtree
        have hu : Unwritten k (d + 1) node := by
          rcases hc with hu | ⟨hne, _⟩
          · exact hu
          · exact absurd hid hne
        obtain ⟨h1, h2, h3⟩ := descend_unwritten D k (i :: rest) (d + 1) node w hlen hlt hu
        exact ⟨⟨[], h1⟩, coherent_of_unwritten L k _ _ h2,
          by rw [unwritten_id k _ _ h2, hid], by rw [h3]; exact hL⟩
      · obtain ⟨id, ch⟩ := node
        simp only [Node.id] at hid
        subst hL
        obtain ⟨b, ch1, w1, hb, hh, hmap, hl1, hall1, hL1⟩ :=
          hydrate_coherent D hD k d id ch w hid hc
        have hi1 : i < ch1.length := by rw [hl1]; exact hlt i (by simp)
        have hget : ch1[i]? = some ch1[i] := List.getElem?_eq_getElem hi1
        obtain ⟨⟨leafId, h1⟩, h2, h3, h4⟩ := ih d ch1[i] w1 hlen1 hrest hL1
          (hall1 _ (List.getElem_mem hi1))
        simp only [descend, hh, Node.children, Node.id, hget]
        exact ⟨⟨leafId, h1⟩, coherent_set _ k d id b ch1 i _ hid hb hmap hl1 hall1 hi1 h2 h3,
          trivial, h4⟩

/-- Two coherent trees with the same root identifier lead `getLeaf` to the same leaf
identifier. -/
theorem descend_remount {σ : Type} (D : Driver σ) (hD : ReadStable D) (k : Nat)
    (L : Bytes → Except Err Bytes) :
    ∀ (path : List Nat) (d : Nat) (t t1 : Node) (w w1 : World σ),
      path.length = d → (∀ i ∈ path, i < k) → lookup D w = L → lookup D w1 = L →
      Coherent L k d t → Coherent L k d t1 → t1.id = t.id →
      (descend D k path t1 w1).1 = (descend D k path t w).1 := by
  intro path
  induction path with
  | nil =>
    intro d t t1 w w1 _ _ _ _ _ _ hid
    simp [descend, hid]
  | cons i rest ih =>
    intro d t t1 w w1 hlen hlt hL hL1 hc hc1 hid
    cases d with
    | zero => simp at hlen
    | succ d =>
      have hrest : ∀ j ∈ rest, j < k := fun j hj => hlt j (by simp [hj])
      have hlen1 : rest.length = d := by simpa using hlen
      by_cases hid0 : t.id = []
      · have hu : Unwritten k (d + 1) t := by
          rcases hc with hu | ⟨hne, _⟩
          · exact hu
          · exact absurd hid0 hne
        have hu1 : Unwritten k (d + 1) t1 := by
          rcases hc1 with hu | ⟨hne, _⟩
          · exact hu
          · exact absurd (hid.trans hid0) hne
        rw [(descend_unwritten D k (i :: rest) (d + 1) t w hlen hlt hu).1,
          (descend_unwritten D k (i :: rest) (d + 1) t1 w1 hlen hlt hu1).1]
      · obtain ⟨id, ch⟩ := t
        obtain ⟨id1, ch1⟩ := t1
        simp only [Node.id] at hid hid0
        subst hid
        subst hL
        rw [← hL1] at hc1
        obtain ⟨b, cs, v, hb, hh, hmap, hl, hall, hLv⟩ :=
          hydrate_coherent D hD k d id1 ch w hid0 hc
        obtain ⟨b1, cs1, v1, hb1, hh1, hmap1, hl1, hall1, hLv1⟩ :=
          hydrate_coherent D hD k d id1 ch1 w1 hid0 hc1
        rw [hL1, hb] at hb1
        simp only [Except.ok.injEq] at hb1
        subst hb1
        have hi : i < cs.length := by rw [hl]; exact hlt i (by simp)
        have hi1 : i < cs1.length := by rw [hl1]; exact hlt i (by simp)
        have hget : cs[i]? = some cs[i] := List.getElem?_eq_getElem hi
        have hget1 : cs1[i]? = some cs1[i] := List.getElem?_eq_getElem hi1
        have hids : cs1[i].id = cs[i].id := by
          have e := hmap1.trans hmap.symm
          have e1 : (cs1.map Node.id)[i]? = (cs.map Node.id)[i]? := by rw [e]
          simpa [hget, hget1] using e1
        simp only [descend, hh, hh1, Node.children, Node.id, hget, hget1]
        rw [hL1] at hall1 hLv1
        exact ih d cs[i] cs1[i] v v1 hlen1 hrest hLv hLv1
          (hall _ (List.getElem_mem hi)) (hall1 _ (List.getElem_mem hi1)) hids

/-- The node a remount starts from, the identifier alone, is coherent when the node is. -/
theorem coherent_unhydrated (L : Bytes → Except Err Bytes) (k : Nat) :
    ∀ (d : Nat) (t : Node), Coherent L k d t → Coherent L k d (.mk t.id []) := by
  intro d
  induction d with
  | zero => intro t _; simp [Coherent]
  | succ d ih =>
    intro t hc
    rcases hc with hu | ⟨hne, b, hb, hbl, hch⟩
    · rw [unwritten_id k _ _ hu]
      exact Or.inl (unwritten_fresh k (d + 1))
    · refine Or.inr ⟨hne, b, hb, hbl, Or.inl ⟨rfl, ?_⟩⟩
      rcases hch with ⟨_, hall⟩ | ⟨hmap, hall⟩
      · exact hall
      · intro c hc
        rw [← hmap] at hc
        obtain ⟨child, hchild, rfl⟩ := List.mem_map.1 hc
        exact ih child (hall child hchild)

theorem getLeaf_remount {σ : Type} (s : ShortenBlock σ) (t1 : Node) (w w1 : World σ) (j : Nat)
    (hD : ReadStable s.shortener) (hL : lookup s.shortener w1 = lookup s.shortener w)
    (hc : Coherent (lookup s.shortener w) s.idsPerNode s.depth s.tree)
    (hc1 : Coherent (lookup s.shortener w) s.idsPerNode s.depth t1)
    (hid : t1.id = s.tree.id) :
    ∃ r t2 t3 w2 w3, s.getLeaf w j = (r, { s with tree := t2 }, w2)
      ∧ ShortenBlock.getLeaf { s with tree := t1 } w1 j = (r, { s with tree := t3 }, w3)
      ∧ Coherent (lookup s.shortener w) s.idsPerNode s.depth t2
      ∧ Coherent (lookup s.shortener w) s.idsPerNode s.depth t3
      ∧ t3.id = t2.id
      ∧ lookup s.shortener w2 = lookup s.shortener w
      ∧ lookup s.shortener w3 = lookup s.shortener w := by
  by_cases hk : s.idsPerNode = 0 ∧ 0 < s.depth
  · refine ⟨.panic, s.tree, t1, w, w1, ?_, ?_, hc, hc1, hid, rfl, hL⟩
    · rw [ShortenBlock.getLeaf, if_pos hk]
    · rw [ShortenBlock.getLeaf, if_pos hk]
  · have hlt := leafPath_lt_of j hk
    obtain ⟨_, h2, h3, h4⟩ := descend_coherent s.shortener hD s.idsPerNode _
      (leafPath s.idsPerNode s.depth j) s.depth s.tree w (leafPath_length _ _ _) hlt rfl hc
    obtain ⟨_, g2, g3, g4⟩ := descend_coherent s.shortener hD s.idsPerNode _
      (leafPath s.idsPerNode s.depth j) s.depth t1 w1 (leafPath_length _ _ _) hlt hL hc1
    have he := descend_remount s.shortener hD s.idsPerNode _
      (leafPath s.idsPerNode s.depth j) s.depth s.tree t1 w w1 (leafPath_length _ _ _) hlt rfl hL
      hc hc1 hid
    refine ⟨(descend s.shortener s.idsPerNode (leafPath s.idsPerNode s.depth j) s.tree w).1,
      _, _, _, _, ?_, ?_, h2, g2, by rw [g3, h3, hid], h4, g4⟩
    · rw [ShortenBlock.getLeaf, if_neg hk]
    · rw [ShortenBlock.getLeaf, if_neg hk, ← he]

/-- The bytes `Read` takes for a leaf are what `cachedNodeRead` answers for its
identifier. -/
theorem leafRead_lookup {σ : Type} (D : Driver σ) (hD : ReadStable D) (N : Nat) (w : World σ)
    (leafId : Bytes) :
    ∃ w2, (if leafId ≠ [] then cachedNodeRead D w leafId
        else (.ok (List.replicate N 0), w))
      = ((if leafId ≠ [] then lookup D w leafId else .ok (List.replicate N 0)), w2)
      ∧ lookup D w2 = lookup D w := by
  by_cases hid : leafId = []
  · exact ⟨w, by simp [hid], rfl⟩
  · have e1 := cachedNodeRead_fst D w leafId
    have e2 := lookup_cachedNodeRead D hD w leafId
    rcases hr : cachedNodeRead D w leafId with ⟨r, w2⟩
    rw [hr] at e1 e2
    simp only at e1 e2
    exact ⟨w2, by simp [hid, e1], e2⟩

theorem readLeaf_remount {σ : Type} (s : ShortenBlock σ) (t1 : Node) (w w1 : World σ)
    (size offset st en j : Nat) (readData : Bytes)
    (hD : ReadStable s.shortener) (hL : lookup s.shortener w1 = lookup s.shortener w)
    (hc : Coherent (lookup s.shortener w) s.idsPerNode s.depth s.tree)
    (hc1 : Coherent (lookup s.shortener w) s.idsPerNode s.depth t1)
    (hid : t1.id = s.tree.id) :
    ∃ r t2 t3 w2 w3, s.readLeaf w size offset st en j readData = (r, { s with tree := t2 }, w2)
      ∧ ShortenBlock.readLeaf { s with tree := t1 } w1 size offset st en j readData
          = (r, { s with tree := t3 }, w3)
      ∧ Coherent (lookup s.shortener w) s.idsPerNode s.depth t2
      ∧ Coherent (lookup s.shortener w) s.idsPerNode s.depth t3
      ∧ t3.id = t2.id
      ∧ lookup s.shortener w2 = lookup s.shortener w
      ∧ lookup s.shortener w3 = lookup s.shortener w := by
  obtain ⟨r, t2, t3, w2, w3, hg, hg1, c2, c3, hid23, hL2, hL3⟩ :=
    getLeaf_remount s t1 w w1 j hD hL hc hc1 hid
  cases r with
  | err e =>
    exact ⟨.err e, t2, t3, w2, w3, by simp [ShortenBlock.readLeaf, hg],
      by simp [ShortenBlock.readLeaf, hg1], c2, c3, hid23, hL2, hL3⟩
  | panic =>
    exact ⟨.panic, t2, t3, w2, w3, by simp [ShortenBlock.readLeaf, hg],
      by simp [ShortenBlock.readLeaf, hg1], c2, c3, hid23, hL2, hL3⟩
  | ok leafId =>
    obtain ⟨v2, hr2, hLv2⟩ := leafRead_lookup s.shortener hD s.shortener.NodeSize w2 leafId
    obtain ⟨v3, hr3, hLv3⟩ := leafRead_lookup s.shortener hD s.shortener.NodeSize w3 leafId
    rw [hL3, ← hL2] at hr3
    unfold ShortenBlock.readLeaf
    rw [hg, hg1]
    simp only [hr2, hr3]
    cases (if leafId ≠ [] then lookup s.shortener w2 leafId
        else Except.ok (List.replicate s.shortener.NodeSize 0)) with
    | error e => exact ⟨_, t2, t3, v2, v3, rfl, rfl, c2, c3, hid23, hLv2.trans hL2, hLv3.trans hL3⟩
    | ok leafData =>
      simp only
      split
      · exact ⟨_, t2, t3, v2, v3, rfl, rfl, c2, c3, hid23, hLv2.trans hL2, hLv3.trans hL3⟩
      · split
        · exact ⟨_, t2, t3, v2, v3, rfl, rfl, c2, c3, hid23, hLv2.trans hL2, hLv3.trans hL3⟩
        · exact ⟨_, t2, t3, v2, v3, rfl, rfl, c2, c3, hid23, hLv2.trans hL2, hLv3.trans hL3⟩

theorem readLoop_remount {σ : Type} (size offset st en : Nat) :
    ∀ (l : List Nat) (s : ShortenBlock σ) (t1 : Node) (w w1 : World σ) (readData : Bytes),
      ReadStable s.shortener → lookup s.shortener w1 = lookup s.shortener w →
      Coherent (lookup s.shortener w) s.idsPerNode s.depth s.tree →
      Coherent (lookup s.shortener w) s.idsPerNode s.depth t1 →
      t1.id = s.tree.id →
      (ShortenBlock.readLoop size offset st en l { s with tree := t1 } w1 readData).1
        = (ShortenBlock.readLoop size offset st en l s w readData).1 := by
  intro l
  induction l with
  | nil => intro s t1 w w1 readData _ _ _ _ _; rfl
  | cons j rest ih =>
    intro s t1 w w1 readData hD hL hc hc1 hid
    obtain ⟨r, t2, t3, w2, w3, hr, hr1, c2, c3, hid23, hL2, hL3⟩ :=
      readLeaf_remount s t1 w w1 size offset st en j readData hD hL hc hc1 hid
    cases r with
    | err e => simp only [ShortenBlock.readLoop, hr, hr1]
    | panic => simp only [ShortenBlock.readLoop, hr, hr1]
    | ok readData1 =>
      simp only [ShortenBlock.readLoop, hr, hr1]
      rw [← hL2] at c2 c3
      exact ih { s with tree := t2 } t3 w2 w3 readData1 hD (hL3.trans hL2.symm) c2 c3 hid23

/-- Two blocks over the same shortener, with the same geometry, coherent trees and the same
root identifier, in worlds where `cachedNodeRead` gives the same answers, return the same
from `Read`. -/
theorem Read_remount {σ : Type} (s : ShortenBlock σ) (t1 : Node) (w w1 : World σ)
    (size offset : Nat) (hD : ReadStable s.shortener)
    (hL : lookup s.shortener w1 = lookup s.shortener w)
    (hc : Coherent (lookup s.shortener w) s.idsPerNode s.depth s.tree)
    (hc1 : Coherent (lookup s.shortener w) s.idsPerNode s.depth t1)
    (hid : t1.id = s.tree.id) :
    (ShortenBlock.Read { s with tree := t1 } w1 size offset).1 = (s.Read w size offset).1 := by
  by_cases hN : s.shortener.NodeSize = 0
  · simp [ShortenBlock.Read, hN]
  · simp only [ShortenBlock.Read, hN, if_false]
    exact readLoop_remount size offset _ _ _ s t1 w w1 [] hD hL hc hc1 hid

/-- Remounting a coherent volume: the block `NewShortenBlock` creates over the same
shortener with the same depth and `ROOT_ID = GetRootID()` returns from every `Read` what
the original block returns, in any world in which `cachedNodeRead` gives the same answers
as in the original's (the same cache, or a cache that agrees with the shortener). -/
theorem NewShortenBlock_Read_eq_of_coherent {σ : Type} (s : ShortenBlock σ) (w w1 : World σ)
    (size offset : Nat) (hD : ReadStable s.shortener) (hd : 0 < s.depth)
    (hk : s.idsPerNode = (s.shortener.NodeSize + 1) / (s.shortener.IdSize + 1))
    (hL : lookup s.shortener w1 = lookup s.shortener w)
    (hc : Coherent (lookup s.shortener w) s.idsPerNode s.depth s.tree) :
    (NewShortenBlock s.shortener { RootID := s.GetRootID, Depth := s.depth }).map
        (fun b => (b.Read w1 size offset).1)
      = some (s.Read w size offset).1 := by
  have h0 : ¬ ((s.depth : Int) ≤ 0) := by omega
  have e : NewShortenBlock s.shortener { RootID := s.GetRootID, Depth := s.depth }
      = some { s with tree := .mk s.tree.id [] } := by
    simp only [NewShortenBlock, h0, if_false, Int.toNat_ofNat, ShortenBlock.GetRootID, ← hk]
  rw [e, Option.map_some']
  exact congrArg some (Read_remount s (.mk s.tree.id []) w w1 size offset hD hL hc
    (coherent_unhydrated _ _ _ _ hc) rfl)

/-- The volume left by `Write(6, "XYZW")` on the volume of the scenarios. -/
theorem runWrites_demo_eq :
    runWrites [(6, [88, 89, 90, 87])] (demoBlock true) demoWorld
      = ({ depth := 2, idsPerNode := 3, shortener := memDriver 8 2 true,
           tree := .mk [97, 102]
             [.mk [97, 101] [.mk [97, 97] [], .mk [97, 100] [], .mk [] []], .mk [] [],
               .mk [] []] },
         { store := [[0, 0, 0, 0, 0, 0, 88, 89], [97, 97, 44, 44], [97, 98, 44, 44],
             [90, 87, 0, 0, 0, 0, 0, 0], [97, 97, 44, 97, 100, 44], [97, 101, 44, 44]],
           readCache := [] }) := by
  rfl

/-- Remounting the volume left by `Write(6, "XYZW")`: the remounted block returns from
`Read(12, 0)` what the original block returns. -/
theorem NewShortenBlock_Read_eq_after_Write :
    (NewShortenBlock (memDriver 8 2 true)
        { RootID := (runWrites [(6, [88, 89, 90, 87])] (demoBlock true) demoWorld).1.GetRootID,
          Depth := 2 }).map
        (fun b => (b.Read
          (runWrites [(6, [88, 89, 90, 87])] (demoBlock true) demoWorld).2.expired 12 0).1)
      = some ((runWrites [(6, [88, 89, 90, 87])] (demoBlock true) demoWorld).1.Read
          (runWrites [(6, [88, 89, 90, 87])] (demoBlock true) demoWorld).2 12 0).1 := by
  rw [runWrites_demo_eq]
  refine NewShortenBlock_Read_eq_of_coherent _ _ _ 12 0 (memDriver_readStable 8 2 true)
    (by decide) (by decide) rfl ?_
  have h0 : ∀ (L : Bytes → Except Err Bytes) (d : Nat), Coherent L 3 d (.mk [] []) :=
    fun L d => coherent_of_unwritten L 3 d _ (unwritten_fresh 3 d)
  have h2 : ∀ (L : Bytes → Except Err Bytes) (d : Nat) (id b : Bytes) (c1 c2 c3 : Node),
      id ≠ [] → L id = .ok b → stringsSplit (stringsTrim b) = [c1.id, c2.id, c3.id] →
      Coherent L 3 d c1 → Coherent L 3 d c2 → Coherent L 3 d c3 →
      Coherent L 3 (d + 1) (.mk id [c1, c2, c3]) := fun L d id b c1 c2 c3 hid hb hs g1 g2 g3 => by
    simp only [Coherent]
    refine Or.inr ⟨hid, b, hb, by rw [hs]; rfl, Or.inr ⟨by rw [hs]; rfl, ?_⟩⟩
    intro c hc
    simp only [Node.children, List.mem_cons, List.mem_singleton, List.not_mem_nil,
      or_false] at hc
    rcases hc with rfl | rfl | rfl
    · exact g1
    · exact g2
    · exact g3
  exact h2 _ 1 _ [97, 101, 44, 44] _ _ _ (by decide) rfl (by decide)
    (h2 _ 0 _ [97, 97, 44, 97, 100, 44] _ _ _ (by decide) rfl (by decide)
      (by simp [Coherent]) (by simp [Coherent]) (by simp [Coherent]))
    (h0 _ _) (h0 _ _)

/-- C12: a remounted block does not return what the original block returns.  On the volume
of the scenarios (`NODE_SIZE = 8`, `ID_SIZE = 2`, `DEPTH = 2`) over the content-addressed
in-memory shortener, every `Write` below returns `(len(data), nil)`.

After a restart (empty cache): following `Write(0, "AB")`, `Write(0, "CD")`, `Write(0, "AB")`
the original block returns `"CD"` from `Read(2, 0)`, served from the cache entry that the
second write overwrote in place, and the block created with `ROOT_ID = GetRootID()` returns
`"AB"`.

In the same process (same cache): following `Write(24, bytes 1..17)`,
`Write(0, "aa,ad,ag!")`, `Write(1, "d")`, leaf 0 held the bytes of the payload of interior
node 1 and, the shortener being content-addressed, its identifier `ah`; the third write
changed the slice cached under `ah` to `"ad,ad,ag"`.  The original block returns bytes
`1..8` from `Read(8, 24)`; the remounted block hydrates node 1 from that cache entry and
returns bytes `9..16`. -/
theorem remounted_block_reads_other_bytes :
    writeResults [(0, [65, 66]), (0, [67, 68]), (0, [65, 66])] (demoBlock true) demoWorld
        = [.ok 2, .ok 2, .ok 2]
      ∧ ((runWrites [(0, [65, 66]), (0, [67, 68]), (0, [65, 66])] (demoBlock true) demoWorld).1.Read
          (runWrites [(0, [65, 66]), (0, [67, 68]), (0, [65, 66])] (demoBlock true) demoWorld).2
          2 0).1 = .ok [67, 68]
      ∧ (NewShortenBlock (memDriver 8 2 true)
          { RootID := (runWrites [(0, [65, 66]), (0, [67, 68]), (0, [65, 66])] (demoBlock true)
              demoWorld).1.GetRootID,
            Depth := 2 }).map
          (fun b => (b.Read
            (runWrites [(0, [65, 66]), (0, [67, 68]), (0, [65, 66])] (demoBlock true)
              demoWorld).2.expired 2 0).1)
        = some (.ok [65, 66])
      ∧ writeResults
          [(24, [1, 2, 3, 4, 5, 6, 7, 8, 9, 10, 11, 12, 13, 14, 15, 16, 17]),
            (0, [97, 97, 44, 97, 100, 44, 97, 103, 33]), (1, [100])]
          (demoBlock true) demoWorld = [.ok 17, .ok 9, .ok 1]
      ∧ ((runWrites
          [(24, [1, 2, 3, 4, 5, 6, 7, 8, 9, 10, 11, 12, 13, 14, 15, 16, 17]),
            (0, [97, 97, 44, 97, 100, 44, 97, 103, 33]), (1, [100])]
          (demoBlock true) demoWorld).1.Read
          (runWrites
            [(24, [1, 2, 3, 4, 5, 6, 7, 8, 9, 10, 11, 12, 13, 14, 15, 16, 17]),
              (0, [97, 97, 44, 97, 100, 44, 97, 103, 33]), (1, [100])]
            (demoBlock true) demoWorld).2 8 24).1 = .ok [1, 2, 3, 4, 5, 6, 7, 8]
      ∧ (NewShortenBlock (memDriver 8 2 true)
          { RootID := (runWrites
              [(24, [1, 2, 3, 4, 5, 6, 7, 8, 9, 10, 11, 12, 13, 14, 15, 16, 17]),
                (0, [97, 97, 44, 97, 100, 44, 97, 103, 33]), (1, [100])]
              (demoBlock true) demoWorld).1.GetRootID,
            Depth := 2 }).map
          (fun b => (b.Read
            (runWrites
              [(24, [1, 2, 3, 4, 5, 6, 7, 8, 9, 10, 11, 12, 13, 14, 15, 16, 17]),
                (0, [97, 97, 44, 97, 100, 44, 97, 103, 33]), (1, [100])]
              (demoBlock true) demoWorld).2 8 24).1)
        = some (.ok [9, 10, 11, 12, 13, 14, 15, 16]) :=
  ⟨by decide, by decide, by decide, by decide, by decide, by decide⟩

end ShortenFS
